import Mathlib

/-!
Verification of the ricochet-robots solver core.

This file is a shallow embedding, in Lean, of the data model and the search
components of the ricochet-robots solver (crates `ricochet_board` and
`ricochet_solver`), together with theorems settling the specification claims
about them.

Conventions used by the embedding:
* Rust `u16` / `usize` coordinates and counters become `Nat`; the packed
  `Position` encoding (column in the high byte, row in the low byte) is
  represented by its two components, which is faithful for all coordinates
  below 256, in particular everywhere a position can sit on a board that the
  encoding can address.
* A Rust function that can panic is modelled as an `Option`-valued function,
  `none` standing for the panic; a loop whose termination is not structural
  runs on explicit fuel, and lemmas discharge the fuel wherever the Rust
  loop terminates.
* `Vec`-indexing reads that the code only performs in bounds are modelled
  with `getD` defaults; `Option`-valued "checked" variants mirror the panic
  behaviour where a claim is about it.
-/

namespace Ricochet

/-- The directions a robot can be moved in (`ricochet_board/src/lib.rs`). -/
inductive Direction where
  | Up
  | Down
  | Right
  | Left
deriving DecidableEq

/-- The robots identified by their color (`ricochet_board/src/lib.rs`). -/
inductive Robot where
  | Red
  | Blue
  | Green
  | Yellow
deriving DecidableEq, Fintype

/-- Symbols used with colored targets (`ricochet_board/src/lib.rs`). -/
inductive Symbol where
  | Circle
  | Triangle
  | Square
  | Hexagon
deriving DecidableEq

/-- The different targets to reach (`ricochet_board/src/lib.rs`). -/
inductive Target where
  | Red (s : Symbol)
  | Blue (s : Symbol)
  | Green (s : Symbol)
  | Yellow (s : Symbol)
  | Spiral
deriving DecidableEq

/-- The `DIRECTIONS` constant of `lib.rs`: canonical direction order. -/
def DIRECTIONS : List Direction := [.Up, .Down, .Right, .Left]

/-- The `ROBOTS` constant of `lib.rs`: canonical robot order. -/
def ROBOTS : List Robot := [.Red, .Blue, .Green, .Yellow]

/-- `TryFrom<Target> for Robot` (`lib.rs`): the robot a colored target is
for; the spiral target has none (the Rust conversion returns an error). -/
def Target.toRobot? : Target → Option Robot
  | .Red _ => some .Red
  | .Blue _ => some .Blue
  | .Green _ => some .Green
  | .Yellow _ => some .Yellow
  | .Spiral => none

/-- A position on the board (`ricochet_board/src/positions.rs`), given by its
column and row, the two components of the packed `u16` encoding. -/
structure Position where
  column : Nat
  row : Nat
deriving DecidableEq

/-- `From<(u16, u16)> for Position`. -/
def Position.from_tuple (t : Nat × Nat) : Position :=
  { column := t.1, row := t.2 }

/-- `Position::to_direction`: move one field in `direction`, wrapping around
at the edge of the board given by `side_length`.  Mirrors the modular
arithmetic of the source (faithful for `side_length > 0`; for
`side_length = 0` the Rust code would divide by zero). -/
def Position.to_direction (p : Position) (direction : Direction) (side_length : Nat) :
    Position :=
  match direction with
  | .Right => { p with column := (p.column + 1) % side_length }
  | .Left => { p with column := (p.column + side_length - 1) % side_length }
  | .Up => { p with row := (p.row + side_length - 1) % side_length }
  | .Down => { p with row := (p.row + 1) % side_length }

/-- A field on the board: walls on its right and bottom edges (`lib.rs`). -/
structure Field where
  down : Bool
  right : Bool
deriving DecidableEq

/-- The wall grid, indexed `walls[column][row]` as in the source. -/
abbrev Walls := List (List Field)

/-- A ricochet robots board containing walls (`lib.rs`). -/
structure Board where
  walls : Walls
deriving DecidableEq

/-- `Board::side_length`. -/
def Board.side_length (b : Board) : Nat := b.walls.length

/-- Checked read of `walls[col][row]`: `none` models the Rust panic on an
out-of-bounds vector index. -/
def Board.fieldAt? (b : Board) (col row : Nat) : Option Field :=
  (b.walls.get? col).bind fun column => column.get? row

/-- Total read of `walls[col][row]`, agreeing with `fieldAt?` whenever the
indices are in bounds (which is everywhere the Rust code reads). -/
def Board.fieldAt (b : Board) (col row : Nat) : Field :=
  (b.walls.getD col []).getD row { down := false, right := false }

/-- `Board::is_adjacent_to_wall` (`lib.rs`): checked version; `none` models
the panic on an out-of-bounds read. -/
def Board.is_adjacent_to_wall? (b : Board) (pos : Position) (direction : Direction) :
    Option Bool :=
  match direction with
  | .Right => (b.fieldAt? pos.column pos.row).map Field.right
  | .Down => (b.fieldAt? pos.column pos.row).map Field.down
  | .Left =>
      (b.fieldAt? (pos.to_direction .Left b.side_length).column
        (pos.to_direction .Left b.side_length).row).map Field.right
  | .Up =>
      (b.fieldAt? (pos.to_direction .Up b.side_length).column
        (pos.to_direction .Up b.side_length).row).map Field.down

/-- `Board::is_adjacent_to_wall`, total version (used by the search layer,
which only ever queries in-bounds positions). -/
def Board.is_adjacent_to_wall (b : Board) (pos : Position) (direction : Direction) :
    Bool :=
  match direction with
  | .Right => (b.fieldAt pos.column pos.row).right
  | .Down => (b.fieldAt pos.column pos.row).down
  | .Left =>
      (b.fieldAt (pos.to_direction .Left b.side_length).column
        (pos.to_direction .Left b.side_length).row).right
  | .Up =>
      (b.fieldAt (pos.to_direction .Up b.side_length).column
        (pos.to_direction .Up b.side_length).row).down

/-- `Board::new` (`lib.rs`): panics — here `none` — when some wall column has
a length different from the number of columns. -/
def Board.new (walls : Walls) : Option Board :=
  if walls.all fun v => v.length = walls.length then some { walls } else none

/-- `Board::new_empty`. -/
def Board.new_empty (side_length : Nat) : Board :=
  { walls := List.replicate side_length
      (List.replicate side_length { down := false, right := false }) }

/-- Set `walls[col][row].right := true`; out-of-bounds writes cannot occur at
the call sites below (sources always pass indices below the side length). -/
def Board.setRight (b : Board) (col row : Nat) : Board :=
  { walls := b.walls.modify (fun c => c.modify (fun f => { f with right := true }) row) col }

/-- Set `walls[col][row].down := true`. -/
def Board.setDown (b : Board) (col row : Nat) : Board :=
  { walls := b.walls.modify (fun c => c.modify (fun f => { f with down := true }) row) col }

/-- `Board::set_vertical_line`: starting from `[col, row]`, set `len` fields
downwards to have a wall on the right side. -/
def Board.set_vertical_line (b : Board) (col row len : Nat) : Board :=
  (List.range len).foldl (fun bd i => bd.setRight col (row + i)) b

/-- `Board::set_horizontal_line`: starting from `[col, row]`, set `width`
fields to the right to have a wall on the bottom side. -/
def Board.set_horizontal_line (b : Board) (col row width : Nat) : Board :=
  (List.range width).foldl (fun bd i => bd.setDown (col + i) row) b

/-- `Board::enclose_lengths` (`lib.rs`). -/
def Board.enclose_lengths (b : Board) (col row len width : Nat) : Board :=
  let board_size := b.side_length
  let top_row := if row = 0 then board_size - 1 else row - 1
  let bottom_row := if board_size < row + len then board_size - 1 else row + len - 1
  let left_col := if col = 0 then board_size - 1 else col - 1
  let right_col := if board_size < col + width then board_size - 1 else col + width - 1
  ((((b.set_horizontal_line col top_row width).set_horizontal_line col bottom_row width).set_vertical_line
      left_col row len).set_vertical_line right_col row len)

/-- `Board::wall_enclosure`: encloses the board with walls. -/
def Board.wall_enclosure (b : Board) : Board :=
  b.enclose_lengths 0 0 b.side_length b.side_length

/-- `Board::set_center_walls`. -/
def Board.set_center_walls (b : Board) : Board :=
  let point := b.side_length / 2 - 1
  b.enclose_lengths point point 2 2

/-- Positions of all robots on the board (`positions.rs`). -/
structure RobotPositions where
  red : Position
  blue : Position
  green : Position
  yellow : Position
deriving DecidableEq

/-- `RobotPositions::from_tuples`: creates the state from four `(column, row)`
tuples, used in the order red, blue, green, yellow.  The source performs no
validation of any kind. -/
def RobotPositions.from_tuples (p0 p1 p2 p3 : Nat × Nat) : RobotPositions :=
  { red := Position.from_tuple p0
    blue := Position.from_tuple p1
    green := Position.from_tuple p2
    yellow := Position.from_tuple p3 }

/-- `Index<Robot> for RobotPositions`: the position of one robot. -/
def RobotPositions.get (s : RobotPositions) : Robot → Position
  | .Red => s.red
  | .Blue => s.blue
  | .Green => s.green
  | .Yellow => s.yellow

/-- `RobotPositions::set_robot`. -/
def RobotPositions.set_robot (s : RobotPositions) (robot : Robot) (new_position : Position) :
    RobotPositions :=
  match robot with
  | .Red => { s with red := new_position }
  | .Blue => { s with blue := new_position }
  | .Green => { s with green := new_position }
  | .Yellow => { s with yellow := new_position }

/-- `RobotPositions::contains_any_robot`. -/
def RobotPositions.contains_any_robot (s : RobotPositions) (pos : Position) : Bool :=
  pos = s.red || pos = s.blue || pos = s.green || pos = s.yellow

/-- `RobotPositions::contains_colored_robot`. -/
def RobotPositions.contains_colored_robot (s : RobotPositions) (robot : Robot)
    (pos : Position) : Bool :=
  pos = s.get robot

/-- `RobotPositions::adjacent_reachable`: the adjacent field in `direction` is
reachable, i.e. no wall in between and not already occupied. -/
def RobotPositions.adjacent_reachable (s : RobotPositions) (b : Board) (pos : Position)
    (direction : Direction) : Bool :=
  !(b.is_adjacent_to_wall pos direction)
    && !(s.contains_any_robot (pos.to_direction direction b.side_length))

/-- Checked version of `adjacent_reachable`; `none` models the panic of the
wall lookup (the occupancy check cannot fail). -/
def RobotPositions.adjacent_reachable? (s : RobotPositions) (b : Board) (pos : Position)
    (direction : Direction) : Option Bool :=
  (b.is_adjacent_to_wall? pos direction).map fun w =>
    !w && !(s.contains_any_robot (pos.to_direction direction b.side_length))

/-- The `while` loop of `RobotPositions::move_in_direction`, on fuel: advance
the temporary position while the adjacent field is reachable.  The Rust loop
makes at most `side_length - 1` advances (the moving robot's own start cell
blocks a full wrap), so fuel `side_length` makes this total and faithful. -/
def moveLoop (b : Board) (s : RobotPositions) (direction : Direction) :
    Nat → Position → Position
  | 0, p => p
  | fuel + 1, p =>
      if s.adjacent_reachable b p direction then
        moveLoop b s direction fuel (p.to_direction direction b.side_length)
      else
        p

/-- `RobotPositions::move_in_direction`: move `robot` as far in `direction`
as possible (total version, used by the successor enumerator). -/
def RobotPositions.move_in_direction (s : RobotPositions) (b : Board) (robot : Robot)
    (direction : Direction) : RobotPositions :=
  s.set_robot robot (moveLoop b s direction b.side_length (s.get robot))

/-- Checked variant of the move loop: `none` models the panic of a wall
lookup (out-of-bounds position or empty board). -/
def moveLoop? (b : Board) (s : RobotPositions) (direction : Direction) :
    Nat → Position → Option Position
  | 0, _ => none
  | fuel + 1, p =>
      match s.adjacent_reachable? b p direction with
      | none => none
      | some true => moveLoop? b s direction fuel (p.to_direction direction b.side_length)
      | some false => some p

/-- Checked `RobotPositions::move_in_direction`: `none` models the Rust
panic (which happens exactly when a wall lookup goes out of bounds). -/
def RobotPositions.move_in_direction? (s : RobotPositions) (b : Board) (robot : Robot)
    (direction : Direction) : Option RobotPositions :=
  (moveLoop? b s direction (b.side_length + 1) (s.get robot)).map (s.set_robot robot)

/-- `RobotPositions::reachable_positions`: all `(next_state, move)` pairs with
`next_state` different from `self`, enumerated in robot-major, then
direction order. -/
def RobotPositions.reachable_positions (s : RobotPositions) (b : Board) :
    List (RobotPositions × (Robot × Direction)) :=
  (ROBOTS.flatMap fun robot => DIRECTIONS.map fun direction => (robot, direction)).filterMap
    fun rd =>
      let pos := s.move_in_direction b rd.1 rd.2
      if pos ≠ s then some (pos, rd) else none

/-- One round of a ricochet game (`lib.rs`). -/
structure Round where
  board : Board
  target : Target
  target_position : Position
deriving DecidableEq

/-- `Round::new`: the source performs no validation of any kind. -/
def Round.new (board : Board) (target : Target) (target_position : Position) : Round :=
  { board, target, target_position }

/-- `Round::target_reached`: the win predicate. -/
def Round.target_reached (r : Round) (positions : RobotPositions) : Bool :=
  match r.target.toRobot? with
  | none => positions.contains_any_robot r.target_position
  | some robot => positions.contains_colored_robot robot r.target_position

/-- A wall grid is well-formed when every column has as many fields as there
are columns; this is exactly the property `Board::new` enforces. -/
def Board.Wellformed (b : Board) : Prop :=
  ∀ c ∈ b.walls, c.length = b.walls.length

/-- A position is on the board. -/
def Position.InBounds (p : Position) (side_length : Nat) : Prop :=
  p.column < side_length ∧ p.row < side_length

/-- Iterated one-step translation in a fixed direction. -/
def Position.iterDir (p : Position) (d : Direction) (side : Nat) : Nat → Position
  | 0 => p
  | j + 1 => (p.iterDir d side j).to_direction d side

/-- The per-cell move-count grid of `LeastMovesBoard`, as a function.  The
source stores a `Vec<Vec<usize>>` indexed `[column][row]`; a function model
keeps the same reads and writes (cells never written keep the initial
value). -/
abbrev Grid := Position → Nat

/-- Write one cell of the grid. -/
def Grid.update (g : Grid) (q : Position) (v : Nat) : Grid :=
  fun x => if x = q then v else g x

/-- A board is enclosed when the wraparound wall reads at the outer edges all
report a wall; `Board::wall_enclosure` establishes exactly this (it sets the
right walls of the last column and the bottom walls of the last row, which
the wraparound adjacency rule also reads as the left and top outer edges). -/
def Board.Enclosed (b : Board) : Prop :=
  0 < b.side_length ∧
    (∀ r < b.side_length, (b.fieldAt (b.side_length - 1) r).right = true) ∧
    (∀ c < b.side_length, (b.fieldAt c (b.side_length - 1)).down = true)

/-- The cells traversed by the wall-only walk of the `LeastMovesBoard::new`
inner loop, starting at `p` in direction `d` (excluding `p`), on fuel.  On an
enclosed board the Rust loop stops at a wall within `side_length - 1` steps,
so fuel `side_length` reproduces it. -/
def walkCells (b : Board) (d : Direction) : Nat → Position → List Position
  | 0, _ => []
  | fuel + 1, p =>
      if b.is_adjacent_to_wall p d then []
      else
        p.to_direction d b.side_length ::
          walkCells b d fuel (p.to_direction d b.side_length)

/-- Process the cells of one wall-only walk at pass number `k`: assign `k` to
every traversed cell whose current value exceeds `k` and push it onto the
next frontier (`LeastMovesBoard::new`, innermost loop body). -/
def lmVisit (k : Nat) : Grid × List Position → List Position → Grid × List Position
  | acc, [] => acc
  | acc, q :: rest =>
      if k < acc.1 q then lmVisit k (acc.1.update q k, acc.2 ++ [q]) rest
      else lmVisit k acc rest

/-- Process all four directions from one frontier cell `p`. -/
def lmDirs (b : Board) (k : Nat) (p : Position) :
    Grid × List Position → List Direction → Grid × List Position
  | acc, [] => acc
  | acc, d :: rest => lmDirs b k p (lmVisit k acc (walkCells b d b.side_length p)) rest

/-- Process all frontier cells of one pass. -/
def lmCells (b : Board) (k : Nat) :
    Grid × List Position → List Position → Grid × List Position
  | acc, [] => acc
  | acc, p :: rest => lmCells b k (lmDirs b k p acc DIRECTIONS) rest

/-- The pass loop of `LeastMovesBoard::new` (`for move_n in 1.. { ... }`):
run passes with increasing move number until a pass pushes no new cells.
The Rust loop needs at most `side_length ^ 2` passes (each continuing pass
assigns at least one previously unassigned cell), so the explicit fuel used
below never runs out. -/
def lmLoop (b : Board) : Nat → Nat → Grid → List Position → Grid
  | 0, _, g, _ => g
  | fuel + 1, k, g, current =>
      let pass := lmCells b k (g, []) current
      if pass.2.isEmpty then pass.1
      else lmLoop b fuel (k + 1) pass.1 pass.2

/-- `LeastMovesBoard` (`ricochet_solver/src/util.rs`).  `side` records the
length of the `Vec<Vec<usize>>` of the source (the grid being a function
here). -/
structure LeastMovesBoard where
  board : Grid
  side : Nat
  target_position : Position

/-- `LeastMovesBoard::new`: multi-source BFS by move count in slide space,
ignoring robots. -/
def LeastMovesBoard.new (b : Board) (target_position : Position) : LeastMovesBoard :=
  let len := b.side_length
  { board := lmLoop b (len * len + 1) 1
      (Grid.update (fun _ => len * len) target_position 0) [target_position]
    side := len
    target_position }

/-- `LeastMovesBoard::min_moves`: the lower bound for the robot the target
is for; for the spiral target, the minimum over the four robots (the Rust
`Iterator::min` over `ROBOTS`, written as the same left fold of `Nat.min`). -/
def LeastMovesBoard.min_moves (lm : LeastMovesBoard) (robots : RobotPositions)
    (target : Target) : Nat :=
  match target.toRobot? with
  | some color => lm.board (robots.get color)
  | none =>
      min (min (min (lm.board robots.red) (lm.board robots.blue))
        (lm.board robots.green)) (lm.board robots.yellow)

/-- `LeastMovesBoard::is_unsolvable`. -/
def LeastMovesBoard.is_unsolvable (lm : LeastMovesBoard) (robots : RobotPositions)
    (target : Target) : Bool :=
  lm.side * lm.side ≤ lm.min_moves robots target

/-- The opposite of a direction. -/
def Direction.opp : Direction → Direction
  | .Up => .Down
  | .Down => .Up
  | .Right => .Left
  | .Left => .Right

/-- How one pass fragment of `LeastMovesBoard::new` transforms the grid and
the next frontier: every cell either keeps its value or is assigned the pass
number `k` (only if that improves it), and the frontier collects exactly the
newly assigned cells. -/
def StepSpec (k : Nat) (g1 : Grid) (n1 : List Position) (g2 : Grid)
    (n2 : List Position) : Prop :=
  (∀ p, g2 p = g1 p ∨ (g2 p = k ∧ k < g1 p)) ∧
    (∀ p, p ∈ n2 ↔ p ∈ n1 ∨ (g2 p = k ∧ k < g1 p))

/-- The number of in-bounds cells holding a value below the unassigned
marker `len * len`. -/
def assignedCard (len : Nat) (g : Grid) : Nat :=
  ((Finset.range len ×ˢ Finset.range len).filter fun cr =>
    g { column := cr.1, row := cr.2 } < len * len).card

/-- Replay a list of `(robot, direction)` movements through the move
simulator. -/
def applyMoves (b : Board) (s : RobotPositions) (moves : List (Robot × Direction)) :
    RobotPositions :=
  moves.foldl (fun st m => st.move_in_direction b m.1 m.2) s

/-- `Path` (`ricochet_solver/src/lib.rs`). -/
structure Path where
  start_pos : RobotPositions
  end_pos : RobotPositions
  movements : List (Robot × Direction)
deriving DecidableEq

/-- `Path::new` (without the debug assertion, which is compiled out in
release builds). -/
def Path.new (start_pos end_pos : RobotPositions)
    (movements : List (Robot × Direction)) : Path :=
  { start_pos, end_pos, movements }

/-- `Path::new_start_on_target`. -/
def Path.new_start_on_target (start_pos : RobotPositions) : Path :=
  Path.new start_pos start_pos []

/-- `Path::len`. -/
def Path.len (p : Path) : Nat := p.movements.length

/-- `AddNodeOutcome` (`ricochet_solver/src/util.rs`). -/
inductive AddNodeOutcome where
  | New
  | WorseKnown
  | BetterKnown
deriving DecidableEq

/-- `AddNodeOutcome::was_added`. -/
def AddNodeOutcome.was_added : AddNodeOutcome → Bool
  | .New => true
  | .WorseKnown => true
  | .BetterKnown => false

/-- `AddNodeOutcome::was_discarded`. -/
def AddNodeOutcome.was_discarded (o : AddNodeOutcome) : Bool :=
  !o.was_added

/-- `BasicVisitedNode` (`util.rs`). -/
structure BasicVisitedNode where
  moves_to_reach : Nat
  previous_position : RobotPositions
  robot : Robot
  direction : Direction
deriving DecidableEq

/-- `BasicVisitedNode::new`. -/
def BasicVisitedNode.new (moves : Nat) (previous_position : RobotPositions)
    (movement : Robot × Direction) : BasicVisitedNode :=
  { moves_to_reach := moves, previous_position, robot := movement.1,
    direction := movement.2 }

/-- `BasicVisitedNode::reached_with`. -/
def BasicVisitedNode.reached_with (n : BasicVisitedNode) : Robot × Direction :=
  (n.robot, n.direction)

/-- `VisitedNodes` (`util.rs`): the source wraps a hash map from
`RobotPositions` to the node record; an association list with the same
lookup, insert and in-place-overwrite operations models it.  The solvers
only ever instantiate the node type with `BasicVisitedNode`, which is the
instantiation embedded here. -/
abbrev VisitedNodes := List (RobotPositions × BasicVisitedNode)

/-- `VisitedNodes::get`: the lookup of the underlying map. -/
def VisitedNodes.get : VisitedNodes → RobotPositions → Option BasicVisitedNode
  | [], _ => none
  | (k, v) :: rest, pos => if k = pos then some v else VisitedNodes.get rest pos

/-- Overwrite the record stored at a key (the `occupied.insert` arm of
`add_node`); leaves the table unchanged when the key is absent. -/
def VisitedNodes.overwrite : VisitedNodes → RobotPositions → BasicVisitedNode →
    VisitedNodes
  | [], _, _ => []
  | (k, v) :: rest, pos, n =>
      if k = pos then (k, n) :: rest else (k, v) :: VisitedNodes.overwrite rest pos n

/-- `VisitedNodes::add_node` (`util.rs`), with `create_node =
BasicVisitedNode::new` as at every call site of the solvers. -/
def VisitedNodes.add_node (t : VisitedNodes) (positions : RobotPositions)
    (from_pos : RobotPositions) (moves : Nat) (moved : Robot × Direction) :
    VisitedNodes × AddNodeOutcome :=
  match t.get positions with
  | some occupied =>
      if occupied.moves_to_reach ≤ moves then (t, .BetterKnown)
      else (t.overwrite positions (BasicVisitedNode.new moves from_pos moved),
        .WorseKnown)
  | none => ((positions, BasicVisitedNode.new moves from_pos moved) :: t, .New)

/-- The predecessor-following loop of `VisitedNodes::path_to`, on fuel.
`none` models the panic on a missing predecessor record; fuel exhaustion
corresponds to a cyclic predecessor chain, on which the Rust loop never
terminates. -/
def pathLoop (t : VisitedNodes) :
    Nat → RobotPositions → List (Robot × Direction) →
    Option (RobotPositions × List (Robot × Direction))
  | 0, _, _ => none
  | fuel + 1, current_pos, path =>
      match t.get current_pos with
      | none => none
      | some node =>
          if node.moves_to_reach = 1 then
            some (node.previous_position, node.reached_with :: path)
          else pathLoop t fuel node.previous_position (node.reached_with :: path)

/-- `VisitedNodes::path_to` on fuel (the accumulator builds the reversed
push order of the source, which reverses before returning). -/
def VisitedNodes.path_to (t : VisitedNodes) (positions : RobotPositions) (fuel : Nat) :
    Option Path :=
  (pathLoop t fuel positions []).map fun res => Path.new res.1 positions res.2

/-- The successor loop of `BreadthFirst::eval_robot_state`: add each
successor, skip it when discarded, return it when it wins, otherwise push it
onto the next layer. -/
def evalList (round : Round) (initial_pos : RobotPositions) (moves : Nat) :
    VisitedNodes → List RobotPositions →
    List (RobotPositions × (Robot × Direction)) →
    VisitedNodes × List RobotPositions × Option RobotPositions
  | visited, next, [] => (visited, next, none)
  | visited, next, (new_pos, mv) :: rest =>
      let added := visited.add_node new_pos initial_pos (moves + 1) mv
      if added.2.was_discarded then evalList round initial_pos moves added.1 next rest
      else if round.target_reached new_pos then (added.1, next, some new_pos)
      else evalList round initial_pos moves added.1 (next ++ [new_pos]) rest

/-- `BreadthFirst::eval_robot_state`. -/
def eval_robot_state (round : Round) (visited : VisitedNodes)
    (initial_pos : RobotPositions) (moves : Nat) (next_positions : List RobotPositions) :
    VisitedNodes × List RobotPositions × Option RobotPositions :=
  evalList round initial_pos moves visited next_positions
    (initial_pos.reachable_positions round.board)

/-- The inner loop over the current layer of `BreadthFirst::start`, with the
early break when a winning state is found. -/
def bfsLayer (round : Round) (moves : Nat) :
    VisitedNodes → List RobotPositions → List RobotPositions →
    VisitedNodes × List RobotPositions × Option RobotPositions
  | visited, next, [] => (visited, next, none)
  | visited, next, pos :: rest =>
      match eval_robot_state round visited pos moves next with
      | (v2, n2, some reached) => (v2, n2, some reached)
      | (v2, n2, none) => bfsLayer round moves v2 n2 rest

/-- The unbounded layer loop `for move_n in 0..` of `BreadthFirst::start`,
on fuel.  The Rust loop has no exit other than finding a winning state:
when the frontier empties it keeps iterating over empty vectors forever, so
`none` (fuel exhaustion) models non-termination. -/
def bfsLoop (round : Round) : Nat → Nat → VisitedNodes → List RobotPositions →
    Option Path
  | 0, _, _, _ => none
  | fuel + 1, move_n, visited, current =>
      match bfsLayer round move_n visited [] current with
      | (v2, _, some final_pos) => v2.path_to final_pos (move_n + 1)
      | (v2, next2, none) => bfsLoop round fuel (move_n + 1) v2 next2

/-- `<BreadthFirst as Solver>::solve` (with a fresh solver, as after
`BreadthFirst::new`), on fuel for the unbounded layer loop. -/
def bfs_solve (round : Round) (start_positions : RobotPositions) (fuel : Nat) :
    Option Path :=
  if round.target_reached start_positions then
    some (Path.new start_positions start_positions [])
  else bfsLoop round fuel 0 [] [start_positions]

/-- `MoveCounter` (`a_star.rs`): the two `Reverse`-wrapped counters. -/
structure MoveCounter where
  total : Nat
  from_start : Nat
deriving DecidableEq

/-- `MoveCounter::new`. -/
def MoveCounter.new (from_start to_target : Nat) : MoveCounter :=
  { total := from_start + to_target, from_start }

/-- The derived Rust ordering on `MoveCounter`: `a.isAbove b` iff `a > b`,
i.e. `a` is popped first — smaller total, ties broken by smaller
`from_start`. -/
def MoveCounter.isAbove (a b : MoveCounter) : Bool :=
  decide (a.total < b.total) ||
    (decide (a.total = b.total) && decide (a.from_start < b.from_start))

/-- `PriorityQueue::push_increase` on an association-list model of the
queue: insert the item, or raise its priority if the new one is higher. -/
def push_increase (q : List (RobotPositions × MoveCounter)) (pos : RobotPositions)
    (c : MoveCounter) : List (RobotPositions × MoveCounter) :=
  match q with
  | [] => [(pos, c)]
  | (k, v) :: rest =>
      if k = pos then
        if c.isAbove v then (k, c) :: rest else (k, v) :: rest
      else (k, v) :: push_increase rest pos c

/-- `PriorityQueue::pop` on the association-list model: remove and return a
maximal-priority entry (the hash-based Rust queue breaks priority ties in an
unspecified order; this model picks the first). -/
def popMax : List (RobotPositions × MoveCounter) →
    Option ((RobotPositions × MoveCounter) × List (RobotPositions × MoveCounter))
  | [] => none
  | (k, v) :: rest =>
      match popMax rest with
      | none => some ((k, v), [])
      | some ((k2, v2), rest2) =>
          if v2.isAbove v then some ((k2, v2), (k, v) :: rest2)
          else some ((k, v), rest)

/-- The mutable state of the `AStar::solve` loop. -/
structure AStarState where
  visited : VisitedNodes
  open_list : List (RobotPositions × MoveCounter)
  found_minimum : Nat
  found_final_position : RobotPositions

/-- `usize::MAX`, the initial `found_minimum`. -/
def USIZE_MAX : Nat := 2 ^ 64 - 1

/-- The body of the successor loop of `AStar::solve` (`a_star.rs`, the
`for (pos, movement) in from_pos.reachable_positions(...)` body) for one
successor `(pos, movement)` of `from_pos`, which was popped with priority
`prio`. -/
def aStarHandleSuccessor (round : Round) (move_board : LeastMovesBoard)
    (st : AStarState) (from_pos : RobotPositions) (prio : MoveCounter)
    (pos : RobotPositions) (movement : Robot × Direction) : AStarState :=
  let moves_from_start := prio.from_start + 1
  let moves_to_target := move_board.min_moves pos round.target
  let added := st.visited.add_node pos from_pos moves_from_start movement
  if added.2.was_discarded then { st with visited := added.1 }
  else if round.target_reached pos then
    if moves_to_target < st.found_minimum then
      { st with
        visited := added.1
        found_minimum := moves_from_start
        found_final_position := pos }
    else { st with visited := added.1 }
  else
    { st with
      visited := added.1
      open_list := push_increase st.open_list pos
        (MoveCounter.new moves_from_start moves_to_target) }

/-- The pop loop of `AStar::solve`, on fuel. -/
def aStarLoop (round : Round) (move_board : LeastMovesBoard) :
    Nat → AStarState → AStarState
  | 0, st => st
  | fuel + 1, st =>
      match popMax st.open_list with
      | none => st
      | some ((from_pos, prio), rest) =>
          if st.found_minimum ≤ prio.total then { st with open_list := rest }
          else
            aStarLoop round move_board fuel
              ((from_pos.reachable_positions round.board).foldl
                (fun acc pm => aStarHandleSuccessor round move_board acc from_pos prio
                  pm.1 pm.2)
                { st with open_list := rest })

/-- `<AStar as Solver>::solve` on fuel; `none` models the panic on an
unsolvable instance (and fuel exhaustion of the loops). -/
def a_star_solve (round : Round) (start_positions : RobotPositions) (fuel : Nat) :
    Option Path :=
  if round.target_reached start_positions then
    some (Path.new_start_on_target start_positions)
  else
    let move_board := LeastMovesBoard.new round.board round.target_position
    if move_board.is_unsolvable start_positions round.target then none
    else
      let stf := aStarLoop round move_board fuel
        { visited := []
          open_list := [(start_positions,
            MoveCounter.new 0 (move_board.min_moves start_positions round.target))]
          found_minimum := USIZE_MAX
          found_final_position := start_positions }
      stf.visited.path_to stf.found_final_position (stf.visited.length + 1)

/-- `IdaStar::depth_limited_dfs` (`iterative_deepening.rs`): depth-limited
DFS with heuristic pruning and the visited table, threading the table and
returning the winning state if one is found at exactly the depth limit. -/
def depth_limited_dfs (round : Round) (move_board : LeastMovesBoard) :
    Nat → VisitedNodes → RobotPositions → Nat → VisitedNodes × Option RobotPositions
  | 0, visited, start_pos, _ =>
      (visited, if round.target_reached start_pos then some start_pos else none)
  | max_depth + 1, visited, start_pos, at_move =>
      (start_pos.reachable_positions round.board).foldl
        (fun acc pm =>
          match acc.2 with
          | some _ => acc
          | none =>
              if max_depth < move_board.min_moves pm.1 round.target then acc
              else
                let added := acc.1.add_node pm.1 start_pos (at_move + 1) pm.2
                if added.2.was_discarded then (added.1, none)
                else depth_limited_dfs round move_board max_depth added.1 pm.1
                  (at_move + 1))
        (visited, none)

/-- The unbounded bound loop `for i in start..` of `IdaStar::solve`, on
fuel; the visited table is cleared between iterations. -/
def idaLoop (round : Round) (move_board : LeastMovesBoard)
    (start_positions : RobotPositions) : Nat → Nat → Option Path
  | _, 0 => none
  | i, fuel + 1 =>
      match depth_limited_dfs round move_board i [] start_positions 0 with
      | (v2, some final_pos) => v2.path_to final_pos (v2.length + 1)
      | (_, none) => idaLoop round move_board start_positions (i + 1) fuel

/-- `<IdaStar as Solver>::solve` on fuel; `none` models the panic on an
unsolvable instance (and fuel exhaustion). -/
def ida_star_solve (round : Round) (start_positions : RobotPositions) (fuel : Nat) :
    Option Path :=
  if round.target_reached start_positions then
    some (Path.new_start_on_target start_positions)
  else
    let move_board := LeastMovesBoard.new round.board round.target_position
    let start := move_board.min_moves start_positions round.target
    if move_board.is_unsolvable start_positions round.target then none
    else idaLoop round move_board start_positions start fuel

instance (p : Position) (side : Nat) : Decidable (p.InBounds side) :=
  inferInstanceAs (Decidable (p.column < side ∧ p.row < side))

instance (b : Board) : Decidable b.Wellformed :=
  inferInstanceAs (Decidable (∀ c ∈ b.walls, c.length = b.walls.length))

instance (b : Board) : Decidable b.Enclosed :=
  inferInstanceAs (Decidable (_ ∧ _ ∧ _))

/-- A 2x2 enclosed board whose cell `(1, 0)` is caged by a right wall and a
bottom wall on `(0, 0)` (the `unsolvable` unit test board of `util.rs`). -/
def cageBoard : Board :=
  ((Board.new_empty 2).wall_enclosure.set_vertical_line 0 0 1).set_horizontal_line 0 0 1

/-- An unsolvable round on `cageBoard`: the red robot must reach the caged
cell `(1, 0)`. -/
def cageRound : Round := Round.new cageBoard (Target.Red Symbol.Circle) ⟨1, 0⟩

/-- All four robots stacked on `(0, 0)` (accepted by `from_tuples`): no
robot can move at all, so the search frontier empties immediately. -/
def cageStart : RobotPositions := RobotPositions.from_tuples (0, 0) (0, 0) (0, 0) (0, 0)

/-- A 3x3 enclosed board used by the concrete witnesses. -/
def demo3Board : Board := (Board.new_empty 3).wall_enclosure

/-- Red at the origin, the other robots parked along the right edge. -/
def demoStart : RobotPositions := RobotPositions.from_tuples (0, 0) (2, 0) (2, 1) (2, 2)

/-- A round on `demo3Board` already won by `demoWinState`. -/
def demoWonRound : Round := Round.new demo3Board (Target.Red Symbol.Circle) ⟨0, 2⟩

/-- Red on the target cell of `demoWonRound`. -/
def demoWinState : RobotPositions := RobotPositions.from_tuples (0, 2) (2, 0) (2, 1) (2, 2)

/-- A round on `demo3Board` with the red target at `(1, 2)`. -/
def demoRound2 : Round := Round.new demo3Board (Target.Red Symbol.Circle) ⟨1, 2⟩

/-- Red on the target cell of `demoRound2`. -/
def demoWinState2 : RobotPositions := RobotPositions.from_tuples (1, 2) (2, 0) (2, 1) (2, 2)

/-- One proper move of the search's transition system: `s2` results from
sliding one robot of `s1` and differs from `s1` — exactly the pairs the
successor enumeration `reachable_positions` produces. -/
def StepTo (b : Board) (s1 : RobotPositions) (m : Robot × Direction)
    (s2 : RobotPositions) : Prop :=
  s2 = s1.move_in_direction b m.1 m.2 ∧ s2 ≠ s1

/-- Reachability from `start` by exactly `n` proper moves. -/
inductive ReachIn (b : Board) (start : RobotPositions) :
    Nat → RobotPositions → Prop where
  | base : ReachIn b start 0 start
  | step : ∀ {n : Nat} {s1 : RobotPositions} {m : Robot × Direction}
      {s2 : RobotPositions}, ReachIn b start n s1 → StepTo b s1 m s2 →
      ReachIn b start (n + 1) s2

/-- Soundness of a visited table: every record was reached by a real move
from its predecessor, costs are positive, cost-one records point at the
start, and every deeper record points at a strictly cheaper record. -/
def TableOK (b : Board) (start : RobotPositions) (t : VisitedNodes) : Prop :=
  ∀ s n, t.get s = some n →
    StepTo b n.previous_position n.reached_with s ∧
    1 ≤ n.moves_to_reach ∧
    (n.moves_to_reach = 1 → n.previous_position = start) ∧
    (2 ≤ n.moves_to_reach → ∃ n2, t.get n.previous_position = some n2 ∧
      n2.moves_to_reach < n.moves_to_reach)

/-- The invariant threaded through one layer of the breadth-first search at
move count `k`: `t0` is the table at layer entry, `t` the current table and
`next` the next-layer frontier collected so far. -/
def LayerInv (round : Round) (start : RobotPositions) (k : Nat)
    (t0 t : VisitedNodes) (next : List RobotPositions) : Prop :=
  TableOK round.board start t ∧
  (∀ s n, t.get s = some n → n.moves_to_reach ≤ k + 1) ∧
  (∀ s n, t.get s = some n → round.target_reached s = false) ∧
  (∀ s n, t0.get s = some n → t.get s = some n) ∧
  (∀ s ∈ next, ∃ n, t.get s = some n ∧ n.moves_to_reach = k + 1) ∧
  (∀ s n, t.get s = some n → n.moves_to_reach = k + 1 → s ∈ next)

/-- The entry invariant of the breadth-first layer loop: at layer `k` the
table is sound, holds only non-winning states of cost at most `k`, the
frontier `cur` consists exactly of the cost-`k` states (the start at layer
zero), and every state properly reachable within `k` moves is recorded. -/
def BfsInv (round : Round) (start : RobotPositions) (k : Nat)
    (t : VisitedNodes) (cur : List RobotPositions) : Prop :=
  TableOK round.board start t ∧
  (∀ s n, t.get s = some n → n.moves_to_reach ≤ k) ∧
  (∀ s n, t.get s = some n → round.target_reached s = false) ∧
  (∀ s ∈ cur, (k = 0 ∧ s = start) ∨
    ∃ n, t.get s = some n ∧ n.moves_to_reach = k) ∧
  (∀ s n, t.get s = some n → n.moves_to_reach = k → s ∈ cur) ∧
  (k = 0 → cur = [start]) ∧
  (∀ j, j ≤ k → ∀ s, ReachIn round.board start j s → s = start ∨
    ∃ n, t.get s = some n ∧ n.moves_to_reach ≤ j) ∧
  round.target_reached start = false

/-- The body of the successor loop of `IdaStar::depth_limited_dfs`
(`iterative_deepening.rs`), as a named function of the fold accumulator:
skip once a winning state has been found, prune successors the heuristic
rules out, record the successor and recurse unless it was discarded. -/
def dfsStep (round : Round) (move_board : LeastMovesBoard)
    (start_pos : RobotPositions) (at_move max_depth : Nat)
    (acc : VisitedNodes × Option RobotPositions)
    (pm : RobotPositions × (Robot × Direction)) :
    VisitedNodes × Option RobotPositions :=
  match acc.2 with
  | some _ => acc
  | none =>
      if max_depth < move_board.min_moves pm.1 round.target then acc
      else
        let added := acc.1.add_node pm.1 start_pos (at_move + 1) pm.2
        if added.2.was_discarded then (added.1, none)
        else depth_limited_dfs round move_board max_depth added.1 pm.1 (at_move + 1)

/-- A state wins in exactly `r` movements. -/
def WinExact (round : Round) (x : RobotPositions) (r : Nat) : Prop :=
  ∃ ms : List (Robot × Direction),
    round.target_reached (applyMoves round.board x ms) = true ∧ ms.length = r

/-- The table invariant of the depth-limited DFS at stack depth `j` within a
bound-`L` iteration: every record is reachable in exactly its recorded cost,
and every record deeper than the current stack has been conclusively refuted
for its remaining budget. -/
def IdaInv (round : Round) (start : RobotPositions) (L j : Nat)
    (v : VisitedNodes) : Prop :=
  ∀ x n, v.get x = some n →
    (∃ ms, applyMoves round.board start ms = x ∧ ms.length = n.moves_to_reach) ∧
    (j < n.moves_to_reach → ¬ WinExact round x (L - n.moves_to_reach))

/-- Every record of `v2` already was in `v` or sits below the current stack
(cost above `j`). -/
def NewHigh (j : Nat) (v v2 : VisitedNodes) : Prop :=
  ∀ x n, v2.get x = some n → v.get x = some n ∨ j < n.moves_to_reach

/-- Records persist: a record of `v` survives into `v2` unchanged or is
overwritten by a strictly cheaper record still below the current stack. -/
def TablePres (j : Nat) (v v2 : VisitedNodes) : Prop :=
  ∀ x n, v.get x = some n → v2.get x = some n ∨
    ∃ n2, v2.get x = some n2 ∧ n2.moves_to_reach < n.moves_to_reach ∧
      j < n2.moves_to_reach

/-- The in-bounds positions of a board side, as a finite set. -/
def allPositions (s : Nat) : Finset Position :=
  (Finset.range s ×ˢ Finset.range s).image fun cr => ⟨cr.1, cr.2⟩

/-- The in-bounds robot configurations of a board side, as a finite set. -/
def allStates (s : Nat) : Finset RobotPositions :=
  ((allPositions s ×ˢ allPositions s) ×ˢ (allPositions s ×ˢ allPositions s)).image
    fun t => ⟨t.1.1, t.1.2, t.2.1, t.2.2⟩

/-- A crude bound on the number of in-bounds robot configurations. -/
def stateBound (s : Nat) : Nat := s * s * (s * s) * (s * s * (s * s))

/-- The accumulated record costs of a table. -/
def sumCosts (t : VisitedNodes) : Nat :=
  (t.map fun kv => kv.2.moves_to_reach).sum

/-- Soundness of the A* table: a sound move chain, record costs bounded by
the table size, and distinct keys. -/
def ARecOK (round : Round) (start : RobotPositions) (V : VisitedNodes) : Prop :=
  TableOK round.board start V ∧
  (∀ x n, V.get x = some n → n.moves_to_reach ≤ V.length) ∧
  (V.map Prod.fst).Nodup

/-- A well-formed open-queue entry: its total is cost-so-far plus heuristic,
it is not a winning state, and its cost matches its record (the start may
instead sit at cost zero with no record). -/
def AOpenEntry (round : Round) (mb : LeastMovesBoard) (start : RobotPositions)
    (V : VisitedNodes) (e : RobotPositions × MoveCounter) : Prop :=
  e.2.total = e.2.from_start + mb.min_moves e.1 round.target ∧
  round.target_reached e.1 = false ∧
  ((e.1 = start ∧ e.2.from_start = 0) ∨
    (∃ n, V.get e.1 = some n ∧ n.moves_to_reach = e.2.from_start))

/-- A fully expanded node: every proper successor is a non-winning state
recorded at cost at most `c + 1`. -/
def Covered (round : Round) (V : VisitedNodes) (x : RobotPositions) (c : Nat) :
    Prop :=
  ∀ pm ∈ x.reachable_positions round.board,
    round.target_reached (pm : RobotPositions × (Robot × Direction)).1 = false ∧
    ∃ n2, V.get pm.1 = some n2 ∧ n2.moves_to_reach ≤ c + 1

/-- The search is still pending: no goal has been found, no record wins, and
the start and every record are either waiting in the open queue or fully
expanded. -/
def PendingInv (round : Round) (start : RobotPositions) (st : AStarState) : Prop :=
  st.found_minimum = USIZE_MAX ∧
  (∀ x n, st.visited.get x = some n → round.target_reached x = false) ∧
  ((∃ cy, (start, cy) ∈ st.open_list ∧ cy.from_start = 0) ∨
    Covered round st.visited start 0) ∧
  (∀ x n, st.visited.get x = some n →
    (∃ cy, (x, cy) ∈ st.open_list ∧ cy.from_start ≤ n.moves_to_reach) ∨
    (∃ c2, c2 ≤ n.moves_to_reach ∧ Covered round st.visited x c2))

/-- The search has settled on the optimum `L`: the stored final position wins,
is recorded at cost `found_minimum`, and that minimum is `L`. -/
def DoneSt (round : Round) (L : Nat) (st : AStarState) : Prop :=
  round.target_reached st.found_final_position = true ∧
  (∃ n, st.visited.get st.found_final_position = some n ∧
    n.moves_to_reach = st.found_minimum) ∧
  st.found_minimum = L

/-- The loop invariant of `AStar::solve`. -/
def AInv (round : Round) (mb : LeastMovesBoard) (start : RobotPositions)
    (L : Nat) (st : AStarState) : Prop :=
  ARecOK round start st.visited ∧
  (∀ e ∈ st.open_list, AOpenEntry round mb start st.visited e) ∧
  (st.open_list.map Prod.fst).Nodup ∧
  (DoneSt round L st ∨ PendingInv round start st)

/-- The termination potential of the `AStar::solve` loop. -/
def aPhi (side : Nat) (st : AStarState) : Nat :=
  (stateBound side + 1 - st.visited.length) * (stateBound side + 2) +
    sumCosts st.visited + st.open_list.length

/-- One table extends another with cost improvements only. -/
def RecMono (V V2 : VisitedNodes) : Prop :=
  ∀ x n, V.get x = some n →
    ∃ n2, V2.get x = some n2 ∧ n2.moves_to_reach ≤ n.moves_to_reach

/-- The popped entry matches the table: its cost is its record's cost, or it
is the start at cost zero. -/
def FpMatch (start : RobotPositions) (V : VisitedNodes)
    (from_pos : RobotPositions) (prio : MoveCounter) : Prop :=
  (from_pos = start ∧ prio.from_start = 0) ∨
  (∃ n, V.get from_pos = some n ∧ n.moves_to_reach = prio.from_start)

/-- `PendingInv` with the node being expanded exempted from the coverage
conditions. -/
def PendingMid (round : Round) (start from_pos : RobotPositions)
    (st : AStarState) : Prop :=
  st.found_minimum = USIZE_MAX ∧
  (∀ x n, st.visited.get x = some n → round.target_reached x = false) ∧
  (start = from_pos ∨ (∃ cy, (start, cy) ∈ st.open_list ∧ cy.from_start = 0) ∨
    Covered round st.visited start 0) ∧
  (∀ x n, st.visited.get x = some n → x = from_pos ∨
    (∃ cy, (x, cy) ∈ st.open_list ∧ cy.from_start ≤ n.moves_to_reach) ∨
    (∃ c2, c2 ≤ n.moves_to_reach ∧ Covered round st.visited x c2))

/-- The invariant maintained across the successor fold of one pop. -/
def FoldMid (round : Round) (mb : LeastMovesBoard) (start from_pos : RobotPositions)
    (prio : MoveCounter) (L : Nat) (st : AStarState) : Prop :=
  ARecOK round start st.visited ∧
  (∀ e ∈ st.open_list, AOpenEntry round mb start st.visited e) ∧
  (st.open_list.map Prod.fst).Nodup ∧
  FpMatch start st.visited from_pos prio ∧
  round.target_reached from_pos = false ∧
  prio.total = prio.from_start + mb.min_moves from_pos round.target ∧
  (DoneSt round L st ∨ PendingMid round start from_pos st)

theorem iterDir_succ (p : Position) (d : Direction) (side j : Nat) :
    p.iterDir d side (j + 1) = (p.iterDir d side j).to_direction d side := rfl

theorem to_direction_column_row (p : Position) (d : Direction) (side : Nat) :
    (p.to_direction d side).column = (match d with
      | .Right => (p.column + 1) % side
      | .Left => (p.column + side - 1) % side
      | _ => p.column) ∧
    (p.to_direction d side).row = (match d with
      | .Down => (p.row + 1) % side
      | .Up => (p.row + side - 1) % side
      | _ => p.row) := by
  cases d <;> simp [Position.to_direction]

theorem to_direction_inBounds {p : Position} {side : Nat} (hs : 0 < side)
    (h : p.InBounds side) (d : Direction) : (p.to_direction d side).InBounds side := by
  obtain ⟨h1, h2⟩ := h
  cases d <;> constructor <;>
    simp only [Position.to_direction] <;>
    first
      | exact h1
      | exact h2
      | exact Nat.mod_lt _ hs

theorem iterDir_inBounds {p : Position} {side : Nat} (hs : 0 < side)
    (h : p.InBounds side) (d : Direction) (j : Nat) : (p.iterDir d side j).InBounds side := by
  induction j with
  | zero => exact h
  | succ j ih => exact to_direction_inBounds hs ih d

/-- Column/row formulas for the iterated step, used to show that a walk of
`side` steps returns to its start. -/
theorem iterDir_spec (p : Position) (side : Nat) (hs : 0 < side) (j : Nat) :
    (p.iterDir .Right side j = { p with column := (p.column + j) % side } ∨ j = 0) ∧
    (p.iterDir .Left side j = { p with column := (p.column + j * (side - 1)) % side } ∨ j = 0) ∧
    (p.iterDir .Down side j = { p with row := (p.row + j) % side } ∨ j = 0) ∧
    (p.iterDir .Up side j = { p with row := (p.row + j * (side - 1)) % side } ∨ j = 0) := by
  induction j with
  | zero => simp
  | succ j ih =>
    obtain ⟨ih1, ih2, ih3, ih4⟩ := ih
    refine ⟨Or.inl ?_, Or.inl ?_, Or.inl ?_, Or.inl ?_⟩
    · rcases ih1 with h | h
      · rw [iterDir_succ, h]
        simp only [Position.to_direction, Nat.mod_add_mod, Nat.add_assoc]
      · subst h
        simp only [Position.iterDir, Position.to_direction]
    · rcases ih2 with h | h
      · rw [iterDir_succ, h]
        simp only [Position.to_direction]
        have : (p.column + j * (side - 1)) % side + side - 1 =
            (p.column + j * (side - 1)) % side + (side - 1) := by omega
        rw [this, Nat.mod_add_mod, Nat.succ_mul, Nat.add_assoc]
      · subst h
        simp only [Position.iterDir, Position.to_direction, Nat.one_mul, Nat.zero_add]
        have : p.column + side - 1 = p.column + (side - 1) := by omega
        rw [this]
    · rcases ih3 with h | h
      · rw [iterDir_succ, h]
        simp only [Position.to_direction, Nat.mod_add_mod, Nat.add_assoc]
      · subst h
        simp only [Position.iterDir, Position.to_direction]
    · rcases ih4 with h | h
      · rw [iterDir_succ, h]
        simp only [Position.to_direction]
        have : (p.row + j * (side - 1)) % side + side - 1 =
            (p.row + j * (side - 1)) % side + (side - 1) := by omega
        rw [this, Nat.mod_add_mod, Nat.succ_mul, Nat.add_assoc]
      · subst h
        simp only [Position.iterDir, Position.to_direction, Nat.one_mul, Nat.zero_add]
        have : p.row + side - 1 = p.row + (side - 1) := by omega
        rw [this]

/-- After `side` steps in one direction a position is back at its start. -/
theorem iterDir_cycle {p : Position} {side : Nat} (hs : 0 < side) (h : p.InBounds side)
    (d : Direction) : p.iterDir d side side = p := by
  have hspec := iterDir_spec p side hs side
  have hcol := h.1
  have hrow := h.2
  have hmul : (side * (side - 1)) % side = 0 := by
    simp [Nat.mul_mod_right]
  cases d
  · rcases hspec.2.2.2 with heq | h0
    · rw [heq]
      have : (p.row + side * (side - 1)) % side = p.row := by
        rw [Nat.add_mul_mod_self_left]
        exact Nat.mod_eq_of_lt hrow
      simp [this]
    · omega
  · rcases hspec.2.2.1 with heq | h0
    · rw [heq]
      have : (p.row + side) % side = p.row := by
        rw [Nat.add_mod_right]
        exact Nat.mod_eq_of_lt hrow
      simp [this]
    · omega
  · rcases hspec.1 with heq | h0
    · rw [heq]
      have : (p.column + side) % side = p.column := by
        rw [Nat.add_mod_right]
        exact Nat.mod_eq_of_lt hcol
      simp [this]
    · omega
  · rcases hspec.2.1 with heq | h0
    · rw [heq]
      have : (p.column + side * (side - 1)) % side = p.column := by
        rw [Nat.add_mul_mod_self_left]
        exact Nat.mod_eq_of_lt hcol
      simp [this]
    · omega

theorem get_set_self (s : RobotPositions) (r : Robot) (p : Position) :
    (s.set_robot r p).get r = p := by
  cases r <;> rfl

theorem get_set_other (s : RobotPositions) {r r2 : Robot} (h : r2 ≠ r) (p : Position) :
    (s.set_robot r p).get r2 = s.get r2 := by
  cases r <;> cases r2 <;> first | rfl | exact absurd rfl h

theorem set_get_self (s : RobotPositions) (r : Robot) :
    s.set_robot r (s.get r) = s := by
  cases r <;> rfl

theorem contains_get (s : RobotPositions) (r : Robot) :
    s.contains_any_robot (s.get r) = true := by
  cases r <;> simp [RobotPositions.contains_any_robot, RobotPositions.get]

/-- A position that no robot occupies stays unoccupied along the move loop:
the loop only ever advances onto unoccupied cells. -/
theorem moveLoop_contains (b : Board) (s : RobotPositions) (d : Direction) :
    ∀ fuel p, s.contains_any_robot p = false →
      s.contains_any_robot (moveLoop b s d fuel p) = false := by
  intro fuel
  induction fuel with
  | zero => intro p h; exact h
  | succ fuel ih =>
    intro p h
    simp only [moveLoop]
    by_cases hr : s.adjacent_reachable b p d = true
    · rw [if_pos hr]
      apply ih
      have := hr
      simp only [RobotPositions.adjacent_reachable, Bool.and_eq_true, Bool.not_eq_true'] at this
      exact this.2
    · rw [if_neg hr]; exact h

theorem contains_ne_get {s : RobotPositions} {p : Position}
    (h : s.contains_any_robot p = false) (r : Robot) : p ≠ s.get r := by
  intro heq
  rw [heq, contains_get] at h
  cases h

theorem contains_any_iff (s : RobotPositions) (p : Position) :
    s.contains_any_robot p = true ↔ ∃ r, s.get r = p := by
  constructor
  · intro h
    have h4 : p = s.red ∨ (p = s.blue ∨ (p = s.green ∨ p = s.yellow)) := by
      simpa [RobotPositions.contains_any_robot, or_assoc] using h
    rcases h4 with h | h | h | h
    · exact ⟨.Red, h.symm⟩
    · exact ⟨.Blue, h.symm⟩
    · exact ⟨.Green, h.symm⟩
    · exact ⟨.Yellow, h.symm⟩
  · rintro ⟨r, hr⟩
    cases r <;> simp [RobotPositions.contains_any_robot, RobotPositions.get] at hr ⊢ <;>
      simp [hr]

/-- In-bounds reads of a well-formed wall grid never panic and agree with
the `getD` reads of the total model. -/
theorem fieldAt_eq_some {b : Board} (hw : b.Wellformed) {col row : Nat}
    (hc : col < b.side_length) (hr : row < b.side_length) :
    b.fieldAt? col row = some (b.fieldAt col row) := by
  unfold Board.fieldAt? Board.fieldAt
  have hc2 : col < b.walls.length := hc
  rw [List.get?_eq_get hc2]
  have hcmem : b.walls.get ⟨col, hc2⟩ ∈ b.walls := b.walls.get_mem col hc2
  have hclen : (b.walls.get ⟨col, hc2⟩).length = b.walls.length := hw _ hcmem
  have hr2 : row < (b.walls.get ⟨col, hc2⟩).length := by
    rw [hclen]; exact hr
  show (b.walls.get ⟨col, hc2⟩).get? row = _
  rw [List.get?_eq_get hr2]
  congr 1
  have h1 : b.walls.getD col [] = b.walls.get ⟨col, hc2⟩ := by
    rw [List.getD_eq_getElem?_getD, List.getElem?_eq_getElem hc2]
    rfl
  rw [h1, List.getD_eq_getElem?_getD, List.getElem?_eq_getElem hr2]
  rfl

theorem is_adjacent_to_wall_eq_some {b : Board} (hw : b.Wellformed) {pos : Position}
    (hp : pos.InBounds b.side_length) (d : Direction) :
    b.is_adjacent_to_wall? pos d = some (b.is_adjacent_to_wall pos d) := by
  have hs : 0 < b.side_length := Nat.lt_of_le_of_lt (Nat.zero_le _) hp.1
  cases d
  case Up =>
    simp only [Board.is_adjacent_to_wall?, Board.is_adjacent_to_wall]
    rw [fieldAt_eq_some hw (to_direction_inBounds hs hp .Up).1
      (to_direction_inBounds hs hp .Up).2]
    rfl
  case Down =>
    simp only [Board.is_adjacent_to_wall?, Board.is_adjacent_to_wall]
    rw [fieldAt_eq_some hw hp.1 hp.2]
    rfl
  case Right =>
    simp only [Board.is_adjacent_to_wall?, Board.is_adjacent_to_wall]
    rw [fieldAt_eq_some hw hp.1 hp.2]
    rfl
  case Left =>
    simp only [Board.is_adjacent_to_wall?, Board.is_adjacent_to_wall]
    rw [fieldAt_eq_some hw (to_direction_inBounds hs hp .Left).1
      (to_direction_inBounds hs hp .Left).2]
    rfl

theorem adjacent_reachable_eq_some {b : Board} {s : RobotPositions} (hw : b.Wellformed)
    {pos : Position} (hp : pos.InBounds b.side_length) (d : Direction) :
    s.adjacent_reachable? b pos d = some (s.adjacent_reachable b pos d) := by
  unfold RobotPositions.adjacent_reachable? RobotPositions.adjacent_reachable
  rw [is_adjacent_to_wall_eq_some hw hp d]
  rfl

/-- The move loop neither panics nor runs out of fuel: starting from a cell
occupied by a robot (the mover), after `j < side` steps the checked loop with
fuel `side + 1 - j` agrees with the total loop with fuel `side - j`.  The
key fact is that the walk can never complete a full wrap: the mover's own
start cell blocks the step that would close the cycle. -/
theorem moveLoop_agree {b : Board} {s : RobotPositions} {d : Direction} {p0 : Position}
    (hw : b.Wellformed) (hp0 : p0.InBounds b.side_length)
    (hocc : s.contains_any_robot p0 = true) :
    ∀ fuel fuel2 j, j < b.side_length → b.side_length + 1 ≤ fuel + j →
      b.side_length ≤ fuel2 + j →
      moveLoop? b s d fuel (p0.iterDir d b.side_length j) =
        some (moveLoop b s d fuel2 (p0.iterDir d b.side_length j)) := by
  intro fuel
  induction fuel with
  | zero => intro fuel2 j hj hf _; omega
  | succ fuel ih =>
    intro fuel2 j hj hf hf2
    have hs : 0 < b.side_length := Nat.lt_of_le_of_lt (Nat.zero_le _) hj
    have hpj : (p0.iterDir d b.side_length j).InBounds b.side_length :=
      iterDir_inBounds hs hp0 d j
    cases fuel2 with
    | zero => omega
    | succ fuel2 =>
      simp only [moveLoop?, moveLoop, adjacent_reachable_eq_some hw hpj d]
      by_cases hr : s.adjacent_reachable b (p0.iterDir d b.side_length j) d = true
      · rw [hr]
        simp only [if_pos rfl]
        have hnext : (p0.iterDir d b.side_length j).to_direction d b.side_length =
            p0.iterDir d b.side_length (j + 1) := rfl
        have hj1 : j + 1 < b.side_length := by
          rcases Nat.lt_or_ge (j + 1) b.side_length with h | h
          · exact h
          · exfalso
            have hj1 : j + 1 = b.side_length := by omega
            have hcyc : p0.iterDir d b.side_length (j + 1) = p0 := by
              rw [hj1]; exact iterDir_cycle hs hp0 d
            have : s.contains_any_robot
                ((p0.iterDir d b.side_length j).to_direction d b.side_length) = false := by
              simp only [RobotPositions.adjacent_reachable, Bool.and_eq_true,
                Bool.not_eq_true'] at hr
              exact hr.2
            rw [hnext, hcyc, hocc] at this
            cases this
        rw [hnext]
        exact ih fuel2 (j + 1) hj1 (by omega) (by omega)
      · rw [Bool.not_eq_true] at hr
        rw [hr]
        simp

/-- On a well-formed board, moving a robot that sits in bounds never panics,
and the checked simulator agrees with the total one. -/
theorem move_in_direction_eq_some {b : Board} {s : RobotPositions} {robot : Robot}
    {d : Direction} (hw : b.Wellformed) (hp : (s.get robot).InBounds b.side_length) :
    s.move_in_direction? b robot d = some (s.move_in_direction b robot d) := by
  have hs : 0 < b.side_length := Nat.lt_of_le_of_lt (Nat.zero_le _) hp.1
  have h := @moveLoop_agree b s d (s.get robot) hw hp (contains_get s robot)
    (b.side_length + 1) b.side_length 0 hs (by omega) (by omega)
  unfold RobotPositions.move_in_direction? RobotPositions.move_in_direction
  rw [show (s.get robot).iterDir d b.side_length 0 = s.get robot from rfl] at h
  rw [h]
  rfl

/-- The move simulator returns its input state exactly when the robot is
already blocked, i.e. when `adjacent_reachable` fails at its current cell. -/
theorem move_in_direction_eq_self_iff {b : Board} {s : RobotPositions} {r : Robot}
    {d : Direction} (hs : 0 < b.side_length) :
    s.move_in_direction b r d = s ↔ s.adjacent_reachable b (s.get r) d = false := by
  obtain ⟨k, hk⟩ : ∃ k, b.side_length = k + 1 := ⟨b.side_length - 1, by omega⟩
  constructor
  · intro heq
    by_contra hr
    rw [Bool.not_eq_false] at hr
    have hcont : s.contains_any_robot ((s.get r).to_direction d b.side_length) = false := by
      simp only [RobotPositions.adjacent_reachable, Bool.and_eq_true, Bool.not_eq_true'] at hr
      exact hr.2
    have h1 : moveLoop b s d b.side_length (s.get r) =
        moveLoop b s d k ((s.get r).to_direction d b.side_length) := by
      conv_lhs => rw [hk]
      simp only [moveLoop]
      rw [if_pos hr]
    have h2 : s.contains_any_robot
        (moveLoop b s d k ((s.get r).to_direction d b.side_length)) = false :=
      moveLoop_contains b s d k _ hcont
    have h3 : moveLoop b s d k ((s.get r).to_direction d b.side_length) ≠ s.get r :=
      contains_ne_get h2 r
    apply h3
    rw [← h1]
    have h4 := congrArg (fun st => st.get r) heq
    simpa [RobotPositions.move_in_direction, get_set_self] using h4
  · intro hb
    unfold RobotPositions.move_in_direction
    rw [hk]
    simp only [moveLoop, hb, Bool.false_eq_true, if_false]
    exact set_get_self s r

/-- One wrapping step never fixes an in-bounds position on a board with at
least two cells per side. -/
theorem to_direction_ne {p : Position} {side : Nat} (h2 : 2 ≤ side)
    (hp : p.InBounds side) (d : Direction) : p.to_direction d side ≠ p := by
  have hsucc : ∀ c, c < side → (c + 1) % side ≠ c := by
    intro c hc
    rcases Nat.lt_or_ge (c + 1) side with h | h
    · rw [Nat.mod_eq_of_lt h]
      omega
    · have hcs : c + 1 = side := by omega
      rw [hcs, Nat.mod_self]
      omega
  have hpred : ∀ c, c < side → (c + side - 1) % side ≠ c := by
    intro c hc
    cases c with
    | zero =>
      have : (0 + side - 1) % side = side - 1 := by
        rw [Nat.mod_eq_of_lt (by omega)]
        omega
      rw [this]
      omega
    | succ k =>
      have : (k + 1 + side - 1) % side = k % side := by
        have h1 : k + 1 + side - 1 = k + side := by omega
        rw [h1, Nat.add_mod_right]
      rw [this, Nat.mod_eq_of_lt (by omega)]
      omega
  intro heq
  cases d
  · exact hpred p.row hp.2 (congrArg Position.row heq)
  · exact hsucc p.row hp.2 (congrArg Position.row heq)
  · exact hsucc p.column hp.1 (congrArg Position.column heq)
  · exact hpred p.column hp.1 (congrArg Position.column heq)

/-- On boards with side at least 2, the cell adjacent to a robot is occupied
exactly when a robot other than the mover sits there. -/
theorem contains_adjacent_iff_other {s : RobotPositions} {r : Robot} {side : Nat}
    (h2 : 2 ≤ side) (hp : (s.get r).InBounds side) (d : Direction) :
    s.contains_any_robot ((s.get r).to_direction d side) = true ↔
      ∃ r2, r2 ≠ r ∧ s.get r2 = (s.get r).to_direction d side := by
  constructor
  · intro h
    obtain ⟨r0, hr0⟩ := (contains_any_iff s _).1 h
    refine ⟨r0, ?_, hr0⟩
    intro hrr
    subst hrr
    exact to_direction_ne h2 hp d hr0.symm
  · rintro ⟨r2, _, hr2⟩
    exact (contains_any_iff s _).2 ⟨r2, hr2⟩

theorem succ_pred_mod {side c : Nat} (hc : c < side) :
    ((c + 1) % side + side - 1) % side = c := by
  rcases Nat.lt_or_ge (c + 1) side with h | h
  · have e1 : (c + 1) % side = c + 1 := Nat.mod_eq_of_lt h
    rw [e1]
    have e2 : c + 1 + side - 1 = c + side := by omega
    rw [e2, Nat.add_mod_right]
    exact Nat.mod_eq_of_lt hc
  · have h1 : c + 1 = side := by omega
    rw [h1, Nat.mod_self]
    have e2 : 0 + side - 1 = side - 1 := by omega
    rw [e2, Nat.mod_eq_of_lt (show side - 1 < side by omega)]
    omega

theorem pred_succ_mod {side c : Nat} (hc : c < side) :
    ((c + side - 1) % side + 1) % side = c := by
  rcases Nat.eq_zero_or_pos c with rfl | hcpos
  · simp only [Nat.zero_add]
    have e1 : (side - 1) % side = side - 1 := Nat.mod_eq_of_lt (by omega)
    rw [e1]
    have e2 : side - 1 + 1 = side := by omega
    rw [e2, Nat.mod_self]
  · have e1 : (c + side - 1) % side = c - 1 := by
      have h1 : c + side - 1 = c - 1 + side := by omega
      rw [h1, Nat.add_mod_right]
      exact Nat.mod_eq_of_lt (by omega)
    rw [e1]
    have e2 : c - 1 + 1 = c := by omega
    rw [e2]
    exact Nat.mod_eq_of_lt hc

/-- Stepping one cell and stepping back returns to an in-bounds start. -/
theorem to_direction_cancel {p : Position} {side : Nat} (hp : p.InBounds side)
    (d : Direction) : (p.to_direction d side).to_direction d.opp side = p := by
  obtain ⟨c, r⟩ := p
  obtain ⟨hc, hr⟩ := hp
  cases d
  case Up =>
    simp only [Position.to_direction, Direction.opp, Position.mk.injEq, true_and, and_true]
    exact pred_succ_mod hr
  case Down =>
    simp only [Position.to_direction, Direction.opp, Position.mk.injEq, true_and, and_true]
    exact succ_pred_mod hr
  case Right =>
    simp only [Position.to_direction, Direction.opp, Position.mk.injEq, true_and, and_true]
    exact succ_pred_mod hc
  case Left =>
    simp only [Position.to_direction, Direction.opp, Position.mk.injEq, true_and, and_true]
    exact pred_succ_mod hc

/-- A wall blocks both ways: the wraparound adjacency rule reads the same
field for the step `p → p + d` and for the step back. -/
theorem wall_symm {b : Board} {p : Position} (hp : p.InBounds b.side_length)
    (d : Direction) :
    b.is_adjacent_to_wall (p.to_direction d b.side_length) d.opp =
      b.is_adjacent_to_wall p d := by
  cases d
  case Up =>
    simp only [Direction.opp, Board.is_adjacent_to_wall]
  case Down =>
    have hcan := to_direction_cancel hp Direction.Down
    simp only [Direction.opp] at hcan
    simp only [Direction.opp, Board.is_adjacent_to_wall]
    rw [hcan]
  case Right =>
    have hcan := to_direction_cancel hp Direction.Right
    simp only [Direction.opp] at hcan
    simp only [Direction.opp, Board.is_adjacent_to_wall]
    rw [hcan]
  case Left =>
    simp only [Direction.opp, Board.is_adjacent_to_wall]

theorem walkCells_inBounds {b : Board} (hs : 0 < b.side_length) (d : Direction) :
    ∀ fuel p, p.InBounds b.side_length →
      ∀ q ∈ walkCells b d fuel p, q.InBounds b.side_length := by
  intro fuel
  induction fuel with
  | zero => intro p _ q h; simp [walkCells] at h
  | succ fuel ih =>
    intro p hp q h
    simp only [walkCells] at h
    by_cases hw : b.is_adjacent_to_wall p d = true
    · rw [if_pos hw] at h
      simp at h
    · rw [if_neg hw] at h
      rcases List.mem_cons.1 h with h | h
      · subst h
        exact to_direction_inBounds hs hp d
      · exact ih _ (to_direction_inBounds hs hp d) _ h

theorem walk_mono {b : Board} {d : Direction} {m n : Nat} (hmn : m ≤ n) :
    ∀ p q, q ∈ walkCells b d m p → q ∈ walkCells b d n p := by
  induction m generalizing n with
  | zero => intro p q h; simp [walkCells] at h
  | succ m ih =>
    intro p q h
    obtain ⟨n2, rfl⟩ : ∃ n2, n = n2 + 1 := ⟨n - 1, by omega⟩
    simp only [walkCells] at h ⊢
    by_cases hw : b.is_adjacent_to_wall p d = true
    · rw [if_pos hw] at h; simp at h
    · rw [if_neg hw] at h ⊢
      rcases List.mem_cons.1 h with h | h
      · exact List.mem_cons.2 (Or.inl h)
      · exact List.mem_cons.2 (Or.inr (ih (by omega) _ _ h))

/-- A wall-free extension of a walk member is a member of the walk with one
more unit of fuel. -/
theorem walk_ext {b : Board} {e : Direction} :
    ∀ n q x, x ∈ walkCells b e n q → b.is_adjacent_to_wall x e = false →
      x.to_direction e b.side_length ∈ walkCells b e (n + 1) q := by
  intro n
  induction n with
  | zero => intro q x h; simp [walkCells] at h
  | succ n ih =>
    intro q x h hx
    simp only [walkCells] at h
    by_cases hw : b.is_adjacent_to_wall q e = true
    · rw [if_pos hw] at h; simp at h
    · rw [if_neg hw] at h
      simp only [walkCells, if_neg hw]
      rcases List.mem_cons.1 h with h | h
      · subst h
        refine List.mem_cons.2 (Or.inr ?_)
        obtain ⟨n2, hn⟩ : ∃ n2, n + 1 = n2 + 1 := ⟨n, rfl⟩
        simp only [walkCells, if_neg (by rw [hx]; simp : ¬b.is_adjacent_to_wall
          (q.to_direction e b.side_length) e = true)]
        exact List.mem_cons.2 (Or.inl rfl)
      · exact List.mem_cons.2 (Or.inr (ih _ _ h hx))

/-- Reversing a wall-only walk: if `q` lies on the walk from `p` in
direction `d`, then `p` lies on the walk from `q` in the opposite
direction, with the same fuel. -/
theorem walk_reverse {b : Board} {d : Direction} :
    ∀ n p q, p.InBounds b.side_length → q ∈ walkCells b d n p →
      p ∈ walkCells b d.opp n q := by
  intro n
  induction n with
  | zero => intro p q _ h; simp [walkCells] at h
  | succ n ih =>
    intro p q hp h
    simp only [walkCells] at h
    by_cases hw : b.is_adjacent_to_wall p d = true
    · rw [if_pos hw] at h; simp at h
    · rw [if_neg hw] at h
      have hs : 0 < b.side_length := Nat.lt_of_le_of_lt (Nat.zero_le _) hp.1
      rcases List.mem_cons.1 h with h | h
      · subst h
        simp only [walkCells]
        rw [if_neg (by rw [wall_symm hp d, Bool.not_eq_true] at *; exact hw)]
        rw [to_direction_cancel hp d]
        exact List.mem_cons.2 (Or.inl rfl)
      · have hp1 : (p.to_direction d b.side_length).InBounds b.side_length :=
          to_direction_inBounds hs hp d
        have hrev := ih _ _ hp1 h
        have hwx : b.is_adjacent_to_wall (p.to_direction d b.side_length) d.opp = false := by
          rw [wall_symm hp d, ← Bool.not_eq_true]
          exact hw
        have := walk_ext n q (p.to_direction d b.side_length) hrev hwx
        rw [to_direction_cancel hp d] at this
        exact this

/-- The move simulator stops on a cell of the wall-only walk from its start
(or stays put): robot blocking can only shorten the walk. -/
theorem moveLoop_mem_walk {b : Board} {s : RobotPositions} {d : Direction} :
    ∀ fuel p, moveLoop b s d fuel p = p ∨ moveLoop b s d fuel p ∈ walkCells b d fuel p := by
  intro fuel
  induction fuel with
  | zero => intro p; exact Or.inl rfl
  | succ fuel ih =>
    intro p
    by_cases hr : s.adjacent_reachable b p d = true
    · have hw : b.is_adjacent_to_wall p d = false := by
        simp only [RobotPositions.adjacent_reachable, Bool.and_eq_true,
          Bool.not_eq_true'] at hr
        exact hr.1
      have hstep : moveLoop b s d (fuel + 1) p =
          moveLoop b s d fuel (p.to_direction d b.side_length) := by
        simp only [moveLoop]
        rw [if_pos hr]
      rw [hstep]
      simp only [walkCells, if_neg (by rw [hw]; simp : ¬b.is_adjacent_to_wall p d = true)]
      rcases ih (p.to_direction d b.side_length) with h | h
      · exact Or.inr (List.mem_cons.2 (Or.inl h))
      · exact Or.inr (List.mem_cons.2 (Or.inr h))
    · have : moveLoop b s d (fuel + 1) p = p := by
        simp only [moveLoop]
        rw [if_neg hr]
      exact Or.inl this

theorem StepSpec.mono {k : Nat} {g1 g2 : Grid} {n1 n2 : List Position}
    (h : StepSpec k g1 n1 g2 n2) : ∀ p, g2 p ≤ g1 p := by
  intro p
  rcases h.1 p with e | ⟨e, lt⟩
  · omega
  · omega

theorem stepSpec_id (k : Nat) (g : Grid) (n : List Position) : StepSpec k g n g n := by
  refine ⟨fun p => Or.inl rfl, fun p => ⟨fun h => Or.inl h, fun h => ?_⟩⟩
  rcases h with h | ⟨e, lt⟩
  · exact h
  · omega

theorem StepSpec.comp {k : Nat} {g1 g2 g3 : Grid} {n1 n2 n3 : List Position}
    (h12 : StepSpec k g1 n1 g2 n2) (h23 : StepSpec k g2 n2 g3 n3) :
    StepSpec k g1 n1 g3 n3 := by
  constructor
  · intro p
    rcases h23.1 p with e | ⟨e, lt⟩
    · rcases h12.1 p with e2 | ⟨e2, lt2⟩
      · exact Or.inl (e.trans e2)
      · exact Or.inr ⟨e.trans e2, lt2⟩
    · exact Or.inr ⟨e, lt_of_lt_of_le lt (h12.mono p)⟩
  · intro p
    rw [h23.2 p, h12.2 p]
    constructor
    · rintro ((h | ⟨e, lt⟩) | ⟨e, lt⟩)
      · exact Or.inl h
      · refine Or.inr ⟨?_, lt⟩
        rcases h23.1 p with e3 | ⟨e3, _⟩
        · exact e3.trans e
        · exact e3
      · exact Or.inr ⟨e, lt_of_lt_of_le lt (h12.mono p)⟩
    · rintro (h | ⟨e, lt⟩)
      · exact Or.inl (Or.inl h)
      · rcases h12.1 p with e2 | ⟨e2, lt2⟩
        · exact Or.inr ⟨e, by rw [e2]; exact lt⟩
        · exact Or.inl (Or.inr ⟨e2, lt2⟩)

/-- Once a cell is at or below the pass number it stays there. -/
theorem StepSpec.cap {k : Nat} {g1 g2 : Grid} {n1 n2 : List Position}
    (h : StepSpec k g1 n1 g2 n2) {p : Position} (hp : g1 p ≤ k) : g2 p ≤ k := by
  rcases h.1 p with e | ⟨e, _⟩
  · omega
  · omega

theorem lmVisit_spec (k : Nat) :
    ∀ (cells : List Position) (acc : Grid × List Position),
      StepSpec k acc.1 acc.2 (lmVisit k acc cells).1 (lmVisit k acc cells).2 ∧
        (∀ q ∈ cells, (lmVisit k acc cells).1 q ≤ k) ∧
        (∀ q, (lmVisit k acc cells).1 q ≠ acc.1 q → q ∈ cells) := by
  intro cells
  induction cells with
  | nil =>
    intro acc
    exact ⟨stepSpec_id k acc.1 acc.2, by simp, by simp [lmVisit]⟩
  | cons q rest ih =>
    intro acc
    simp only [lmVisit]
    by_cases hq : k < acc.1 q
    · rw [if_pos hq]
      have hstep : StepSpec k acc.1 acc.2 (acc.1.update q k) (acc.2 ++ [q]) := by
        constructor
        · intro p
          by_cases hpq : p = q
          · subst hpq
            exact Or.inr ⟨by simp [Grid.update], hq⟩
          · exact Or.inl (by simp [Grid.update, hpq])
        · intro p
          simp only [List.mem_append, List.mem_singleton]
          constructor
          · rintro (h | h)
            · exact Or.inl h
            · subst h
              exact Or.inr ⟨by simp [Grid.update], hq⟩
          · rintro (h | ⟨e, lt⟩)
            · exact Or.inl h
            · by_cases hpq : p = q
              · exact Or.inr hpq
              · exfalso
                simp [Grid.update, hpq] at e
                omega
      obtain ⟨ih1, ih2, ih3⟩ := ih (acc.1.update q k, acc.2 ++ [q])
      refine ⟨hstep.comp ih1, ?_, ?_⟩
      · intro x hx
        rcases List.mem_cons.1 hx with hx | hx
        · subst hx
          exact ih1.cap (by simp [Grid.update])
        · exact ih2 x hx
      · intro x hx
        by_cases hxq : x = q
        · exact List.mem_cons.2 (Or.inl hxq)
        · refine List.mem_cons.2 (Or.inr (ih3 x ?_))
          intro hcontra
          apply hx
          rw [hcontra]
          simp [Grid.update, hxq]
    · rw [if_neg hq]
      obtain ⟨ih1, ih2, ih3⟩ := ih acc
      refine ⟨ih1, ?_, fun x hx => List.mem_cons.2 (Or.inr (ih3 x hx))⟩
      intro x hx
      rcases List.mem_cons.1 hx with hx | hx
      · subst hx
        exact ih1.cap (by omega)
      · exact ih2 x hx

theorem lmDirs_spec (b : Board) (k : Nat) (p : Position) :
    ∀ (ds : List Direction) (acc : Grid × List Position),
      StepSpec k acc.1 acc.2 (lmDirs b k p acc ds).1 (lmDirs b k p acc ds).2 ∧
        (∀ d ∈ ds, ∀ q ∈ walkCells b d b.side_length p,
          (lmDirs b k p acc ds).1 q ≤ k) ∧
        (∀ q, (lmDirs b k p acc ds).1 q ≠ acc.1 q →
          ∃ d ∈ ds, q ∈ walkCells b d b.side_length p) := by
  intro ds
  induction ds with
  | nil =>
    intro acc
    exact ⟨stepSpec_id k acc.1 acc.2, by simp, by simp [lmDirs]⟩
  | cons d rest ih =>
    intro acc
    simp only [lmDirs]
    obtain ⟨v1, v2, v3⟩ := lmVisit_spec k (walkCells b d b.side_length p) acc
    obtain ⟨ih1, ih2, ih3⟩ := ih (lmVisit k acc (walkCells b d b.side_length p))
    refine ⟨v1.comp ih1, ?_, ?_⟩
    · intro e he q hq
      rcases List.mem_cons.1 he with he | he
      · subst he
        exact ih1.cap (v2 q hq)
      · exact ih2 e he q hq
    · intro q hq
      by_cases hmid : (lmVisit k acc (walkCells b d b.side_length p)).1 q = acc.1 q
      · obtain ⟨e, he, hqe⟩ := ih3 q (by rw [hmid]; exact hq)
        exact ⟨e, List.mem_cons.2 (Or.inr he), hqe⟩
      · exact ⟨d, List.mem_cons.2 (Or.inl rfl), v3 q hmid⟩

theorem lmCells_spec (b : Board) (k : Nat) :
    ∀ (cells : List Position) (acc : Grid × List Position),
      StepSpec k acc.1 acc.2 (lmCells b k acc cells).1 (lmCells b k acc cells).2 ∧
        (∀ p ∈ cells, ∀ d, ∀ q ∈ walkCells b d b.side_length p,
          (lmCells b k acc cells).1 q ≤ k) ∧
        (∀ q, (lmCells b k acc cells).1 q ≠ acc.1 q →
          ∃ p ∈ cells, ∃ d, q ∈ walkCells b d b.side_length p) := by
  intro cells
  induction cells with
  | nil =>
    intro acc
    exact ⟨stepSpec_id k acc.1 acc.2, by simp, by simp [lmCells]⟩
  | cons p rest ih =>
    intro acc
    simp only [lmCells]
    obtain ⟨d1, d2, d3⟩ := lmDirs_spec b k p DIRECTIONS acc
    obtain ⟨ih1, ih2, ih3⟩ := ih (lmDirs b k p acc DIRECTIONS)
    refine ⟨d1.comp ih1, ?_, ?_⟩
    · intro x hx d q hq
      rcases List.mem_cons.1 hx with hx | hx
      · subst hx
        refine ih1.cap (d2 d ?_ q hq)
        cases d <;> simp [DIRECTIONS]
      · exact ih2 x hx d q hq
    · intro q hq
      by_cases hmid : (lmDirs b k p acc DIRECTIONS).1 q = acc.1 q
      · obtain ⟨x, hx, hrest⟩ := ih3 q (by rw [hmid]; exact hq)
        exact ⟨x, List.mem_cons.2 (Or.inr hx), hrest⟩
      · obtain ⟨d, _, hqd⟩ := d3 q hmid
        exact ⟨p, List.mem_cons.2 (Or.inl rfl), d, hqd⟩

theorem assignedCard_le (len : Nat) (g : Grid) : assignedCard len g ≤ len * len := by
  unfold assignedCard
  calc ((Finset.range len ×ˢ Finset.range len).filter fun cr =>
        g { column := cr.1, row := cr.2 } < len * len).card
      ≤ (Finset.range len ×ˢ Finset.range len).card := Finset.card_filter_le _ _
    _ = len * len := by rw [Finset.card_product, Finset.card_range]

theorem assignedCard_mono {len : Nat} {g1 g2 : Grid} (h : ∀ p, g2 p ≤ g1 p) :
    assignedCard len g1 ≤ assignedCard len g2 := by
  apply Finset.card_le_card
  intro x hx
  simp only [Finset.mem_filter] at hx ⊢
  exact ⟨hx.1, lt_of_le_of_lt (h _) hx.2⟩

theorem assignedCard_lt {len : Nat} {g1 g2 : Grid} (hmono : ∀ p, g2 p ≤ g1 p)
    {p : Position} (hin : p.InBounds len) (h2 : g2 p < len * len)
    (h1 : ¬g1 p < len * len) : assignedCard len g1 < assignedCard len g2 := by
  apply Finset.card_lt_card
  rw [Finset.ssubset_iff_of_subset]
  · refine ⟨(p.column, p.row), ?_, ?_⟩
    · simp only [Finset.mem_filter, Finset.mem_product, Finset.mem_range]
      exact ⟨⟨hin.1, hin.2⟩, h2⟩
    · simp only [Finset.mem_filter, Finset.mem_product, Finset.mem_range, not_and]
      intro _
      exact h1
  · intro x hx
    simp only [Finset.mem_filter] at hx ⊢
    exact ⟨hx.1, lt_of_le_of_lt (hmono _) hx.2⟩

theorem assignedCard_full {len : Nat} {g : Grid} (h : len * len ≤ assignedCard len g) :
    ∀ p, p.InBounds len → g p < len * len := by
  intro p hp
  by_contra hc
  have hsub : ((Finset.range len ×ˢ Finset.range len).filter fun cr =>
      g { column := cr.1, row := cr.2 } < len * len) ⊂
      Finset.range len ×ˢ Finset.range len := by
    rw [Finset.ssubset_iff_of_subset (Finset.filter_subset _ _)]
    refine ⟨(p.column, p.row), ?_, ?_⟩
    · simp only [Finset.mem_product, Finset.mem_range]
      exact ⟨hp.1, hp.2⟩
    · simp only [Finset.mem_filter, Finset.mem_product, Finset.mem_range, not_and]
      intro _
      exact hc
  have := Finset.card_lt_card hsub
  rw [Finset.card_product, Finset.card_range] at this
  unfold assignedCard at h
  omega

/-- The full loop invariant of the pass loop of `LeastMovesBoard::new`,
by induction over the fuel.  The conclusions are the facts used downstream:
the target keeps value 0, every value is at most `len * len`, assigned cells
are in bounds, and every wall-only walk from an assigned cell reaches only
cells assigned at most one move more (and still assigned). -/
theorem lmLoop_invariant (b : Board) (tp : Position) :
    ∀ fuel k g current,
      1 ≤ k →
      (∀ p, g p ≤ b.side_length * b.side_length) →
      (∀ p, g p < k ∨ g p = b.side_length * b.side_length) →
      (∀ p, g p = k - 1 ↔ p ∈ current) →
      (∀ p, g p < k - 1 → ∀ d, ∀ q ∈ walkCells b d b.side_length p,
        g q ≤ g p + 1 ∧ g q < b.side_length * b.side_length) →
      (∀ p, g p < b.side_length * b.side_length → p.InBounds b.side_length) →
      k ≤ assignedCard b.side_length g →
      g tp = 0 →
      b.side_length * b.side_length + 2 ≤ fuel + k →
      lmLoop b fuel k g current tp = 0 ∧
      (∀ p, lmLoop b fuel k g current p ≤ b.side_length * b.side_length) ∧
      (∀ p, lmLoop b fuel k g current p < b.side_length * b.side_length →
        p.InBounds b.side_length) ∧
      (∀ p, lmLoop b fuel k g current p < b.side_length * b.side_length →
        ∀ d, ∀ q ∈ walkCells b d b.side_length p,
          lmLoop b fuel k g current q ≤ lmLoop b fuel k g current p + 1 ∧
          lmLoop b fuel k g current q < b.side_length * b.side_length) := by
  intro fuel
  induction fuel with
  | zero =>
    intro k g current hk hub hvals hcur hproc hbnd hcard htp hfuel
    exfalso
    have := assignedCard_le b.side_length g
    omega
  | succ fuel ih =>
    intro k g current hk hub hvals hcur hproc hbnd hcard htp hfuel
    have hklen : k ≤ b.side_length * b.side_length :=
      le_trans hcard (assignedCard_le _ _)
    have hs : 0 < b.side_length := by
      rcases Nat.eq_zero_or_pos b.side_length with h0 | h
      · exfalso
        have := assignedCard_le b.side_length g
        rw [h0] at hklen
        omega
      · exact h
    obtain ⟨sp, wk, chg⟩ := lmCells_spec b k current (g, [])
    have hmono : ∀ p, (lmCells b k (g, []) current).1 p ≤ g p := sp.mono
    have hlow : ∀ p, (lmCells b k (g, []) current).1 p = g p ∨
        ((lmCells b k (g, []) current).1 p = k ∧ k < g p) := sp.1
    have hmem : ∀ p, p ∈ (lmCells b k (g, []) current).2 ↔
        ((lmCells b k (g, []) current).1 p = k ∧ k < g p) := by
      intro p
      rw [sp.2 p]
      simp
    by_cases hempty : (lmCells b k (g, []) current).2.isEmpty
    · -- final pass: nothing was assigned, the grid is unchanged and complete
      have hgg : ∀ p, (lmCells b k (g, []) current).1 p = g p := by
        intro p
        rcases hlow p with e | ⟨e, lt⟩
        · exact e
        · exfalso
          have : p ∈ (lmCells b k (g, []) current).2 := (hmem p).2 ⟨e, lt⟩
          rw [List.isEmpty_iff] at hempty
          rw [hempty] at this
          simp at this
      have hloop : lmLoop b (fuel + 1) k g current = (lmCells b k (g, []) current).1 := by
        simp only [lmLoop]
        rw [if_pos hempty]
      rw [hloop]
      refine ⟨by rw [hgg]; exact htp, fun p => by rw [hgg]; exact hub p,
        fun p hp => hbnd p (by rw [hgg] at hp; exact hp), ?_⟩
      intro p hp d q hq
      rw [hgg] at hp
      rw [hgg, hgg]
      rcases hvals p with hlt | heq
      · rcases Nat.lt_or_ge (g p) (k - 1) with hcase | hcase
        · exact hproc p hcase d q hq
        · have hpk : g p = k - 1 := by omega
          have hpcur : p ∈ current := (hcur p).1 hpk
          have hq2 : (lmCells b k (g, []) current).1 q ≤ k := wk p hpcur d q hq
          rw [hgg] at hq2
          constructor
          · omega
          · rcases hvals q with hqlt | hqeq
            · omega
            · -- q unassigned would force k = len * len, i.e. a full grid
              exfalso
              have hkfull : k = b.side_length * b.side_length := by omega
              have hall := @assignedCard_full b.side_length g (by omega)
              have hpin : p.InBounds b.side_length := hbnd p (by omega)
              have hqin : q.InBounds b.side_length :=
                walkCells_inBounds hs d _ p hpin q hq
              have := hall q hqin
              omega
      · omega
    · -- continuing pass: at least one cell was newly assigned
      obtain ⟨p0, hp0⟩ : ∃ p0, p0 ∈ (lmCells b k (g, []) current).2 := by
        have hne : (lmCells b k (g, []) current).2 ≠ [] := by
          simpa [List.isEmpty_iff] using hempty
        exact List.exists_mem_of_ne_nil _ hne
      have hp0new := (hmem p0).1 hp0
      have hp0un : g p0 = b.side_length * b.side_length := by
        rcases hvals p0 with h | h
        · omega
        · exact h
      have hp0in : p0.InBounds b.side_length := by
        obtain ⟨pc, hpc, d, hwalk⟩ := chg p0 (by
          show (lmCells b k (g, []) current).1 p0 ≠ g p0
          omega)
        have hpcin : pc.InBounds b.side_length := by
          apply hbnd
          have := (hcur pc).2 hpc
          omega
        exact walkCells_inBounds hs d _ pc hpcin p0 hwalk
      have hklt : k < b.side_length * b.side_length := by
        have := @assignedCard_lt b.side_length g (lmCells b k (g, []) current).1
          hmono p0 hp0in (by omega) (by omega)
        have := assignedCard_le b.side_length (lmCells b k (g, []) current).1
        omega
      have hcard2 : k + 1 ≤ assignedCard b.side_length (lmCells b k (g, []) current).1 := by
        have hstrict := @assignedCard_lt b.side_length g (lmCells b k (g, []) current).1
          hmono p0 hp0in (by omega) (by omega)
        omega
      have hloop : lmLoop b (fuel + 1) k g current =
          lmLoop b fuel (k + 1) (lmCells b k (g, []) current).1
            (lmCells b k (g, []) current).2 := by
        simp only [lmLoop]
        rw [if_neg hempty]
      rw [hloop]
      apply ih (k + 1) (lmCells b k (g, []) current).1 (lmCells b k (g, []) current).2
      · omega
      · intro p
        exact le_trans (hmono p) (hub p)
      · intro p
        rcases hlow p with e | ⟨e, _⟩
        · rcases hvals p with h | h
          · exact Or.inl (by omega)
          · exact Or.inr (by omega)
        · exact Or.inl (by omega)
      · intro p
        constructor
        · intro hpk
          apply (hmem p).2
          refine ⟨by omega, ?_⟩
          rcases hlow p with e | ⟨e, lt⟩
          · exfalso
            rcases hvals p with h | h
            · omega
            · omega
          · exact lt
        · intro hpn
          have := (hmem p).1 hpn
          omega
      · intro p hp d q hq
        have hpe : (lmCells b k (g, []) current).1 p = g p := by
          rcases hlow p with e | ⟨e, _⟩
          · exact e
          · omega
        have hgp : g p < k := by
          rcases hvals p with h | h
          · exact h
          · omega
        rcases Nat.lt_or_ge (g p) (k - 1) with hcase | hcase
        · obtain ⟨hb1, hb2⟩ := hproc p hcase d q hq
          exact ⟨by have := hmono q; omega, by have := hmono q; omega⟩
        · have hpk : g p = k - 1 := by omega
          have hpcur : p ∈ current := (hcur p).1 hpk
          have hq2 : (lmCells b k (g, []) current).1 q ≤ k := wk p hpcur d q hq
          exact ⟨by omega, by omega⟩
      · intro p hp
        rcases hlow p with e | ⟨e, _⟩
        · exact hbnd p (by omega)
        · obtain ⟨pc, hpc, d, hwalk⟩ := chg p (by
            show (lmCells b k (g, []) current).1 p ≠ g p
            omega)
          have hpcin : pc.InBounds b.side_length := by
            apply hbnd
            have := (hcur pc).2 hpc
            omega
          exact walkCells_inBounds hs d _ pc hpcin p hwalk
      · exact hcard2
      · rcases hlow tp with e | ⟨e, lt⟩
        · omega
        · omega
      · omega

/-- The constructed heuristic grid: zero at the target, bounded by the
unassigned marker, and one-step-compatible along every wall-only walk. -/
theorem leastMoves_grid_spec (b : Board) (tp : Position)
    (htp : tp.InBounds b.side_length) :
    (LeastMovesBoard.new b tp).board tp = 0 ∧
    (∀ p, (LeastMovesBoard.new b tp).board p ≤ b.side_length * b.side_length) ∧
    (∀ p, (LeastMovesBoard.new b tp).board p < b.side_length * b.side_length →
      ∀ d, ∀ q ∈ walkCells b d b.side_length p,
        (LeastMovesBoard.new b tp).board q ≤ (LeastMovesBoard.new b tp).board p + 1 ∧
        (LeastMovesBoard.new b tp).board q < b.side_length * b.side_length) := by
  have hs : 0 < b.side_length := Nat.lt_of_le_of_lt (Nat.zero_le _) htp.1
  have hL : 0 < b.side_length * b.side_length := Nat.mul_pos hs hs
  have heq : (LeastMovesBoard.new b tp).board =
      lmLoop b (b.side_length * b.side_length + 1) 1
        (Grid.update (fun _ => b.side_length * b.side_length) tp 0) [tp] := rfl
  rw [heq]
  have hinv := lmLoop_invariant b tp (b.side_length * b.side_length + 1) 1
    (Grid.update (fun _ => b.side_length * b.side_length) tp 0) [tp]
    (by omega)
    (by intro p; by_cases h : p = tp <;> simp [Grid.update, h])
    (by intro p; by_cases h : p = tp <;> simp [Grid.update, h])
    (by
      intro p
      by_cases h : p = tp
      · simp [Grid.update, h]
      · simp only [Grid.update, if_neg h, List.mem_singleton]
        constructor
        · intro h0
          omega
        · intro h0
          exact absurd h0 h)
    (by intro p hlt; omega)
    (by
      intro p hlt
      by_cases h : p = tp
      · exact h ▸ htp
      · simp [Grid.update, h] at hlt)
    (by
      apply Finset.card_pos.2
      refine ⟨(tp.column, tp.row), ?_⟩
      simp only [Finset.mem_filter, Finset.mem_product, Finset.mem_range]
      refine ⟨⟨htp.1, htp.2⟩, ?_⟩
      show Grid.update (fun _ => b.side_length * b.side_length) tp 0 tp <
        b.side_length * b.side_length
      simpa [Grid.update] using hL)
    (by simp [Grid.update])
    (by omega)
  exact ⟨hinv.1, hinv.2.1, hinv.2.2.2⟩

theorem min_moves_none_le (lm : LeastMovesBoard) (s : RobotPositions) {t : Target}
    (ht : t.toRobot? = none) (r : Robot) :
    lm.min_moves s t ≤ lm.board (s.get r) := by
  cases r <;>
    simp only [LeastMovesBoard.min_moves, ht, RobotPositions.get] <;>
    first
      | exact le_trans (min_le_left _ _)
          (le_trans (min_le_left _ _) (min_le_left _ _))
      | exact le_trans (min_le_left _ _)
          (le_trans (min_le_left _ _) (min_le_right _ _))
      | exact le_trans (min_le_left _ _) (min_le_right _ _)
      | exact min_le_right _ _

theorem min_moves_none_attained (lm : LeastMovesBoard) (s : RobotPositions) {t : Target}
    (ht : t.toRobot? = none) :
    ∃ r, lm.min_moves s t = lm.board (s.get r) := by
  simp only [LeastMovesBoard.min_moves, ht]
  rcases Nat.le_total (min (min (lm.board s.red) (lm.board s.blue)) (lm.board s.green))
      (lm.board s.yellow) with h | h
  · rw [min_eq_left h]
    rcases Nat.le_total (min (lm.board s.red) (lm.board s.blue)) (lm.board s.green) with
      h2 | h2
    · rw [min_eq_left h2]
      rcases Nat.le_total (lm.board s.red) (lm.board s.blue) with h3 | h3
      · exact ⟨.Red, min_eq_left h3⟩
      · exact ⟨.Blue, min_eq_right h3⟩
    · exact ⟨.Green, min_eq_right h2⟩
  · exact ⟨.Yellow, min_eq_right h⟩

theorem min_moves_colored (lm : LeastMovesBoard) (s : RobotPositions) {t : Target}
    {c : Robot} (h : t.toRobot? = some c) : lm.min_moves s t = lm.board (s.get c) := by
  simp only [LeastMovesBoard.min_moves, h]

theorem target_reached_colored {b : Board} {t : Target} {tp : Position}
    {s : RobotPositions} {c : Robot} (h : t.toRobot? = some c) :
    (Round.new b t tp).target_reached s = true ↔ s.get c = tp := by
  simp only [Round.target_reached, Round.new, h, RobotPositions.contains_colored_robot]
  simp [eq_comm]

theorem target_reached_none {b : Board} {t : Target} {tp : Position}
    {s : RobotPositions} (h : t.toRobot? = none) :
    (Round.new b t tp).target_reached s = true ↔ ∃ r, s.get r = tp := by
  simp only [Round.target_reached, Round.new, h]
  exact contains_any_iff s tp

/-- A move keeps every robot in bounds. -/
theorem move_preserves_inBounds {b : Board} {s : RobotPositions}
    (hin : ∀ r2, (s.get r2).InBounds b.side_length) (r : Robot) (d : Direction) :
    ∀ r2, ((s.move_in_direction b r d).get r2).InBounds b.side_length := by
  have hs : 0 < b.side_length := Nat.lt_of_le_of_lt (Nat.zero_le _) (hin r).1
  intro r2
  by_cases hr : r2 = r
  · subst hr
    rw [RobotPositions.move_in_direction, get_set_self]
    rcases moveLoop_mem_walk b.side_length (s.get r2) with h | h
    · rw [h]
      exact hin r2
    · exact walkCells_inBounds hs d _ (s.get r2) (hin r2) _ h
  · rw [RobotPositions.move_in_direction, get_set_other s hr]
    exact hin r2

/-- One slide changes the grid value of the moved robot by at most one step
backward, and keeps it assigned whenever the destination is assigned. -/
theorem board_step_bound {b : Board} {tp : Position} (htp : tp.InBounds b.side_length)
    {s : RobotPositions} (hin : ∀ r2, (s.get r2).InBounds b.side_length)
    (r : Robot) (d : Direction)
    (hdst : (LeastMovesBoard.new b tp).board ((s.move_in_direction b r d).get r) <
      b.side_length * b.side_length) :
    (LeastMovesBoard.new b tp).board (s.get r) ≤
      (LeastMovesBoard.new b tp).board ((s.move_in_direction b r d).get r) + 1 ∧
    (LeastMovesBoard.new b tp).board (s.get r) < b.side_length * b.side_length := by
  have hs : 0 < b.side_length := Nat.lt_of_le_of_lt (Nat.zero_le _) (hin r).1
  obtain ⟨_, _, hwalkspec⟩ := leastMoves_grid_spec b tp htp
  rw [RobotPositions.move_in_direction, get_set_self] at hdst ⊢
  rcases moveLoop_mem_walk b.side_length (s.get r) with h | h
  · rw [h] at hdst ⊢
    exact ⟨by omega, hdst⟩
  · have hrev : s.get r ∈
        walkCells b d.opp b.side_length (moveLoop b s d b.side_length (s.get r)) :=
      walk_reverse b.side_length (s.get r) _ (hin r) h
    exact hwalkspec _ hdst d.opp _ hrev

/-- Admissibility, by backward induction along a winning move sequence: the
heuristic value of the start is at most the length of any winning sequence,
and the start cell is assigned (below the unassigned marker). -/
theorem heuristic_le_moves (b : Board) (t : Target) (tp : Position)
    (htp : tp.InBounds b.side_length) :
    ∀ (moves : List (Robot × Direction)) (s : RobotPositions),
      (∀ r, (s.get r).InBounds b.side_length) →
      (Round.new b t tp).target_reached (applyMoves b s moves) = true →
      (LeastMovesBoard.new b tp).min_moves s t ≤ moves.length ∧
      (LeastMovesBoard.new b tp).min_moves s t <
        b.side_length * b.side_length := by
  have hs : 0 < b.side_length := Nat.lt_of_le_of_lt (Nat.zero_le _) htp.1
  have hL : 0 < b.side_length * b.side_length := Nat.mul_pos hs hs
  obtain ⟨hzero, hub, hwalk⟩ := leastMoves_grid_spec b tp htp
  intro moves
  induction moves with
  | nil =>
    intro s hin hwin
    have happ : applyMoves b s [] = s := rfl
    rw [happ] at hwin
    rcases ht : t.toRobot? with _ | c
    · obtain ⟨r, hr⟩ := (target_reached_none ht).1 hwin
      have h0 : (LeastMovesBoard.new b tp).board (s.get r) = 0 := by
        rw [hr]
        exact hzero
      have hle := min_moves_none_le (LeastMovesBoard.new b tp) s ht r
      rw [h0] at hle
      exact ⟨by simpa using hle, by omega⟩
    · have hc := (target_reached_colored ht).1 hwin
      rw [min_moves_colored _ _ ht, hc, hzero]
      exact ⟨by simp, hL⟩
  | cons m rest ih =>
    intro s hin hwin
    obtain ⟨r0, d0⟩ := m
    have happ : applyMoves b s ((r0, d0) :: rest) =
        applyMoves b (s.move_in_direction b r0 d0) rest := rfl
    rw [happ] at hwin
    have hin2 := move_preserves_inBounds hin r0 d0
    obtain ⟨ihle, ihlt⟩ := ih (s.move_in_direction b r0 d0) hin2 hwin
    have hlen : ((r0, d0) :: rest).length = rest.length + 1 := rfl
    rcases ht : t.toRobot? with _ | c
    · -- any-robot target: the minimum over the four robots
      obtain ⟨x0, hx0⟩ :=
        min_moves_none_attained (LeastMovesBoard.new b tp) (s.move_in_direction b r0 d0) ht
      by_cases hxr : x0 = r0
      · subst hxr
        have hdst : (LeastMovesBoard.new b tp).board
            ((s.move_in_direction b x0 d0).get x0) < b.side_length * b.side_length := by
          rw [← hx0]
          exact ihlt
        obtain ⟨hb1, hb2⟩ := board_step_bound htp hin x0 d0 hdst
        have hminle := min_moves_none_le (LeastMovesBoard.new b tp) s ht x0
        refine ⟨?_, by omega⟩
        rw [hlen]
        rw [← hx0] at hb1
        omega
      · have hsame : (s.move_in_direction b r0 d0).get x0 = s.get x0 := by
          rw [RobotPositions.move_in_direction, get_set_other s hxr]
        have hminle := min_moves_none_le (LeastMovesBoard.new b tp) s ht x0
        rw [hsame] at hx0
        rw [← hx0] at hminle
        exact ⟨by omega, by omega⟩
    · -- colored target
      rw [min_moves_colored _ _ ht] at ihle ihlt ⊢
      by_cases hcr : c = r0
      · subst hcr
        have hdst : (LeastMovesBoard.new b tp).board
            ((s.move_in_direction b c d0).get c) < b.side_length * b.side_length := ihlt
        obtain ⟨hb1, hb2⟩ := board_step_bound htp hin c d0 hdst
        refine ⟨?_, hb2⟩
        rw [hlen]
        omega
      · have hsame : (s.move_in_direction b r0 d0).get c = s.get c := by
          rw [RobotPositions.move_in_direction, get_set_other s hcr]
        rw [hsame] at ihle ihlt
        exact ⟨by omega, ihlt⟩

/-- Looking up the key just overwritten returns the new record. -/
theorem overwrite_get {t : VisitedNodes} {pos : RobotPositions} {n : BasicVisitedNode}
    (h : t.get pos = some n) (v : BasicVisitedNode) :
    (t.overwrite pos v).get pos = some v := by
  induction t with
  | nil => simp [VisitedNodes.get] at h
  | cons kv rest ih =>
    obtain ⟨k, v0⟩ := kv
    simp only [VisitedNodes.get, VisitedNodes.overwrite] at h ⊢
    by_cases hk : k = pos
    · rw [if_pos hk]
      simp [VisitedNodes.get, hk]
    · rw [if_neg hk] at h
      rw [if_neg hk]
      simp only [VisitedNodes.get, if_neg hk]
      exact ih h

/-- The layer loop of `BreadthFirst::start` run on an empty frontier swaps
two empty vectors and never produces anything: it spins until the fuel —
standing in for the unbounded `for move_n in 0..` — is gone. -/
theorem bfsLoop_nil (round : Round) :
    ∀ fuel move_n visited, bfsLoop round fuel move_n visited [] = none := by
  intro fuel
  induction fuel with
  | zero => intro _ _; rfl
  | succ fuel ih =>
    intro move_n visited
    show bfsLoop round (fuel + 1) move_n visited [] = none
    simp only [bfsLoop, bfsLayer]
    exact ih (move_n + 1) visited

/-- A state satisfying the win predicate has heuristic value 0: the robot
the target asks for sits on the target cell, whose grid value is 0. -/
theorem min_moves_of_win {b : Board} {tp : Position} {t : Target}
    {pos : RobotPositions} (htp : tp.InBounds b.side_length)
    (hwin : (Round.new b t tp).target_reached pos = true) :
    (LeastMovesBoard.new b tp).min_moves pos t = 0 := by
  obtain ⟨hzero, _, _⟩ := leastMoves_grid_spec b tp htp
  rcases ht : t.toRobot? with _ | c
  · obtain ⟨r, hr⟩ := (target_reached_none ht).1 hwin
    have hle := min_moves_none_le (LeastMovesBoard.new b tp) pos ht r
    rw [hr, hzero] at hle
    omega
  · rw [min_moves_colored _ _ ht, (target_reached_colored ht).1 hwin, hzero]

/-- Boolean reading of a failed reachability check: a wall or an occupied
adjacent cell. -/
theorem adjacent_reachable_false_iff (b : Board) (s : RobotPositions) (p : Position)
    (d : Direction) :
    s.adjacent_reachable b p d = false ↔
      (b.is_adjacent_to_wall p d = true ∨
        s.contains_any_robot (p.to_direction d b.side_length) = true) := by
  unfold RobotPositions.adjacent_reachable
  cases hw : b.is_adjacent_to_wall p d <;>
    cases hc : s.contains_any_robot (p.to_direction d b.side_length) <;>
    simp [hw, hc]

/-- C2: on an unsolvable instance the breadth-first solver does not
terminate.  `BreadthFirst::start` iterates `for move_n in 0..` with no
empty-frontier check: once the frontier empties it swaps empty vectors
forever.  On the caged instance (no robot can move, the target is not
reached) the embedded solver returns `none` — fuel exhaustion, i.e.
non-termination — for every fuel, refuting termination by frontier-empty
detection. -/
theorem C2_bfs_never_terminates_on_unsolvable :
    ∀ fuel, bfs_solve cageRound cageStart fuel = none := by
  intro fuel
  have hnw : ¬cageRound.target_reached cageStart = true := by decide
  unfold bfs_solve
  rw [if_neg hnw]
  cases fuel with
  | zero => rfl
  | succ fuel =>
    have hlayer : bfsLayer cageRound 0 [] [] [cageStart] = ([], [], none) := by decide
    show bfsLoop cageRound (fuel + 1) 0 [] [cageStart] = none
    simp only [bfsLoop, hlayer]
    exact bfsLoop_nil cageRound fuel 1 []

/-- C9: on the 16x16 empty enclosed board with robots at
`[(0,0), (1,0), (0,1), (1,1)]`, the successor enumerator yields exactly the
four listed `(state, move)` pairs, in robot-major, then direction order. -/
theorem C9_successor_enumeration :
    (RobotPositions.from_tuples (0, 0) (1, 0) (0, 1) (1, 1)).reachable_positions
      ((Board.new_empty 16).wall_enclosure) =
    [(RobotPositions.from_tuples (0, 0) (15, 0) (0, 1) (1, 1),
        (Robot.Blue, Direction.Right)),
      (RobotPositions.from_tuples (0, 0) (1, 0) (0, 15) (1, 1),
        (Robot.Green, Direction.Down)),
      (RobotPositions.from_tuples (0, 0) (1, 0) (0, 1) (1, 15),
        (Robot.Yellow, Direction.Down)),
      (RobotPositions.from_tuples (0, 0) (1, 0) (0, 1) (15, 1),
        (Robot.Yellow, Direction.Right))] := by
  decide

/-- C10: the move simulator only changes the moved robot: every other
robot's position is unchanged, in the total model and in the checked
(panic-aware) model alike. -/
theorem C10_move_frame (b : Board) (s : RobotPositions) (r : Robot) (d : Direction)
    (r2 : Robot) (h : r2 ≠ r) :
    (s.move_in_direction b r d).get r2 = s.get r2 ∧
    (∀ s2, s.move_in_direction? b r d = some s2 → s2.get r2 = s.get r2) := by
  constructor
  · rw [RobotPositions.move_in_direction, get_set_other s h]
  · intro s2 hs2
    unfold RobotPositions.move_in_direction? at hs2
    rcases hmap : moveLoop? b s d (b.side_length + 1) (s.get r) with _ | q
    · rw [hmap] at hs2
      simp at hs2
    · rw [hmap] at hs2
      simp only [Option.map_some'] at hs2
      have hq : s.set_robot r q = s2 := by injection hs2
      rw [← hq]
      exact get_set_other s h q

/-- Closed instance of C10 at a concrete board and state. -/
theorem C10_move_frame_witness :
    Robot.Blue ≠ Robot.Red ∧
    ((demoStart.move_in_direction demo3Board Robot.Red Direction.Down).get Robot.Blue =
        demoStart.get Robot.Blue ∧
      (∀ s2, demoStart.move_in_direction? demo3Board Robot.Red Direction.Down = some s2 →
        s2.get Robot.Blue = demoStart.get Robot.Blue)) :=
  ⟨by decide, C10_move_frame demo3Board demoStart Robot.Red Direction.Down Robot.Blue
    (by decide)⟩

/-- C7 counterexample: the move simulator is not total on every input.  An
empty board is accepted by `Board::new`, and on it `move_in_direction`
panics (an out-of-bounds `walls` index in `is_adjacent_to_wall`), modelled
by `none`. -/
theorem C7_simulator_panics_on_empty_board :
    Board.new [] = some (Board.mk []) ∧
    (RobotPositions.from_tuples (0, 0) (0, 0) (0, 0) (0, 0)).move_in_direction?
      (Board.mk []) Robot.Red Direction.Right = none := by
  decide

/-- C7 amended: on a well-formed board with side at least 2 and the moving
robot in bounds, the simulator is total (the checked version never panics
and agrees with the total one), and it returns its input state exactly when
the robot is immediately blocked — a wall adjacent in the move direction,
or another robot on the adjacent cell. -/
theorem C7_simulator_total_and_blocked_iff (b : Board) (s : RobotPositions)
    (r : Robot) (d : Direction) (hw : b.Wellformed)
    (hp : (s.get r).InBounds b.side_length) (h2 : 2 ≤ b.side_length) :
    s.move_in_direction? b r d = some (s.move_in_direction b r d) ∧
    (s.move_in_direction b r d = s ↔
      (b.is_adjacent_to_wall (s.get r) d = true ∨
        ∃ r2, r2 ≠ r ∧ s.get r2 = (s.get r).to_direction d b.side_length)) := by
  have hs : 0 < b.side_length := by omega
  refine ⟨move_in_direction_eq_some hw hp, ?_⟩
  rw [move_in_direction_eq_self_iff hs, adjacent_reachable_false_iff]
  constructor
  · rintro (h | h)
    · exact Or.inl h
    · exact Or.inr ((contains_adjacent_iff_other h2 hp d).1 h)
  · rintro (h | h)
    · exact Or.inl h
    · exact Or.inr ((contains_adjacent_iff_other h2 hp d).2 h)

/-- Closed instance of the amended C7 at a concrete board and state. -/
theorem C7_simulator_total_and_blocked_iff_witness :
    demo3Board.Wellformed ∧ (demoStart.get Robot.Red).InBounds demo3Board.side_length ∧
    2 ≤ demo3Board.side_length ∧
    (demoStart.move_in_direction? demo3Board Robot.Red Direction.Up =
        some (demoStart.move_in_direction demo3Board Robot.Red Direction.Up) ∧
      (demoStart.move_in_direction demo3Board Robot.Red Direction.Up = demoStart ↔
        (demo3Board.is_adjacent_to_wall (demoStart.get Robot.Red) Direction.Up = true ∨
          ∃ r2, r2 ≠ Robot.Red ∧ demoStart.get r2 =
            (demoStart.get Robot.Red).to_direction Direction.Up demo3Board.side_length))) :=
  ⟨by decide, by decide, by decide,
    C7_simulator_total_and_blocked_iff demo3Board demoStart Robot.Red Direction.Up
      (by decide) (by decide) (by decide)⟩

/-- C4 counterexample: the data-model constructors do not reject malformed
input.  Duplicate robots and out-of-bounds coordinates are accepted by
`RobotPositions::from_tuples`, an empty wall grid is accepted by
`Board::new`, and `Round::new` accepts a target cell off the board. -/
theorem C4_constructors_accept_malformed :
    (RobotPositions.from_tuples (1, 1) (1, 1) (2, 2) (0, 0)).red =
      (RobotPositions.from_tuples (1, 1) (1, 1) (2, 2) (0, 0)).blue ∧
    Board.new [] = some (Board.mk []) ∧
    (Round.new ((Board.new_empty 2).wall_enclosure) (Target.Red Symbol.Circle)
      ⟨7, 9⟩).target_position = ⟨7, 9⟩ ∧
    (RobotPositions.from_tuples (700, 800) (1, 0) (0, 1) (1, 1)).red = ⟨700, 800⟩ := by
  decide

/-- C4 amended: the only construction-time rejection in the data model is
`Board::new` panicking when some wall column's length differs from the
number of columns; `RobotPositions::from_tuples` and `Round::new` accept
every input unchecked (and an empty grid passes the `Board::new` check). -/
theorem C4_validation_as_implemented :
    (∀ walls, Board.new walls = none ↔ ∃ v ∈ walls, v.length ≠ walls.length) ∧
    (∀ p0 p1 p2 p3, RobotPositions.from_tuples p0 p1 p2 p3 =
      { red := Position.from_tuple p0
        blue := Position.from_tuple p1
        green := Position.from_tuple p2
        yellow := Position.from_tuple p3 }) ∧
    (∀ bd tg tp, Round.new bd tg tp =
      { board := bd, target := tg, target_position := tp }) := by
  refine ⟨?_, fun _ _ _ _ => rfl, fun _ _ _ => rfl⟩
  intro walls
  unfold Board.new
  by_cases h : walls.all (fun v => v.length = walls.length) = true
  · rw [if_pos h]
    rw [List.all_eq_true] at h
    constructor
    · intro hcontra
      exact absurd hcontra (by simp)
    · rintro ⟨v, hv, hne⟩
      have := h v hv
      simp only [decide_eq_true_eq] at this
      exact absurd this hne
  · rw [if_neg h]
    constructor
    · intro _
      simp only [List.all_eq_true, decide_eq_true_eq] at h
      push_neg at h
      obtain ⟨v, hv, hne⟩ := h
      exact ⟨v, hv, hne⟩
    · intro _
      rfl

/-- C6: `VisitedNodes::add_node`.  If the state is recorded with a cost at
most the new one — including equal cost — the table is returned unchanged
with `BetterKnown`; if it is absent the new record is inserted with `New`;
if it is recorded with a strictly greater cost the record is overwritten
with the new predecessor information and `WorseKnown` is returned. -/
theorem C6_add_node_spec (t : VisitedNodes) (pos from_pos : RobotPositions)
    (cost : Nat) (moved : Robot × Direction) :
    (∀ n, t.get pos = some n → n.moves_to_reach ≤ cost →
      t.add_node pos from_pos cost moved = (t, .BetterKnown)) ∧
    (t.get pos = none →
      t.add_node pos from_pos cost moved =
        ((pos, BasicVisitedNode.new cost from_pos moved) :: t, .New)) ∧
    (∀ n, t.get pos = some n → cost < n.moves_to_reach →
      t.add_node pos from_pos cost moved =
        (t.overwrite pos (BasicVisitedNode.new cost from_pos moved), .WorseKnown) ∧
      (t.overwrite pos (BasicVisitedNode.new cost from_pos moved)).get pos =
        some (BasicVisitedNode.new cost from_pos moved)) := by
  refine ⟨?_, ?_, ?_⟩
  · intro n hget hle
    unfold VisitedNodes.add_node
    rw [hget]
    show (if n.moves_to_reach ≤ cost then (t, AddNodeOutcome.BetterKnown)
      else (t.overwrite pos (BasicVisitedNode.new cost from_pos moved),
        AddNodeOutcome.WorseKnown)) = (t, AddNodeOutcome.BetterKnown)
    rw [if_pos hle]
  · intro hget
    unfold VisitedNodes.add_node
    rw [hget]
  · intro n hget hlt
    refine ⟨?_, overwrite_get hget _⟩
    unfold VisitedNodes.add_node
    rw [hget]
    show (if n.moves_to_reach ≤ cost then (t, AddNodeOutcome.BetterKnown)
      else (t.overwrite pos (BasicVisitedNode.new cost from_pos moved),
        AddNodeOutcome.WorseKnown)) =
      (t.overwrite pos (BasicVisitedNode.new cost from_pos moved),
        AddNodeOutcome.WorseKnown)
    rw [if_neg (by omega)]

/-- Closed instance of C6: one table exercised through all three outcomes,
including the equal-cost case that must not overwrite. -/
theorem C6_add_node_spec_witness :
    (VisitedNodes.get [(demoWinState, BasicVisitedNode.new 2 demoStart
        (Robot.Red, Direction.Down))] demoWinState =
      some (BasicVisitedNode.new 2 demoStart (Robot.Red, Direction.Down)) ∧
      (BasicVisitedNode.new 2 demoStart (Robot.Red, Direction.Down)).moves_to_reach ≤ 2) ∧
    VisitedNodes.add_node [(demoWinState, BasicVisitedNode.new 2 demoStart
        (Robot.Red, Direction.Down))] demoWinState demoStart 2
        (Robot.Blue, Direction.Up) =
      ([(demoWinState, BasicVisitedNode.new 2 demoStart (Robot.Red, Direction.Down))],
        .BetterKnown) ∧
    VisitedNodes.add_node [] demoWinState demoStart 2 (Robot.Red, Direction.Down) =
      ([(demoWinState, BasicVisitedNode.new 2 demoStart (Robot.Red, Direction.Down))],
        .New) ∧
    VisitedNodes.add_node [(demoWinState, BasicVisitedNode.new 2 demoStart
        (Robot.Red, Direction.Down))] demoWinState demoStart 1
        (Robot.Blue, Direction.Up) =
      (VisitedNodes.overwrite [(demoWinState, BasicVisitedNode.new 2 demoStart
          (Robot.Red, Direction.Down))] demoWinState
          (BasicVisitedNode.new 1 demoStart (Robot.Blue, Direction.Up)),
        .WorseKnown) :=
  ⟨⟨by decide, by decide⟩,
    (C6_add_node_spec [(demoWinState, BasicVisitedNode.new 2 demoStart
      (Robot.Red, Direction.Down))] demoWinState demoStart 2
      (Robot.Blue, Direction.Up)).1
      (BasicVisitedNode.new 2 demoStart (Robot.Red, Direction.Down))
      (by decide) (by decide),
    (C6_add_node_spec [] demoWinState demoStart 2 (Robot.Red, Direction.Down)).2.1
      (by decide),
    ((C6_add_node_spec [(demoWinState, BasicVisitedNode.new 2 demoStart
      (Robot.Red, Direction.Down))] demoWinState demoStart 1
      (Robot.Blue, Direction.Up)).2.2
      (BasicVisitedNode.new 2 demoStart (Robot.Red, Direction.Down))
      (by decide) (by decide)).1⟩

/-- C8: a start state that already satisfies the win predicate makes each of
the three solvers return the empty path from the start to itself, before any
search work. -/
theorem C8_degenerate_solve (round : Round) (s : RobotPositions) (fuel : Nat)
    (h : round.target_reached s = true) :
    bfs_solve round s fuel = some (Path.new s s []) ∧
    a_star_solve round s fuel = some (Path.new s s []) ∧
    ida_star_solve round s fuel = some (Path.new s s []) := by
  refine ⟨?_, ?_, ?_⟩
  · unfold bfs_solve
    rw [if_pos h]
  · unfold a_star_solve
    rw [if_pos h]
    rfl
  · unfold ida_star_solve
    rw [if_pos h]
    rfl

/-- Closed instance of C8 on a concrete won round. -/
theorem C8_degenerate_solve_witness :
    demoWonRound.target_reached demoWinState = true ∧
    (bfs_solve demoWonRound demoWinState 5 =
        some (Path.new demoWinState demoWinState []) ∧
      a_star_solve demoWonRound demoWinState 5 =
        some (Path.new demoWinState demoWinState []) ∧
      ida_star_solve demoWonRound demoWinState 5 =
        some (Path.new demoWinState demoWinState [])) :=
  ⟨by decide, C8_degenerate_solve demoWonRound demoWinState 5 (by decide)⟩

/-- C3: in the successor loop of `AStar::solve`, a successor that satisfies
the win predicate and is not pruned by the visited table updates
`found_minimum` to its cost and `found_final_position` to itself, and is
never pushed onto the priority queue.  The hypothesis `prio.from_start + 1 <
st.found_minimum` is the invariant that holds at this program point in every
run (popped nodes satisfy `f < found_minimum` and are non-winning, so `g + 1
≤ f`); under it the code's guard — the heuristic value of the winning
successor, which is 0, below `found_minimum` — always fires, so the update
happens exactly when the new cost undercuts the best. -/
theorem C3_goal_successor_updates_best (round : Round) (st : AStarState)
    (from_pos : RobotPositions) (prio : MoveCounter) (pos : RobotPositions)
    (movement : Robot × Direction)
    (htp : round.target_position.InBounds round.board.side_length)
    (hwin : round.target_reached pos = true)
    (hcost : prio.from_start + 1 < st.found_minimum)
    (hknown : ∀ n, st.visited.get pos = some n →
      prio.from_start + 1 < n.moves_to_reach) :
    (aStarHandleSuccessor round (LeastMovesBoard.new round.board round.target_position)
        st from_pos prio pos movement).found_minimum = prio.from_start + 1 ∧
    (aStarHandleSuccessor round (LeastMovesBoard.new round.board round.target_position)
        st from_pos prio pos movement).found_final_position = pos ∧
    (aStarHandleSuccessor round (LeastMovesBoard.new round.board round.target_position)
        st from_pos prio pos movement).open_list = st.open_list := by
  have hzero : (LeastMovesBoard.new round.board round.target_position).min_moves pos
      round.target = 0 := min_moves_of_win htp hwin
  have hdisc : (st.visited.add_node pos from_pos (prio.from_start + 1) movement).2 =
      AddNodeOutcome.New ∨
      (st.visited.add_node pos from_pos (prio.from_start + 1) movement).2 =
        AddNodeOutcome.WorseKnown := by
    unfold VisitedNodes.add_node
    cases hget : st.visited.get pos with
    | none => simp
    | some n =>
      have hlt := hknown n hget
      right
      show (if n.moves_to_reach ≤ prio.from_start + 1 then
          (st.visited, AddNodeOutcome.BetterKnown)
        else (st.visited.overwrite pos
            (BasicVisitedNode.new (prio.from_start + 1) from_pos movement),
          AddNodeOutcome.WorseKnown)).2 = AddNodeOutcome.WorseKnown
      rw [if_neg (by omega)]
  have hdisc2 : (st.visited.add_node pos from_pos (prio.from_start + 1)
      movement).2.was_discarded = false := by
    rcases hdisc with h | h <;> rw [h] <;> rfl
  unfold aStarHandleSuccessor
  simp only [hdisc2, Bool.false_eq_true, if_false, hwin, if_true, hzero]
  rw [if_pos (show 0 < st.found_minimum by omega)]
  exact ⟨rfl, rfl, rfl⟩

/-- Closed instance of C3 on a concrete round and state. -/
theorem C3_goal_successor_updates_best_witness :
    (demoRound2.target_position.InBounds demoRound2.board.side_length ∧
      demoRound2.target_reached demoWinState2 = true ∧
      MoveCounter.from_start (MoveCounter.new 2 1) + 1 < 5) ∧
    ((aStarHandleSuccessor demoRound2
        (LeastMovesBoard.new demoRound2.board demoRound2.target_position)
        { visited := [], open_list := [], found_minimum := 5,
          found_final_position := demoStart }
        demoStart (MoveCounter.new 2 1) demoWinState2
        (Robot.Red, Direction.Right)).found_minimum =
      MoveCounter.from_start (MoveCounter.new 2 1) + 1 ∧
    (aStarHandleSuccessor demoRound2
        (LeastMovesBoard.new demoRound2.board demoRound2.target_position)
        { visited := [], open_list := [], found_minimum := 5,
          found_final_position := demoStart }
        demoStart (MoveCounter.new 2 1) demoWinState2
        (Robot.Red, Direction.Right)).found_final_position = demoWinState2 ∧
    (aStarHandleSuccessor demoRound2
        (LeastMovesBoard.new demoRound2.board demoRound2.target_position)
        { visited := [], open_list := [], found_minimum := 5,
          found_final_position := demoStart }
        demoStart (MoveCounter.new 2 1) demoWinState2
        (Robot.Red, Direction.Right)).open_list = []) :=
  ⟨⟨by decide, by decide, by decide⟩,
    C3_goal_successor_updates_best demoRound2
      { visited := [], open_list := [], found_minimum := 5,
        found_final_position := demoStart }
      demoStart (MoveCounter.new 2 1) demoWinState2 (Robot.Red, Direction.Right)
      (by decide) (by decide) (by decide)
      (by intro n h; simp [VisitedNodes.get] at h)⟩

/-- C5: the heuristic is admissible.  On an enclosed board with the target
cell and every robot in bounds, if replaying a sequence of `L` slides from
`s` satisfies the round's win predicate, then `min_moves(s, target) ≤ L`. -/
theorem C5_heuristic_admissible (b : Board) (t : Target) (tp : Position)
    (s : RobotPositions) (moves : List (Robot × Direction)) (henc : b.Enclosed)
    (htp : tp.InBounds b.side_length)
    (hin : ∀ r, (s.get r).InBounds b.side_length)
    (hwin : (Round.new b t tp).target_reached (applyMoves b s moves) = true) :
    (LeastMovesBoard.new b tp).min_moves s t ≤ moves.length :=
  (heuristic_le_moves b t tp htp moves s hin hwin).1

/-- Closed instance of C5: a one-move winning sequence bounds the heuristic
by 1. -/
theorem C5_heuristic_admissible_witness :
    (demo3Board.Enclosed ∧ (⟨0, 2⟩ : Position).InBounds demo3Board.side_length ∧
      (∀ r, (demoStart.get r).InBounds demo3Board.side_length) ∧
      (Round.new demo3Board (Target.Red Symbol.Circle) ⟨0, 2⟩).target_reached
        (applyMoves demo3Board demoStart [(Robot.Red, Direction.Down)]) = true) ∧
    (LeastMovesBoard.new demo3Board ⟨0, 2⟩).min_moves demoStart
      (Target.Red Symbol.Circle) ≤ 1 :=
  ⟨⟨by decide, by decide, by decide, by decide⟩,
    C5_heuristic_admissible demo3Board (Target.Red Symbol.Circle) ⟨0, 2⟩ demoStart
      [(Robot.Red, Direction.Down)] (by decide) (by decide) (by decide) (by decide)⟩

/-- Appending one movement to a replay performs one slide at the end. -/
theorem applyMoves_append_one (b : Board) (s : RobotPositions)
    (ms : List (Robot × Direction)) (m : Robot × Direction) :
    applyMoves b s (ms ++ [m]) =
      (applyMoves b s ms).move_in_direction b m.1 m.2 := by
  simp [applyMoves, List.foldl_append]

/-- Every robot-direction pair occurs in the successor enumeration's
product list. -/
theorem mem_robot_dir_pairs (m : Robot × Direction) :
    m ∈ ROBOTS.flatMap fun robot => DIRECTIONS.map fun direction =>
      (robot, direction) := by
  obtain ⟨r, d⟩ := m
  cases r <;> cases d <;> decide

/-- Membership in `reachable_positions` is exactly one proper move. -/
theorem mem_reachable_iff (b : Board) (s : RobotPositions)
    (pr : RobotPositions × (Robot × Direction)) :
    pr ∈ s.reachable_positions b ↔ StepTo b s pr.2 pr.1 := by
  obtain ⟨p, m⟩ := pr
  simp only [RobotPositions.reachable_positions, List.mem_filterMap]
  constructor
  · rintro ⟨rd, hrd, hf⟩
    have hf2 : (if s.move_in_direction b rd.1 rd.2 ≠ s then
        some (s.move_in_direction b rd.1 rd.2, rd) else none) = some (p, m) := hf
    by_cases hne : s.move_in_direction b rd.1 rd.2 = s
    · rw [if_neg (not_not_intro hne)] at hf2
      exact Option.noConfusion hf2
    · rw [if_pos hne] at hf2
      have h2 := Option.some.inj hf2
      have hp : s.move_in_direction b rd.1 rd.2 = p := congrArg Prod.fst h2
      have hm : rd = m := congrArg Prod.snd h2
      subst hm
      refine ⟨hp.symm, ?_⟩
      rw [hp] at hne
      exact hne
  · rintro ⟨hp, hne⟩
    refine ⟨m, mem_robot_dir_pairs m, ?_⟩
    show (if s.move_in_direction b m.1 m.2 ≠ s then
        some (s.move_in_direction b m.1 m.2, m) else none) = some (p, m)
    rw [← hp, if_pos hne]

/-- A proper `n`-step reach is witnessed by a replayable move list of
length `n`. -/
theorem reachIn_exists_moves {b : Board} {start : RobotPositions} {n : Nat}
    {s : RobotPositions} (h : ReachIn b start n s) :
    ∃ ms : List (Robot × Direction), applyMoves b start ms = s ∧
      ms.length = n := by
  induction h with
  | base => exact ⟨[], rfl, rfl⟩
  | @step n1 s1 m s2 h1 h2 ih =>
    obtain ⟨ms, hms, hlen⟩ := ih
    refine ⟨ms ++ [m], ?_, by simp [hlen]⟩
    rw [applyMoves_append_one, hms]
    exact h2.1.symm

/-- Every replay reaches its endpoint by at most its length many proper
moves (no-op movements contribute nothing). -/
theorem moves_exists_reachIn (b : Board) (start : RobotPositions) :
    ∀ ms : List (Robot × Direction), ∃ n, n ≤ ms.length ∧
      ReachIn b start n (applyMoves b start ms) := by
  intro ms
  induction ms using List.reverseRecOn with
  | nil => exact ⟨0, Nat.le_refl 0, ReachIn.base⟩
  | append_singleton ms m ih =>
    obtain ⟨n, hn, hr⟩ := ih
    by_cases he : (applyMoves b start ms).move_in_direction b m.1 m.2 =
        applyMoves b start ms
    · refine ⟨n, by simp; omega, ?_⟩
      rw [applyMoves_append_one, he]
      exact hr
    · refine ⟨n + 1, by simp; omega, ?_⟩
      rw [applyMoves_append_one]
      exact ReachIn.step hr ⟨rfl, he⟩

/-- Zero-step reachability pins the state to the start. -/
theorem reachIn_zero_inv {b : Board} {start s : RobotPositions}
    (h : ReachIn b start 0 s) : s = start := by
  cases h
  rfl

/-- Inversion of a positive-length reach. -/
theorem reachIn_succ_inv {b : Board} {start : RobotPositions} {n : Nat}
    {s : RobotPositions} (h : ReachIn b start (n + 1) s) :
    ∃ s1 m, ReachIn b start n s1 ∧ StepTo b s1 m s := by
  cases h with
  | step h1 h2 => exact ⟨_, _, h1, h2⟩

/-- Every record of a sound table is properly reachable, within its
recorded cost. -/
theorem table_sound {b : Board} {start : RobotPositions} {t : VisitedNodes}
    (hok : TableOK b start t) :
    ∀ (c : Nat) (s : RobotPositions) (n : BasicVisitedNode),
      t.get s = some n → n.moves_to_reach ≤ c →
      ∃ j, 1 ≤ j ∧ j ≤ n.moves_to_reach ∧ ReachIn b start j s := by
  intro c
  induction c with
  | zero =>
    intro s n h hle
    exact absurd hle (by have := (hok s n h).2.1; omega)
  | succ c ih =>
    intro s n h hle
    obtain ⟨hstep, hpos, hone, hchain⟩ := hok s n h
    by_cases h1 : n.moves_to_reach = 1
    · refine ⟨1, Nat.le_refl 1, by omega, ?_⟩
      have hps := hone h1
      rw [hps] at hstep
      exact ReachIn.step ReachIn.base hstep
    · obtain ⟨n2, hget2, hlt⟩ := hchain (by omega)
      obtain ⟨j, hj1, hj2, hr⟩ := ih n.previous_position n2 hget2 (by omega)
      exact ⟨j + 1, by omega, by omega, ReachIn.step hr hstep⟩

/-- The predecessor-following loop of `path_to`, run on a sound table from a
record of cost at most the fuel, produces a real replay from the start. -/
theorem pathLoop_spec {b : Board} {start : RobotPositions} {t : VisitedNodes}
    (hok : TableOK b start t) :
    ∀ (c : Nat) (s : RobotPositions) (n : BasicVisitedNode),
      t.get s = some n → n.moves_to_reach ≤ c →
      ∀ acc, ∃ ms, pathLoop t c s acc = some (start, ms ++ acc) ∧
        applyMoves b start ms = s ∧ 1 ≤ ms.length ∧
        ms.length ≤ n.moves_to_reach := by
  intro c
  induction c with
  | zero =>
    intro s n h hle
    exact absurd hle (by have := (hok s n h).2.1; omega)
  | succ c ih =>
    intro s n h hle acc
    obtain ⟨hstep, hpos, hone, hchain⟩ := hok s n h
    by_cases h1 : n.moves_to_reach = 1
    · refine ⟨[n.reached_with], ?_, ?_, by simp, by simp; omega⟩
      · simp only [pathLoop, h, if_pos h1]
        rw [hone h1]
        rfl
      · rw [hone h1] at hstep
        exact hstep.1.symm
    · obtain ⟨n2, hget2, hlt⟩ := hchain (by omega)
      obtain ⟨ms2, heq2, happ2, hl1, hl2⟩ :=
        ih n.previous_position n2 hget2 (by omega) (n.reached_with :: acc)
      refine ⟨ms2 ++ [n.reached_with], ?_, ?_, by simp, by simp; omega⟩
      · simp only [pathLoop, h, if_neg h1]
        rw [heq2, List.append_assoc]
        rfl
      · rw [applyMoves_append_one, happ2]
        exact hstep.1.symm

/-- `path_to` on a sound table reconstructs a real winning replay of length
at most the recorded cost. -/
theorem path_to_spec {b : Board} {start : RobotPositions} {t : VisitedNodes}
    (hok : TableOK b start t) {s : RobotPositions} {n : BasicVisitedNode}
    (h : t.get s = some n) {c : Nat} (hc : n.moves_to_reach ≤ c) :
    ∃ ms, t.path_to s c = some (Path.new start s ms) ∧
      applyMoves b start ms = s ∧ 1 ≤ ms.length ∧
      ms.length ≤ n.moves_to_reach := by
  obtain ⟨ms, heq, happ, h1, h2⟩ := pathLoop_spec hok c s n h hc []
  refine ⟨ms, ?_, happ, h1, h2⟩
  rw [VisitedNodes.path_to, heq]
  simp [Path.new]

/-- Lookup in a table extended by one binding. -/
theorem get_cons (k : RobotPositions) (v : BasicVisitedNode) (t : VisitedNodes)
    (s : RobotPositions) :
    VisitedNodes.get ((k, v) :: t) s = if k = s then some v else t.get s := rfl

/-- A successor already recorded at most as expensively is discarded by the
breadth-first evaluation. -/
theorem evalList_cons_better (round : Round) (ip : RobotPositions) (k : Nat)
    (t : VisitedNodes) (next : List RobotPositions) (p : RobotPositions)
    (m : Robot × Direction) (rest : List (RobotPositions × (Robot × Direction)))
    {occ : BasicVisitedNode} (hget : t.get p = some occ)
    (hle : occ.moves_to_reach ≤ k + 1) :
    evalList round ip k t next ((p, m) :: rest) =
      evalList round ip k t next rest := by
  have hadd : t.add_node p ip (k + 1) m = (t, AddNodeOutcome.BetterKnown) := by
    unfold VisitedNodes.add_node
    rw [hget]
    show (if occ.moves_to_reach ≤ k + 1 then (t, AddNodeOutcome.BetterKnown)
      else (t.overwrite p (BasicVisitedNode.new (k + 1) ip m),
        AddNodeOutcome.WorseKnown)) = (t, AddNodeOutcome.BetterKnown)
    rw [if_pos hle]
  simp [evalList, hadd, AddNodeOutcome.was_discarded, AddNodeOutcome.was_added]

/-- A fresh successor is recorded at cost `k + 1`, then either returned as
the winning state or pushed onto the next layer. -/
theorem evalList_cons_new (round : Round) (ip : RobotPositions) (k : Nat)
    (t : VisitedNodes) (next : List RobotPositions) (p : RobotPositions)
    (m : Robot × Direction) (rest : List (RobotPositions × (Robot × Direction)))
    (hget : t.get p = none) :
    evalList round ip k t next ((p, m) :: rest) =
      if round.target_reached p then
        ((p, BasicVisitedNode.new (k + 1) ip m) :: t, next, some p)
      else evalList round ip k ((p, BasicVisitedNode.new (k + 1) ip m) :: t)
        (next ++ [p]) rest := by
  have hadd : t.add_node p ip (k + 1) m =
      ((p, BasicVisitedNode.new (k + 1) ip m) :: t, AddNodeOutcome.New) := by
    unfold VisitedNodes.add_node
    rw [hget]
  simp [evalList, hadd, AddNodeOutcome.was_discarded, AddNodeOutcome.was_added]

/-- Processing a suffix of the successor list of one frontier cell preserves
the layer invariant; the run either completes the suffix, covering every
successor in the final table, or returns a winning state recorded at cost
`k + 1` in a sound table. -/
theorem evalList_spec (round : Round) (start : RobotPositions) (k : Nat)
    (t0 : VisitedNodes) (ip : RobotPositions)
    (hip : (k = 0 ∧ ip = start) ∨
      ∃ n0, t0.get ip = some n0 ∧ n0.moves_to_reach = k) :
    ∀ (l : List (RobotPositions × (Robot × Direction))) (t : VisitedNodes)
      (next : List RobotPositions),
      (∀ pm ∈ l, StepTo round.board ip pm.2 pm.1) →
      LayerInv round start k t0 t next →
      (∃ t2 n2, evalList round ip k t next l = (t2, n2, none) ∧
        LayerInv round start k t0 t2 n2 ∧
        (∀ s n, t.get s = some n → t2.get s = some n) ∧
        (∀ pm ∈ l, ∃ n, t2.get pm.1 = some n ∧ n.moves_to_reach ≤ k + 1)) ∨
      (∃ t2 n2 w, evalList round ip k t next l = (t2, n2, some w) ∧
        TableOK round.board start t2 ∧ round.target_reached w = true ∧
        ∃ n, t2.get w = some n ∧ n.moves_to_reach = k + 1) := by
  intro l
  induction l with
  | nil =>
    intro t next hstep hinv
    left
    exact ⟨t, next, rfl, hinv, fun s n h => h, by simp⟩
  | cons pm rest ih =>
    intro t next hstep hinv
    obtain ⟨p, m⟩ := pm
    obtain ⟨hok, hcle, hunw, hext0, hnext, hfront⟩ := hinv
    have hstep0 : StepTo round.board ip m p := hstep (p, m) (List.mem_cons_self _ _)
    cases hget : t.get p with
    | some occ =>
      rw [evalList_cons_better round ip k t next p m rest hget (hcle p occ hget)]
      rcases ih t next (fun q hq => hstep q (List.mem_cons_of_mem _ hq))
          ⟨hok, hcle, hunw, hext0, hnext, hfront⟩ with
        ⟨t2, n2, heq, hinv2, hpres, hrest⟩ | hsome
      · left
        refine ⟨t2, n2, heq, hinv2, hpres, ?_⟩
        intro q hq
        rcases List.mem_cons.mp hq with rfl | hq
        · exact ⟨occ, hpres p occ hget, hcle p occ hget⟩
        · exact hrest q hq
      · right
        exact hsome
    | none =>
      rw [evalList_cons_new round ip k t next p m rest hget]
      set nd := BasicVisitedNode.new (k + 1) ip m with hnd
      set t' : VisitedNodes := (p, nd) :: t with ht'
      have hndc : nd.moves_to_reach = k + 1 := rfl
      have hndp : nd.previous_position = ip := rfl
      have hget_self : t'.get p = some nd := by
        rw [ht', get_cons, if_pos rfl]
      have hpres : ∀ x n, t.get x = some n → t'.get x = some n := by
        intro x nx hx
        have hxp : ¬ p = x := by
          intro he
          rw [← he, hget] at hx
          exact Option.noConfusion hx
        rw [ht', get_cons, if_neg hxp]
        exact hx
      have hok' : TableOK round.board start t' := by
        intro s n hs
        rw [ht', get_cons] at hs
        by_cases hps : p = s
        · rw [if_pos hps] at hs
          obtain rfl := Option.some.inj hs
          subst hps
          refine ⟨hstep0, by omega, ?_, ?_⟩
          · intro h1
            rw [hndp]
            rcases hip with ⟨hk0, hips⟩ | ⟨n0, hn0, hc0⟩
            · exact hips
            · have hp1 := (hok ip n0 (hext0 ip n0 hn0)).2.1
              exact absurd h1 (by omega)
          · intro h2
            rcases hip with ⟨hk0, _⟩ | ⟨n0, hn0, hc0⟩
            · exact absurd h2 (by omega)
            · refine ⟨n0, ?_, ?_⟩
              · rw [hndp]
                exact hpres ip n0 (hext0 ip n0 hn0)
              · omega
        · rw [if_neg hps] at hs
          obtain ⟨h1, h2, h3, h4⟩ := hok s n hs
          refine ⟨h1, h2, h3, fun hh => ?_⟩
          obtain ⟨n2, hg2, hl2⟩ := h4 hh
          exact ⟨n2, hpres _ n2 hg2, hl2⟩
      by_cases hwinp : round.target_reached p = true
      · rw [if_pos hwinp]
        right
        exact ⟨t', next, p, rfl, hok', hwinp, nd, hget_self, hndc⟩
      · rw [if_neg hwinp]
        have hcle' : ∀ s n, t'.get s = some n → n.moves_to_reach ≤ k + 1 := by
          intro s n hs
          rw [ht', get_cons] at hs
          by_cases hps : p = s
          · rw [if_pos hps] at hs
            obtain rfl := Option.some.inj hs
            omega
          · rw [if_neg hps] at hs
            exact hcle s n hs
        have hunw' : ∀ s n, t'.get s = some n → round.target_reached s = false := by
          intro s n hs
          rw [ht', get_cons] at hs
          by_cases hps : p = s
          · rw [← hps]
            exact Bool.eq_false_iff.mpr hwinp
          · rw [if_neg hps] at hs
            exact hunw s n hs
        have hext0' : ∀ s n, t0.get s = some n → t'.get s = some n :=
          fun s n h => hpres s n (hext0 s n h)
        have hnext' : ∀ s, s ∈ next ++ [p] →
            ∃ n, t'.get s = some n ∧ n.moves_to_reach = k + 1 := by
          intro s hsmem
          rcases List.mem_append.mp hsmem with hh | hh
          · obtain ⟨n, hn, hc⟩ := hnext s hh
            exact ⟨n, hpres s n hn, hc⟩
          · rw [List.mem_singleton] at hh
            subst hh
            exact ⟨nd, hget_self, hndc⟩
        have hfront' : ∀ s n, t'.get s = some n → n.moves_to_reach = k + 1 →
            s ∈ next ++ [p] := by
          intro s n hs hc
          rw [ht', get_cons] at hs
          by_cases hps : p = s
          · rw [← hps]
            exact List.mem_append.mpr (Or.inr (List.mem_singleton.mpr rfl))
          · rw [if_neg hps] at hs
            exact List.mem_append.mpr (Or.inl (hfront s n hs hc))
        rcases ih t' (next ++ [p]) (fun q hq => hstep q (List.mem_cons_of_mem _ hq))
            ⟨hok', hcle', hunw', hext0', hnext', hfront'⟩ with
          ⟨t2, n2, heq, hinv2, hpres2, hrest⟩ | ⟨t2, n2, w, heq, hok2, hw2, hrec⟩
        · left
          refine ⟨t2, n2, heq, hinv2, fun s n h => hpres2 s n (hpres s n h), ?_⟩
          intro q hq
          rcases List.mem_cons.mp hq with rfl | hq
          · exact ⟨nd, hpres2 p nd hget_self, by omega⟩
          · exact hrest q hq
        · right
          exact ⟨t2, n2, w, heq, hok2, hw2, hrec⟩

/-- Processing a whole layer preserves the layer invariant and covers every
successor of every frontier cell, or returns a winning state recorded at
cost `k + 1` in a sound table. -/
theorem bfsLayer_spec (round : Round) (start : RobotPositions) (k : Nat)
    (t0 : VisitedNodes) :
    ∀ (cur : List RobotPositions) (t : VisitedNodes) (next : List RobotPositions),
      (∀ s ∈ cur, (k = 0 ∧ s = start) ∨
        ∃ n0, t0.get s = some n0 ∧ n0.moves_to_reach = k) →
      LayerInv round start k t0 t next →
      (∃ t2 n2, bfsLayer round k t next cur = (t2, n2, none) ∧
        LayerInv round start k t0 t2 n2 ∧
        (∀ s n, t.get s = some n → t2.get s = some n) ∧
        (∀ s, s ∈ cur → ∀ pm, pm ∈ s.reachable_positions round.board →
          ∃ n, t2.get pm.1 = some n ∧ n.moves_to_reach ≤ k + 1)) ∨
      (∃ t2 n2 w, bfsLayer round k t next cur = (t2, n2, some w) ∧
        TableOK round.board start t2 ∧ round.target_reached w = true ∧
        ∃ n, t2.get w = some n ∧ n.moves_to_reach = k + 1) := by
  intro cur
  induction cur with
  | nil =>
    intro t next hsrc hinv
    left
    exact ⟨t, next, rfl, hinv, fun s n h => h, by simp⟩
  | cons s0 rest ih =>
    intro t next hsrc hinv
    have hstep : ∀ pm ∈ s0.reachable_positions round.board,
        StepTo round.board s0 pm.2 pm.1 :=
      fun pm hpm => (mem_reachable_iff round.board s0 pm).mp hpm
    rcases evalList_spec round start k t0 s0 (hsrc s0 (List.mem_cons_self _ _))
        (s0.reachable_positions round.board) t next hstep hinv with
      ⟨t1, n1, heq1, hinv1, hpres1, hsucc1⟩ | ⟨t1, n1, w, heq1, hok1, hw1, hrec1⟩
    · have hred : bfsLayer round k t next (s0 :: rest) = bfsLayer round k t1 n1 rest := by
        simp only [bfsLayer, eval_robot_state]
        rw [heq1]
      rw [hred]
      rcases ih t1 n1 (fun s hs => hsrc s (List.mem_cons_of_mem _ hs)) hinv1 with
        ⟨t2, n2, heq2, hinv2, hpres2, hsucc2⟩ | hsome
      · left
        refine ⟨t2, n2, heq2, hinv2, fun s n h => hpres2 s n (hpres1 s n h), ?_⟩
        intro s hs pm hpm
        rcases List.mem_cons.mp hs with rfl | hs
        · obtain ⟨n, hn, hc⟩ := hsucc1 pm hpm
          exact ⟨n, hpres2 pm.1 n hn, hc⟩
        · exact hsucc2 s hs pm hpm
      · right
        exact hsome
    · right
      refine ⟨t1, n1, w, ?_, hok1, hw1, hrec1⟩
      simp only [bfsLayer, eval_robot_state]
      rw [heq1]

/-- The breadth-first layer loop, started in an invariant state below the
optimal depth `L` with enough fuel, returns a path that replays from the
start to a winning state in exactly `L` moves. -/
theorem bfsLoop_finds (round : Round) (start : RobotPositions)
    (L : Nat) (w : RobotPositions)
    (hw : ReachIn round.board start L w)
    (hwin : round.target_reached w = true)
    (hmin : ∀ ms : List (Robot × Direction),
      round.target_reached (applyMoves round.board start ms) = true →
      L ≤ ms.length) :
    ∀ (f k : Nat) (t : VisitedNodes) (cur : List RobotPositions),
      BfsInv round start k t cur → k < L → L ≤ k + f →
      ∃ p : Path, bfsLoop round f k t cur = some p ∧
        p.start_pos = start ∧ applyMoves round.board start p.movements = p.end_pos ∧
        round.target_reached p.end_pos = true ∧ p.movements.length = L := by
  intro f
  induction f with
  | zero =>
    intro k t cur _ hkL hLf
    exact absurd hLf (by omega)
  | succ f ihf =>
    intro k t cur hbfs hkL hLf
    obtain ⟨hok, hcle, hunw, hcur, hfrontk, hk0, hA7, hns⟩ := hbfs
    have hinv0 : LayerInv round start k t t [] := by
      refine ⟨hok, fun s n h => Nat.le_succ_of_le (hcle s n h), hunw,
        fun s n h => h, by simp, ?_⟩
      intro s n h hc
      exact absurd hc (by have := hcle s n h; omega)
    rcases bfsLayer_spec round start k t cur t [] hcur hinv0 with
      ⟨t2, n2, heq, hinv2, hext, hsucc⟩ |
      ⟨t2, n2, w2, heq, hok2, hwin2, nw, hget2, hcost2⟩
    · obtain ⟨hok2, hcle2, hunw2, hext0, hnext2, hfront2⟩ := hinv2
      have hA7' : ∀ j, j ≤ k + 1 → ∀ s, ReachIn round.board start j s →
          s = start ∨ ∃ n, t2.get s = some n ∧ n.moves_to_reach ≤ j := by
        intro j hj s hr
        by_cases hjk : j ≤ k
        · rcases hA7 j hjk s hr with h | ⟨n, hn, hc⟩
          · exact Or.inl h
          · exact Or.inr ⟨n, hext s n hn, hc⟩
        · have hj1 : j = k + 1 := by omega
          subst hj1
          obtain ⟨s1, m, h1, h2⟩ := reachIn_succ_inv hr
          rcases hA7 k (Nat.le_refl k) s1 h1 with hs1 | ⟨nn, hnn, hcc⟩
          · subst hs1
            rcases Nat.eq_zero_or_pos k with hk | hk
            · subst hk
              have hcur0 : cur = [s1] := hk0 rfl
              obtain ⟨nres, hgetr, hc⟩ := hsucc s1
                (by rw [hcur0]; exact List.mem_singleton.mpr rfl) (s, m)
                ((mem_reachable_iff _ _ _).mpr h2)
              exact Or.inr ⟨nres, hgetr, hc⟩
            · have hr1 : ReachIn round.board s1 1 s := ReachIn.step ReachIn.base h2
              rcases hA7 1 hk s hr1 with h | ⟨nres, hgetr, hc⟩
              · exact Or.inl h
              · exact Or.inr ⟨nres, hext s nres hgetr, by omega⟩
          · by_cases hck : nn.moves_to_reach = k
            · have hs1cur : s1 ∈ cur := hfrontk s1 nn hnn hck
              obtain ⟨nres, hgetr, hc⟩ := hsucc s1 hs1cur (s, m)
                ((mem_reachable_iff _ _ _).mpr h2)
              exact Or.inr ⟨nres, hgetr, hc⟩
            · obtain ⟨j1, hj1a, hj1b, hrj⟩ := table_sound hok k s1 nn hnn hcc
              have hrs : ReachIn round.board start (j1 + 1) s := ReachIn.step hrj h2
              rcases hA7 (j1 + 1) (by omega) s hrs with h | ⟨nres, hgetr, hc⟩
              · exact Or.inl h
              · exact Or.inr ⟨nres, hext s nres hgetr, by omega⟩
      have hkL' : k + 1 < L := by
        rcases Nat.lt_or_ge (k + 1) L with h | h
        · exact h
        · exfalso
          rcases hA7' L (by omega) w hw with hws | ⟨n, hn, _⟩
          · rw [hws] at hwin
            rw [hns] at hwin
            exact Bool.noConfusion hwin
          · have hbad := hunw2 w n hn
            rw [hwin] at hbad
            exact Bool.noConfusion hbad
      have hbfs' : BfsInv round start (k + 1) t2 n2 := by
        refine ⟨hok2, hcle2, hunw2, fun s hs => Or.inr (hnext2 s hs), hfront2,
          ?_, hA7', hns⟩
        intro h
        exact absurd h (by omega)
      obtain ⟨p, hp, h1, h2, h3, h4⟩ := ihf (k + 1) t2 n2 hbfs' hkL' (by omega)
      refine ⟨p, ?_, h1, h2, h3, h4⟩
      show bfsLoop round (f + 1) k t cur = some p
      simp only [bfsLoop]
      rw [heq]
      exact hp
    · obtain ⟨ms, hpath, happ, hl1, hl2⟩ :=
        path_to_spec hok2 hget2 (Nat.le_of_eq hcost2)
      have hLle : L ≤ ms.length := by
        apply hmin
        rw [happ]
        exact hwin2
      have hlen : ms.length = L := by omega
      refine ⟨Path.new start w2 ms, ?_, rfl, happ, hwin2, hlen⟩
      show bfsLoop round (f + 1) k t cur = some (Path.new start w2 ms)
      simp only [bfsLoop]
      rw [heq]
      exact hpath

/-- The breadth-first solver, run with fuel equal to the optimal number of
moves, returns a path that replays from the start to a winning state and
has exactly that optimal length. -/
theorem bfs_solve_optimal (round : Round) (start : RobotPositions)
    (moves : List (Robot × Direction))
    (hwin : round.target_reached (applyMoves round.board start moves) = true)
    (hopt : ∀ ms : List (Robot × Direction),
      round.target_reached (applyMoves round.board start ms) = true →
      moves.length ≤ ms.length) :
    ∃ p : Path, bfs_solve round start moves.length = some p ∧
      p.start_pos = start ∧ applyMoves round.board start p.movements = p.end_pos ∧
      round.target_reached p.end_pos = true ∧
      p.movements.length = moves.length := by
  by_cases hs : round.target_reached start = true
  · have h0 : moves.length = 0 := Nat.le_zero.mp (hopt [] hs)
    refine ⟨Path.new start start [], ?_, rfl, rfl, hs, h0.symm⟩
    show bfs_solve round start moves.length = some (Path.new start start [])
    rw [bfs_solve, if_pos hs]
  · have hns : round.target_reached start = false := Bool.eq_false_iff.mpr hs
    obtain ⟨n, hn, hr⟩ := moves_exists_reachIn round.board start moves
    have hnL : n = moves.length := by
      obtain ⟨ms, hms, hlen⟩ := reachIn_exists_moves hr
      have := hopt ms (by rw [hms]; exact hwin)
      omega
    rw [hnL] at hr
    have hL1 : 1 ≤ moves.length := by
      by_contra h
      have h0 : moves.length = 0 := by omega
      rw [h0] at hr
      have hws := reachIn_zero_inv hr
      rw [hws] at hwin
      exact hs hwin
    have hbase : BfsInv round start 0 [] [start] := by
      refine ⟨?_, ?_, ?_, ?_, ?_, ?_, ?_, hns⟩
      · intro s n h
        exact Option.noConfusion h
      · intro s n h
        exact Option.noConfusion h
      · intro s n h
        exact Option.noConfusion h
      · intro s hsm
        rw [List.mem_singleton] at hsm
        exact Or.inl ⟨rfl, hsm⟩
      · intro s n h
        exact Option.noConfusion h
      · intro _
        rfl
      · intro j hj s hrj
        have hj0 : j = 0 := by omega
        subst hj0
        exact Or.inl (reachIn_zero_inv hrj)
    obtain ⟨p, hp, h1, h2, h3, h4⟩ := bfsLoop_finds round start moves.length
      (applyMoves round.board start moves) hr hwin hopt moves.length 0 [] [start]
      hbase (by omega) (by omega)
    refine ⟨p, ?_, h1, h2, h3, h4⟩
    rw [bfs_solve, if_neg hs]
    exact hp

/-- Splitting a replay at any point composes through the simulator. -/
theorem applyMoves_append (b : Board) (s : RobotPositions)
    (l1 l2 : List (Robot × Direction)) :
    applyMoves b s (l1 ++ l2) = applyMoves b (applyMoves b s l1) l2 := by
  simp [applyMoves, List.foldl_append]

/-- Peeling the first movement off a replay. -/
theorem applyMoves_cons (b : Board) (s : RobotPositions)
    (m : Robot × Direction) (ms : List (Robot × Direction)) :
    applyMoves b s (m :: ms) =
      applyMoves b (s.move_in_direction b m.1 m.2) ms := rfl

/-- Replaying any movement list keeps every robot in bounds. -/
theorem applyMoves_preserves_inBounds {b : Board} :
    ∀ (ms : List (Robot × Direction)) (s : RobotPositions),
      (∀ rb, (s.get rb).InBounds b.side_length) →
      ∀ rb, ((applyMoves b s ms).get rb).InBounds b.side_length := by
  intro ms
  induction ms with
  | nil => exact fun s h => h
  | cons m rest ih =>
    intro s h
    rw [applyMoves_cons]
    exact ih _ (move_preserves_inBounds h m.1 m.2)

/-- Overwriting one key leaves every other lookup unchanged. -/
theorem overwrite_get_other {t : VisitedNodes} {pos x : RobotPositions}
    (hne : x ≠ pos) (nd : BasicVisitedNode) :
    (t.overwrite pos nd).get x = t.get x := by
  induction t with
  | nil => rfl
  | cons kv rest ih =>
    obtain ⟨k, v⟩ := kv
    simp only [VisitedNodes.overwrite]
    by_cases hk : k = pos
    · have hkx : ¬ k = x := fun he => hne (he ▸ hk)
      rw [if_pos hk, get_cons, get_cons, if_neg hkx, if_neg hkx]
    · rw [if_neg hk, get_cons, get_cons]
      by_cases hkx : k = x
      · rw [if_pos hkx, if_pos hkx]
      · rw [if_neg hkx, if_neg hkx]
        exact ih

/-- The worse-known arm of `add_node`: a strictly cheaper rediscovery
overwrites the record in place. -/
theorem add_node_worse_eq {t : VisitedNodes} {p : RobotPositions}
    {occ : BasicVisitedNode} (hget : t.get p = some occ) (fp : RobotPositions)
    {c : Nat} (hgt : c < occ.moves_to_reach) (m : Robot × Direction) :
    t.add_node p fp c m =
      (t.overwrite p (BasicVisitedNode.new c fp m), AddNodeOutcome.WorseKnown) := by
  unfold VisitedNodes.add_node
  rw [hget]
  show (if occ.moves_to_reach ≤ c then (t, AddNodeOutcome.BetterKnown)
    else (t.overwrite p (BasicVisitedNode.new c fp m), AddNodeOutcome.WorseKnown)) =
    (t.overwrite p (BasicVisitedNode.new c fp m), AddNodeOutcome.WorseKnown)
  rw [if_neg (by omega)]

/-- The better-known arm of `add_node`: the table is untouched. -/
theorem add_node_better_eq {t : VisitedNodes} {p : RobotPositions}
    {occ : BasicVisitedNode} (hget : t.get p = some occ) (fp : RobotPositions)
    {c : Nat} (hle : occ.moves_to_reach ≤ c) (m : Robot × Direction) :
    t.add_node p fp c m = (t, AddNodeOutcome.BetterKnown) := by
  unfold VisitedNodes.add_node
  rw [hget]
  show (if occ.moves_to_reach ≤ c then (t, AddNodeOutcome.BetterKnown)
    else (t.overwrite p (BasicVisitedNode.new c fp m), AddNodeOutcome.WorseKnown)) =
    (t, AddNodeOutcome.BetterKnown)
  rw [if_pos hle]

/-- The new arm of `add_node`: the record is prepended. -/
theorem add_node_new_eq {t : VisitedNodes} {p : RobotPositions}
    (hget : t.get p = none) (fp : RobotPositions) (c : Nat)
    (m : Robot × Direction) :
    t.add_node p fp c m =
      ((p, BasicVisitedNode.new c fp m) :: t, AddNodeOutcome.New) := by
  unfold VisitedNodes.add_node
  rw [hget]

/-- A successful lookup exposes a member of the association list. -/
theorem get_mem {t : VisitedNodes} {x : RobotPositions} {n : BasicVisitedNode}
    (h : t.get x = some n) : (x, n) ∈ t := by
  induction t with
  | nil => exact Option.noConfusion h
  | cons kv rest ih =>
    obtain ⟨k, v⟩ := kv
    rw [get_cons] at h
    by_cases hk : k = x
    · rw [if_pos hk] at h
      obtain rfl := Option.some.inj h
      subst hk
      exact List.mem_cons_self _ _
    · rw [if_neg hk] at h
      exact List.mem_cons_of_mem _ (ih h)

/-- Counting with a strictly weaker predicate over a list containing a
separating witness is strictly smaller. -/
theorem countP_lt_of_witness {α : Type} (p q : α → Bool) (l : List α)
    (himp : ∀ a, p a = true → q a = true) {a : α} (ha : a ∈ l)
    (hqa : q a = true) (hpa : p a = false) :
    l.countP p < l.countP q := by
  induction l with
  | nil => cases ha
  | cons x xs ih =>
    have hmono : xs.countP p ≤ xs.countP q :=
      List.countP_mono_left (fun a _ hp => himp a hp)
    rw [List.countP_cons, List.countP_cons]
    rcases List.mem_cons.mp ha with rfl | hmem
    · rw [hqa, hpa]
      show xs.countP p + 0 < xs.countP q + 1
      omega
    · have hlt := ih hmem
      have h1 : (if p x = true then 1 else 0) ≤ (if q x = true then 1 else 0) := by
        by_cases hpx : p x = true
        · rw [if_pos hpx, if_pos (himp x hpx)]
        · rw [if_neg hpx]
          exact Nat.zero_le _
      omega

/-- The predecessor-following loop succeeds whenever the fuel exceeds the
number of records strictly cheaper than the starting record; the chain
visits strictly cheaper records at every step, so this count bounds its
length. -/
theorem pathLoop_len_spec {b : Board} {start : RobotPositions} {t : VisitedNodes}
    (hok : TableOK b start t) :
    ∀ (fuel : Nat) (s : RobotPositions) (n : BasicVisitedNode),
      t.get s = some n →
      t.countP (fun kv => decide (kv.2.moves_to_reach < n.moves_to_reach)) < fuel →
      ∀ acc, ∃ ms, pathLoop t fuel s acc = some (start, ms ++ acc) ∧
        applyMoves b start ms = s ∧ 1 ≤ ms.length ∧
        ms.length ≤ n.moves_to_reach := by
  intro fuel
  induction fuel with
  | zero =>
    intro s n h hcnt
    exact absurd hcnt (Nat.not_lt_zero _)
  | succ f ih =>
    intro s n h hcnt acc
    obtain ⟨hstep, hpos, hone, hchain⟩ := hok s n h
    by_cases h1 : n.moves_to_reach = 1
    · refine ⟨[n.reached_with], ?_, ?_, by simp, by simp; omega⟩
      · simp only [pathLoop, h, if_pos h1]
        rw [hone h1]
        rfl
      · rw [hone h1] at hstep
        exact hstep.1.symm
    · obtain ⟨n2, hget2, hlt⟩ := hchain (by omega)
      have hwit : (n.previous_position, n2) ∈ t := get_mem hget2
      have hstrict : t.countP (fun kv => decide (kv.2.moves_to_reach < n2.moves_to_reach)) <
          t.countP (fun kv => decide (kv.2.moves_to_reach < n.moves_to_reach)) := by
        refine countP_lt_of_witness _ _ t ?_ hwit ?_ ?_
        · intro a hp
          rw [decide_eq_true_eq] at hp
          rw [decide_eq_true_eq]
          omega
        · rw [decide_eq_true_eq]
          exact hlt
        · rw [decide_eq_false_iff_not]
          show ¬ n2.moves_to_reach < n2.moves_to_reach
          omega
      obtain ⟨ms2, heq2, happ2, hl1, hl2⟩ :=
        ih n.previous_position n2 hget2 (by omega) (n.reached_with :: acc)
      refine ⟨ms2 ++ [n.reached_with], ?_, ?_, by simp, by simp; omega⟩
      · simp only [pathLoop, h, if_neg h1]
        rw [heq2, List.append_assoc]
        rfl
      · rw [applyMoves_append_one, happ2]
        exact hstep.1.symm

/-- `path_to` with the fuel used by the A* and IDA* call sites (one more
than the table length) always reconstructs a real replay on sound tables. -/
theorem path_to_len_spec {b : Board} {start : RobotPositions} {t : VisitedNodes}
    (hok : TableOK b start t) {s : RobotPositions} {n : BasicVisitedNode}
    (h : t.get s = some n) :
    ∃ ms, t.path_to s (t.length + 1) = some (Path.new start s ms) ∧
      applyMoves b start ms = s ∧ 1 ≤ ms.length ∧
      ms.length ≤ n.moves_to_reach := by
  have hcnt : t.countP (fun kv => decide (kv.2.moves_to_reach < n.moves_to_reach)) <
      t.length + 1 :=
    Nat.lt_succ_of_le (List.countP_le_length _)
  obtain ⟨ms, heq, happ, h1, h2⟩ := pathLoop_len_spec hok (t.length + 1) s n h hcnt []
  refine ⟨ms, ?_, happ, h1, h2⟩
  rw [VisitedNodes.path_to, heq]
  simp [Path.new]

/-- The depth-limited DFS at a positive bound is the fold of its successor
step over the enumeration. -/
theorem dfs_succ_eq (round : Round) (mb : LeastMovesBoard) (d : Nat)
    (v : VisitedNodes) (s : RobotPositions) (a : Nat) :
    depth_limited_dfs round mb (d + 1) v s a =
      (s.reachable_positions round.board).foldl (dfsStep round mb s a d)
        (v, none) := rfl

/-- Once a winning state is in the accumulator the successor fold is inert. -/
theorem dfs_foldl_some (round : Round) (mb : LeastMovesBoard)
    (s : RobotPositions) (a d : Nat) (w : RobotPositions) :
    ∀ (l : List (RobotPositions × (Robot × Direction))) (va : VisitedNodes),
      l.foldl (dfsStep round mb s a d) (va, some w) = (va, some w) := by
  intro l
  induction l with
  | nil => intro va; rfl
  | cons pm rest ih =>
    intro va
    rw [List.foldl_cons]
    have h : dfsStep round mb s a d (va, some w) pm = (va, some w) := rfl
    rw [h]
    exact ih va

/-- A heuristically pruned successor leaves the fold state unchanged. -/
theorem dfsStep_none_prune {round : Round} {mb : LeastMovesBoard}
    {s : RobotPositions} {a d : Nat} {v1 : VisitedNodes}
    {pm : RobotPositions × (Robot × Direction)}
    (h : d < mb.min_moves pm.1 round.target) :
    dfsStep round mb s a d (v1, none) pm = (v1, none) := by
  show (if d < mb.min_moves pm.1 round.target then ((v1 : VisitedNodes), (none : Option RobotPositions))
    else
      let added := VisitedNodes.add_node v1 pm.1 s (a + 1) pm.2
      if added.2.was_discarded then (added.1, none)
      else depth_limited_dfs round mb d added.1 pm.1 (a + 1)) = (v1, none)
  rw [if_pos h]

/-- A successor already recorded at most as expensively is discarded and
leaves the fold state unchanged. -/
theorem dfsStep_none_better {round : Round} {mb : LeastMovesBoard}
    {s : RobotPositions} {a d : Nat} {v1 : VisitedNodes}
    {pm : RobotPositions × (Robot × Direction)}
    (hpr : ¬ d < mb.min_moves pm.1 round.target)
    {occ : BasicVisitedNode} (hget : v1.get pm.1 = some occ)
    (hle : occ.moves_to_reach ≤ a + 1) :
    dfsStep round mb s a d (v1, none) pm = (v1, none) := by
  show (if d < mb.min_moves pm.1 round.target then ((v1 : VisitedNodes), (none : Option RobotPositions))
    else
      let added := VisitedNodes.add_node v1 pm.1 s (a + 1) pm.2
      if added.2.was_discarded then (added.1, none)
      else depth_limited_dfs round mb d added.1 pm.1 (a + 1)) = (v1, none)
  rw [if_neg hpr]
  rw [add_node_better_eq hget s hle pm.2]
  rfl

/-- A fresh successor is recorded and explored recursively. -/
theorem dfsStep_none_new {round : Round} {mb : LeastMovesBoard}
    {s : RobotPositions} {a d : Nat} {v1 : VisitedNodes}
    {pm : RobotPositions × (Robot × Direction)}
    (hpr : ¬ d < mb.min_moves pm.1 round.target)
    (hget : v1.get pm.1 = none) :
    dfsStep round mb s a d (v1, none) pm =
      depth_limited_dfs round mb d
        ((pm.1, BasicVisitedNode.new (a + 1) s pm.2) :: v1) pm.1 (a + 1) := by
  show (if d < mb.min_moves pm.1 round.target then ((v1 : VisitedNodes), (none : Option RobotPositions))
    else
      let added := VisitedNodes.add_node v1 pm.1 s (a + 1) pm.2
      if added.2.was_discarded then (added.1, none)
      else depth_limited_dfs round mb d added.1 pm.1 (a + 1)) = _
  rw [if_neg hpr]
  rw [add_node_new_eq hget s (a + 1) pm.2]
  rfl

/-- A strictly cheaper rediscovery overwrites the record and is explored
recursively. -/
theorem dfsStep_none_worse {round : Round} {mb : LeastMovesBoard}
    {s : RobotPositions} {a d : Nat} {v1 : VisitedNodes}
    {pm : RobotPositions × (Robot × Direction)}
    (hpr : ¬ d < mb.min_moves pm.1 round.target)
    {occ : BasicVisitedNode} (hget : v1.get pm.1 = some occ)
    (hgt : a + 1 < occ.moves_to_reach) :
    dfsStep round mb s a d (v1, none) pm =
      depth_limited_dfs round mb d
        (v1.overwrite pm.1 (BasicVisitedNode.new (a + 1) s pm.2)) pm.1 (a + 1) := by
  show (if d < mb.min_moves pm.1 round.target then ((v1 : VisitedNodes), (none : Option RobotPositions))
    else
      let added := VisitedNodes.add_node v1 pm.1 s (a + 1) pm.2
      if added.2.was_discarded then (added.1, none)
      else depth_limited_dfs round mb d added.1 pm.1 (a + 1)) = _
  rw [if_neg hpr]
  rw [add_node_worse_eq hget s hgt pm.2]
  rfl

/-- Soundness of the depth-limited DFS: a winning result is a real winning
state reached from the call's root by exactly the depth bound. -/
theorem dfs_some_sound (round : Round) (mb : LeastMovesBoard) :
    ∀ (r : Nat) (v : VisitedNodes) (s : RobotPositions) (a : Nat)
      (v2 : VisitedNodes) (w : RobotPositions),
      depth_limited_dfs round mb r v s a = (v2, some w) →
      round.target_reached w = true ∧
      ∃ ms, applyMoves round.board s ms = w ∧ ms.length = r := by
  intro r
  induction r with
  | zero =>
    intro v s a v2 w h
    by_cases hw : round.target_reached s = true
    · have he : depth_limited_dfs round mb 0 v s a = (v, some s) := by
        show (v, if round.target_reached s then some s else none) = (v, some s)
        rw [if_pos hw]
      rw [he] at h
      obtain rfl : s = w := Option.some.inj (congrArg Prod.snd h)
      exact ⟨hw, [], rfl, rfl⟩
    · have he : depth_limited_dfs round mb 0 v s a = (v, none) := by
        show (v, if round.target_reached s then some s else none) = (v, none)
        rw [if_neg hw]
      rw [he] at h
      exact Option.noConfusion (congrArg Prod.snd h)
  | succ d ih =>
    intro v s a v2 w h
    rw [dfs_succ_eq] at h
    have hfold : ∀ (l : List (RobotPositions × (Robot × Direction))) (v1 : VisitedNodes),
        (∀ pm ∈ l, StepTo round.board s pm.2 pm.1) →
        l.foldl (dfsStep round mb s a d) (v1, none) = (v2, some w) →
        round.target_reached w = true ∧
        ∃ ms, applyMoves round.board s ms = w ∧ ms.length = d + 1 := by
      intro l
      induction l with
      | nil =>
        intro v1 _ hf
        exact Option.noConfusion (congrArg Prod.snd hf)
      | cons pm rest ihl =>
        intro v1 hstep hf
        rw [List.foldl_cons] at hf
        have hnext : ∀ q ∈ rest, StepTo round.board s q.2 q.1 :=
          fun q hq => hstep q (List.mem_cons_of_mem _ hq)
        by_cases hpr : d < mb.min_moves pm.1 round.target
        · rw [dfsStep_none_prune hpr] at hf
          exact ihl v1 hnext hf
        · have hchild : ∀ (vc : VisitedNodes),
              depth_limited_dfs round mb d vc pm.1 (a + 1) = (v2, some w) →
              round.target_reached w = true ∧
              ∃ ms, applyMoves round.board s ms = w ∧ ms.length = d + 1 := by
            intro vc hc
            obtain ⟨hwin1, ms, hms, hlen⟩ := ih vc pm.1 (a + 1) v2 w hc
            refine ⟨hwin1, pm.2 :: ms, ?_, by simp [hlen]⟩
            rw [applyMoves_cons]
            have hpm := hstep pm (List.mem_cons_self _ _)
            rw [← hpm.1]
            exact hms
          cases hget : v1.get pm.1 with
          | some occ =>
            by_cases hle : occ.moves_to_reach ≤ a + 1
            · rw [dfsStep_none_better hpr hget hle] at hf
              exact ihl v1 hnext hf
            · rw [dfsStep_none_worse hpr hget (by omega)] at hf
              rcases hc : depth_limited_dfs round mb d
                  (v1.overwrite pm.1 (BasicVisitedNode.new (a + 1) s pm.2)) pm.1
                  (a + 1) with ⟨cv, co⟩
              rw [hc] at hf
              cases co with
              | some w1 =>
                rw [dfs_foldl_some round mb s a d w1 rest cv] at hf
                obtain rfl : cv = v2 := congrArg Prod.fst hf
                obtain rfl : w1 = w := Option.some.inj (congrArg Prod.snd hf)
                exact hchild _ hc
              | none =>
                exact ihl cv hnext hf
          | none =>
            rw [dfsStep_none_new hpr hget] at hf
            rcases hc : depth_limited_dfs round mb d
                ((pm.1, BasicVisitedNode.new (a + 1) s pm.2) :: v1) pm.1
                (a + 1) with ⟨cv, co⟩
            rw [hc] at hf
            cases co with
            | some w1 =>
              rw [dfs_foldl_some round mb s a d w1 rest cv] at hf
              obtain rfl : cv = v2 := congrArg Prod.fst hf
              obtain rfl : w1 = w := Option.some.inj (congrArg Prod.snd hf)
              exact hchild _ hc
            | none =>
              exact ihl cv hnext hf
    exact hfold (s.reachable_positions round.board) v
      (fun pm hpm => (mem_reachable_iff round.board s pm).mp hpm) h

/-- Prepending a fresh, correctly chained record keeps a table sound. -/
theorem tableOK_add_new {b : Board} {start : RobotPositions} {v : VisitedNodes}
    (hok : TableOK b start v) {p s : RobotPositions} {m : Robot × Direction}
    {c : Nat} (hget : v.get p = none) (hstep : StepTo b s m p) (hc : 1 ≤ c)
    (hone : c = 1 → s = start)
    (hchain : 2 ≤ c → ∃ ns, v.get s = some ns ∧ ns.moves_to_reach < c) :
    TableOK b start ((p, BasicVisitedNode.new c s m) :: v) := by
  intro x n hx
  rw [get_cons] at hx
  by_cases hpx : p = x
  · rw [if_pos hpx] at hx
    obtain rfl := Option.some.inj hx
    subst hpx
    refine ⟨hstep, hc, hone, ?_⟩
    intro h2
    obtain ⟨ns, hs, hlt⟩ := hchain h2
    have hsp : ¬ p = s := by
      intro he
      rw [← he, hget] at hs
      exact Option.noConfusion hs
    refine ⟨ns, ?_, hlt⟩
    show VisitedNodes.get ((p, BasicVisitedNode.new c s m) :: v) s = some ns
    rw [get_cons, if_neg hsp]
    exact hs
  · rw [if_neg hpx] at hx
    obtain ⟨h1, h2, h3, h4⟩ := hok x n hx
    refine ⟨h1, h2, h3, fun hh => ?_⟩
    obtain ⟨n2, hg2, hl2⟩ := h4 hh
    have hne : ¬ p = n.previous_position := by
      intro he
      rw [← he, hget] at hg2
      exact Option.noConfusion hg2
    refine ⟨n2, ?_, hl2⟩
    show VisitedNodes.get ((p, BasicVisitedNode.new c s m) :: v)
      n.previous_position = some n2
    rw [get_cons, if_neg hne]
    exact hg2

/-- Overwriting a record with a strictly cheaper, correctly chained record
keeps a table sound: chains through the overwritten record get shorter. -/
theorem tableOK_overwrite_lower {b : Board} {start : RobotPositions}
    {v : VisitedNodes} (hok : TableOK b start v) {p s : RobotPositions}
    {m : Robot × Direction} {c : Nat} {occ : BasicVisitedNode}
    (hget : v.get p = some occ) (hlt : c < occ.moves_to_reach)
    (hstep : StepTo b s m p) (hc : 1 ≤ c) (hone : c = 1 → s = start)
    (hchain : 2 ≤ c → ∃ ns, v.get s = some ns ∧ ns.moves_to_reach < c) :
    TableOK b start (v.overwrite p (BasicVisitedNode.new c s m)) := by
  intro x n hx
  by_cases hxp : x = p
  · subst hxp
    rw [overwrite_get hget _] at hx
    obtain rfl := Option.some.inj hx
    refine ⟨hstep, hc, hone, fun h2 => ?_⟩
    obtain ⟨ns, hs, hl⟩ := hchain h2
    have hsp : s ≠ x := fun he => hstep.2 he.symm
    refine ⟨ns, ?_, hl⟩
    show (v.overwrite x (BasicVisitedNode.new c s m)).get s = some ns
    rw [overwrite_get_other hsp _]
    exact hs
  · rw [overwrite_get_other hxp _] at hx
    obtain ⟨h1, h2, h3, h4⟩ := hok x n hx
    refine ⟨h1, h2, h3, fun hh => ?_⟩
    obtain ⟨n2, hg2, hl2⟩ := h4 hh
    by_cases hprev : n.previous_position = p
    · rw [hprev, hget] at hg2
      obtain rfl := Option.some.inj hg2
      refine ⟨BasicVisitedNode.new c s m, ?_, ?_⟩
      · rw [hprev]
        exact overwrite_get hget _
      · show c < n.moves_to_reach
        omega
    · refine ⟨n2, ?_, hl2⟩
      rw [overwrite_get_other hprev _]
      exact hg2

/-- A fresh record at stack depth `j + 1` keeps the DFS table invariant at
the deeper stack level. -/
theorem idaInv_cons {round : Round} {start : RobotPositions} {L j : Nat}
    {v : VisitedNodes} (hinv : IdaInv round start L j v)
    {p : RobotPositions} {nd : BasicVisitedNode}
    (hreach : ∃ ms, applyMoves round.board start ms = p ∧
      ms.length = nd.moves_to_reach)
    (hcost : nd.moves_to_reach = j + 1) :
    IdaInv round start L (j + 1) ((p, nd) :: v) := by
  intro x n hx
  rw [get_cons] at hx
  by_cases hpx : p = x
  · rw [if_pos hpx] at hx
    obtain rfl := Option.some.inj hx
    subst hpx
    exact ⟨hreach, fun hgt => absurd hgt (by omega)⟩
  · rw [if_neg hpx] at hx
    obtain ⟨h1, h2⟩ := hinv x n hx
    exact ⟨h1, fun hgt => h2 (by omega)⟩

/-- An overwrite at stack depth `j + 1` keeps the DFS table invariant at the
deeper stack level. -/
theorem idaInv_overwrite {round : Round} {start : RobotPositions} {L j : Nat}
    {v : VisitedNodes} (hinv : IdaInv round start L j v)
    {p : RobotPositions} {occ : BasicVisitedNode} (hget : v.get p = some occ)
    {nd : BasicVisitedNode}
    (hreach : ∃ ms, applyMoves round.board start ms = p ∧
      ms.length = nd.moves_to_reach)
    (hcost : nd.moves_to_reach = j + 1) :
    IdaInv round start L (j + 1) (v.overwrite p nd) := by
  intro x n hx
  by_cases hpx : x = p
  · subst hpx
    rw [overwrite_get hget _] at hx
    obtain rfl := Option.some.inj hx
    exact ⟨hreach, fun hgt => absurd hgt (by omega)⟩
  · rw [overwrite_get_other hpx _] at hx
    obtain ⟨h1, h2⟩ := hinv x n hx
    exact ⟨h1, fun hgt => h2 (by omega)⟩

/-- Record-provenance relations compose. -/
theorem newHigh_trans {j : Nat} {v1 v2 v3 : VisitedNodes}
    (h12 : NewHigh j v1 v2) (h23 : NewHigh j v2 v3) : NewHigh j v1 v3 :=
  fun x n hx => (h23 x n hx).elim (fun h => h12 x n h) Or.inr

/-- Record-persistence relations compose. -/
theorem tablePres_trans {j : Nat} {v1 v2 v3 : VisitedNodes}
    (h12 : TablePres j v1 v2) (h23 : TablePres j v2 v3) : TablePres j v1 v3 := by
  intro x n hx
  rcases h12 x n hx with h2 | ⟨n2, hn2, hlt2, hgt2⟩
  · rcases h23 x n h2 with h3 | ⟨n3, hn3, hlt3, hgt3⟩
    · exact Or.inl h3
    · exact Or.inr ⟨n3, hn3, hlt3, hgt3⟩
  · rcases h23 x n2 hn2 with h3 | ⟨n3, hn3, hlt3, hgt3⟩
    · exact Or.inr ⟨n2, h3, hlt2, hgt2⟩
    · exact Or.inr ⟨n3, hn3, by omega, hgt3⟩

/-- Main induction for the bound-`L` iteration of `IdaStar`: a call of the
depth-limited DFS on a state reached in exactly `j` moves, with a sound
table whose deep records are conclusively refuted, (a) only returns winning
states recorded at cost `L` in a sound table, (b) always returns a winning
state when its root wins in exactly its budget, and (c) on failure restores
the table invariants, creating or lowering records only below the stack. -/
theorem ida_dfs_main (round : Round) (start : RobotPositions)
    (mb : LeastMovesBoard) (L : Nat) (hL1 : 1 ≤ L)
    (hhopt : ∀ ms : List (Robot × Direction),
      round.target_reached (applyMoves round.board start ms) = true →
      L ≤ ms.length)
    (hadm : ∀ (x : RobotPositions) (ms : List (Robot × Direction)),
      round.target_reached (applyMoves round.board x ms) = true →
      (∃ ms0, applyMoves round.board start ms0 = x) →
      mb.min_moves x round.target ≤ ms.length) :
    ∀ (r j : Nat), j + r = L → ∀ (v : VisitedNodes) (s : RobotPositions),
      (∃ ms, applyMoves round.board start ms = s ∧ ms.length = j) →
      ((j = 0 ∧ s = start) ∨ ∃ ns, v.get s = some ns ∧ ns.moves_to_reach = j) →
      TableOK round.board start v →
      IdaInv round start L j v →
      ((∀ v2 w, depth_limited_dfs round mb r v s j = (v2, some w) →
          round.target_reached w = true ∧ TableOK round.board start v2 ∧
          ∃ nw, v2.get w = some nw ∧ nw.moves_to_reach = L) ∧
        (WinExact round s r →
          ∃ v2 w, depth_limited_dfs round mb r v s j = (v2, some w)) ∧
        (∀ v2, depth_limited_dfs round mb r v s j = (v2, none) →
          TableOK round.board start v2 ∧ IdaInv round start L j v2 ∧
          NewHigh j v v2 ∧ TablePres j v v2)) := by
  intro r
  induction r with
  | zero =>
    intro j hjL v s hreach hrec hok hinv
    have hjL0 : j = L := by omega
    refine ⟨?_, ?_, ?_⟩
    · intro v2 w h
      by_cases hw : round.target_reached s = true
      · have he : depth_limited_dfs round mb 0 v s j = (v, some s) := by
          show (v, if round.target_reached s then some s else none) = (v, some s)
          rw [if_pos hw]
        rw [he] at h
        obtain rfl : v = v2 := congrArg Prod.fst h
        obtain rfl : s = w := Option.some.inj (congrArg Prod.snd h)
        rcases hrec with ⟨hj0, _⟩ | ⟨ns, hns, hcost⟩
        · exact absurd hjL0 (by omega)
        · exact ⟨hw, hok, ns, hns, by omega⟩
      · have he : depth_limited_dfs round mb 0 v s j = (v, none) := by
          show (v, if round.target_reached s then some s else none) = (v, none)
          rw [if_neg hw]
        rw [he] at h
        exact Option.noConfusion (congrArg Prod.snd h)
    · rintro ⟨ms, hwms, hlen⟩
      have hms0 : ms = [] := List.length_eq_zero.mp hlen
      subst hms0
      have hw : round.target_reached s = true := hwms
      refine ⟨v, s, ?_⟩
      show (v, if round.target_reached s then some s else none) = (v, some s)
      rw [if_pos hw]
    · intro v2 h
      by_cases hw : round.target_reached s = true
      · have he : depth_limited_dfs round mb 0 v s j = (v, some s) := by
          show (v, if round.target_reached s then some s else none) = (v, some s)
          rw [if_pos hw]
        rw [he] at h
        exact Option.noConfusion (congrArg Prod.snd h)
      · have he : depth_limited_dfs round mb 0 v s j = (v, none) := by
          show (v, if round.target_reached s then some s else none) = (v, none)
          rw [if_neg hw]
        rw [he] at h
        obtain rfl : v = v2 := congrArg Prod.fst h
        exact ⟨hok, hinv, fun x n hx => Or.inl hx, fun x n hx => Or.inl hx⟩
  | succ d ih =>
    intro j hjL v s hreach hrec hok hinv
    obtain ⟨ms_s, hms_s, hlen_s⟩ := hreach
    have hstepfacts : ∀ (v1 : VisitedNodes) (pm : RobotPositions × (Robot × Direction)),
        StepTo round.board s pm.2 pm.1 →
        TableOK round.board start v1 → IdaInv round start L j v1 →
        ((j = 0 ∧ s = start) ∨ ∃ ns, v1.get s = some ns ∧ ns.moves_to_reach = j) →
        ((∃ vH w, dfsStep round mb s j d (v1, none) pm = (vH, some w) ∧
            round.target_reached w = true ∧ TableOK round.board start vH ∧
            ∃ nw, vH.get w = some nw ∧ nw.moves_to_reach = L) ∨
          (∃ vH, dfsStep round mb s j d (v1, none) pm = (vH, none) ∧
            TableOK round.board start vH ∧ IdaInv round start L j vH ∧
            NewHigh j v1 vH ∧ TablePres j v1 vH ∧
            ((j = 0 ∧ s = start) ∨
              ∃ ns, vH.get s = some ns ∧ ns.moves_to_reach = j) ∧
            (WinExact round pm.1 d → False))) := by
      intro v1 pm hpm hok1 hinv1 hrec1
      have hreach_pm : applyMoves round.board start (ms_s ++ [pm.2]) = pm.1 := by
        rw [applyMoves_append_one, hms_s]
        exact hpm.1.symm
      have hlen_pm : (ms_s ++ [pm.2]).length = j + 1 := by simp [hlen_s]
      by_cases hpr : d < mb.min_moves pm.1 round.target
      · right
        refine ⟨v1, dfsStep_none_prune hpr, hok1, hinv1,
          fun x n hx => Or.inl hx, fun x n hx => Or.inl hx, hrec1, ?_⟩
        rintro ⟨msw, hmsw, hlw⟩
        have := hadm pm.1 msw hmsw ⟨ms_s ++ [pm.2], hreach_pm⟩
        omega
      · have hone : j + 1 = 1 → s = start := by
          intro h1
          rcases hrec1 with ⟨_, hs⟩ | ⟨ns, hns, hcost⟩
          · exact hs
          · have := (hok1 s ns hns).2.1
            exact absurd h1 (by omega)
        have hchain : 2 ≤ j + 1 →
            ∃ ns, v1.get s = some ns ∧ ns.moves_to_reach < j + 1 := by
          intro h2
          rcases hrec1 with ⟨hj0, _⟩ | ⟨ns, hns, hcost⟩
          · exact absurd h2 (by omega)
          · exact ⟨ns, hns, by omega⟩
        have hchild : ∀ (vc : VisitedNodes),
            dfsStep round mb s j d (v1, none) pm =
              depth_limited_dfs round mb d vc pm.1 (j + 1) →
            TableOK round.board start vc →
            IdaInv round start L (j + 1) vc →
            vc.get pm.1 = some (BasicVisitedNode.new (j + 1) s pm.2) →
            NewHigh j v1 vc →
            TablePres j v1 vc →
            (∀ x n, vc.get x = some n → ¬ x = pm.1 → v1.get x = some n) →
            ((∃ vH w, dfsStep round mb s j d (v1, none) pm = (vH, some w) ∧
                round.target_reached w = true ∧ TableOK round.board start vH ∧
                ∃ nw, vH.get w = some nw ∧ nw.moves_to_reach = L) ∨
              (∃ vH, dfsStep round mb s j d (v1, none) pm = (vH, none) ∧
                TableOK round.board start vH ∧ IdaInv round start L j vH ∧
                NewHigh j v1 vH ∧ TablePres j v1 vH ∧
                ((j = 0 ∧ s = start) ∨
                  ∃ ns, vH.get s = some ns ∧ ns.moves_to_reach = j) ∧
                (WinExact round pm.1 d → False))) := by
          intro vc hstep_eq hokc hinvc hgetc hnewc hpresc hback
          obtain ⟨hsome_c, hwin_c, hnone_c⟩ := ih (j + 1) (by omega) vc pm.1
            ⟨ms_s ++ [pm.2], hreach_pm, hlen_pm⟩
            (Or.inr ⟨BasicVisitedNode.new (j + 1) s pm.2, hgetc, rfl⟩) hokc hinvc
          rcases hres : depth_limited_dfs round mb d vc pm.1 (j + 1) with ⟨cv, co⟩
          cases co with
          | some w1 =>
            left
            obtain ⟨hw1, hokx, nw, hnw, hnwL⟩ := hsome_c cv w1 hres
            exact ⟨cv, w1, by rw [hstep_eq, hres], hw1, hokx, nw, hnw, hnwL⟩
          | none =>
            right
            obtain ⟨hok2, hinv2, hnew2, hpres2⟩ := hnone_c cv hres
            have hnwin : WinExact round pm.1 d → False := by
              intro hwx
              obtain ⟨v2x, wx, hx2⟩ := hwin_c hwx
              rw [hres] at hx2
              exact Option.noConfusion (congrArg Prod.snd hx2)
            refine ⟨cv, by rw [hstep_eq, hres], hok2, ?_, ?_, ?_, ?_, hnwin⟩
            · intro x n hx
              obtain ⟨hre, hset⟩ := hinv2 x n hx
              refine ⟨hre, fun hgt => ?_⟩
              by_cases hgt1 : j + 1 < n.moves_to_reach
              · exact hset hgt1
              · have hcost : n.moves_to_reach = j + 1 := by omega
                rcases hnew2 x n hx with hxc | hxgt
                · by_cases hxpm : x = pm.1
                  · subst hxpm
                    rw [hgetc] at hxc
                    obtain rfl := Option.some.inj hxc
                    show ¬ WinExact round pm.1
                      (L - (BasicVisitedNode.new (j + 1) s pm.2).moves_to_reach)
                    have hLd : L - (BasicVisitedNode.new (j + 1) s pm.2).moves_to_reach = d := by
                      show L - (j + 1) = d
                      omega
                    rw [hLd]
                    exact fun hw => hnwin hw
                  · have hxv1 : v1.get x = some n := hback x n hxc hxpm
                    exact (hinv1 x n hxv1).2 (by omega)
                · exact absurd hxgt (by omega)
            · intro x n hx
              rcases hnew2 x n hx with hxc | hgt
              · rcases hnewc x n hxc with h1 | h1
                · exact Or.inl h1
                · exact Or.inr h1
              · exact Or.inr (by omega)
            · intro x n hx
              rcases hpresc x n hx with hvc | ⟨n2, hn2, hlt2, hgt2⟩
              · rcases hpres2 x n hvc with hcv | ⟨n3, hn3, hlt3, hgt3⟩
                · exact Or.inl hcv
                · exact Or.inr ⟨n3, hn3, hlt3, by omega⟩
              · rcases hpres2 x n2 hn2 with hcv | ⟨n3, hn3, hlt3, hgt3⟩
                · exact Or.inr ⟨n2, hcv, hlt2, hgt2⟩
                · exact Or.inr ⟨n3, hn3, by omega, by omega⟩
            · rcases hrec1 with h0 | ⟨ns, hns, hcost⟩
              · exact Or.inl h0
              · rcases hpresc s ns hns with hvc | ⟨n2, _, hlt2, hgt2⟩
                · rcases hpres2 s ns hvc with hcv | ⟨n3, _, hlt3, hgt3⟩
                  · exact Or.inr ⟨ns, hcv, hcost⟩
                  · exact absurd hgt3 (by omega)
                · exact absurd hgt2 (by omega)
        cases hget1 : v1.get pm.1 with
        | none =>
          refine hchild ((pm.1, BasicVisitedNode.new (j + 1) s pm.2) :: v1)
            (dfsStep_none_new hpr hget1) ?_ ?_ ?_ ?_ ?_ ?_
          · exact @tableOK_add_new round.board start v1 hok1 pm.1 s pm.2 (j + 1)
              hget1 hpm (by omega) hone hchain
          · exact idaInv_cons hinv1 ⟨ms_s ++ [pm.2], hreach_pm, hlen_pm⟩ rfl
          · rw [get_cons, if_pos rfl]
          · intro x n hx
            rw [get_cons] at hx
            by_cases hpx : pm.1 = x
            · rw [if_pos hpx] at hx
              obtain rfl := Option.some.inj hx
              exact Or.inr (by show j < j + 1; omega)
            · rw [if_neg hpx] at hx
              exact Or.inl hx
          · intro x n hx
            have hpx : ¬ pm.1 = x := by
              intro he
              rw [← he, hget1] at hx
              exact Option.noConfusion hx
            refine Or.inl ?_
            rw [get_cons, if_neg hpx]
            exact hx
          · intro x n hx hne
            rw [get_cons, if_neg (fun he => hne he.symm)] at hx
            exact hx
        | some occ =>
          by_cases hle : occ.moves_to_reach ≤ j + 1
          · right
            refine ⟨v1, dfsStep_none_better hpr hget1 hle, hok1, hinv1,
              fun x n hx => Or.inl hx, fun x n hx => Or.inl hx, hrec1, ?_⟩
            rintro ⟨msw, hmsw, hlw⟩
            obtain ⟨⟨msr, hmsr, hlr⟩, hset⟩ := hinv1 pm.1 occ hget1
            have hcomp : round.target_reached
                (applyMoves round.board start (msr ++ msw)) = true := by
              rw [applyMoves_append, hmsr]
              exact hmsw
            have hLle := hhopt (msr ++ msw) hcomp
            have hlen2 : (msr ++ msw).length = occ.moves_to_reach + d := by
              simp [hlr, hlw]
            rw [hlen2] at hLle
            have hocc : occ.moves_to_reach = j + 1 := by omega
            apply hset (by omega)
            have hLd : L - occ.moves_to_reach = d := by omega
            rw [hLd]
            exact ⟨msw, hmsw, hlw⟩
          · refine hchild
              (v1.overwrite pm.1 (BasicVisitedNode.new (j + 1) s pm.2))
              (dfsStep_none_worse hpr hget1 (by omega)) ?_ ?_ ?_ ?_ ?_ ?_
            · exact @tableOK_overwrite_lower round.board start v1 hok1 pm.1 s
                pm.2 (j + 1) occ hget1 (by omega) hpm (by omega) hone hchain
            · exact idaInv_overwrite hinv1 hget1
                ⟨ms_s ++ [pm.2], hreach_pm, hlen_pm⟩ rfl
            · exact overwrite_get hget1 _
            · intro x n hx
              by_cases hpx : x = pm.1
              · subst hpx
                rw [overwrite_get hget1 _] at hx
                obtain rfl := Option.some.inj hx
                exact Or.inr (by show j < j + 1; omega)
              · rw [overwrite_get_other hpx _] at hx
                exact Or.inl hx
            · intro x n hx
              by_cases hpx : x = pm.1
              · subst hpx
                rw [hget1] at hx
                obtain rfl := Option.some.inj hx
                refine Or.inr ⟨BasicVisitedNode.new (j + 1) s pm.2,
                  overwrite_get hget1 _, ?_, ?_⟩
                · show j + 1 < occ.moves_to_reach
                  omega
                · show j < j + 1
                  omega
              · refine Or.inl ?_
                rw [overwrite_get_other hpx _]
                exact hx
            · intro x n hx hne
              rw [overwrite_get_other hne _] at hx
              exact hx
    have hfold : ∀ (l : List (RobotPositions × (Robot × Direction)))
        (v1 : VisitedNodes),
        (∀ pm ∈ l, StepTo round.board s pm.2 pm.1) →
        TableOK round.board start v1 → IdaInv round start L j v1 →
        NewHigh j v v1 → TablePres j v v1 →
        ((j = 0 ∧ s = start) ∨ ∃ ns, v1.get s = some ns ∧ ns.moves_to_reach = j) →
        ((∀ v2 w, l.foldl (dfsStep round mb s j d) (v1, none) = (v2, some w) →
            round.target_reached w = true ∧ TableOK round.board start v2 ∧
            ∃ nw, v2.get w = some nw ∧ nw.moves_to_reach = L) ∧
          ((∃ pm, pm ∈ l ∧ WinExact round pm.1 d) →
            ∃ v2 w, l.foldl (dfsStep round mb s j d) (v1, none) = (v2, some w)) ∧
          (∀ v2, l.foldl (dfsStep round mb s j d) (v1, none) = (v2, none) →
            TableOK round.board start v2 ∧ IdaInv round start L j v2 ∧
            NewHigh j v v2 ∧ TablePres j v v2)) := by
      intro l
      induction l with
      | nil =>
        intro v1 _ hok1 hinv1 hnew1 hpres1 hrec1
        refine ⟨?_, ?_, ?_⟩
        · intro v2 w hf
          exact Option.noConfusion (congrArg Prod.snd hf)
        · rintro ⟨pm, hpm, _⟩
          exact absurd hpm (List.not_mem_nil pm)
        · intro v2 hf
          obtain rfl : v1 = v2 := congrArg Prod.fst hf
          exact ⟨hok1, hinv1, hnew1, hpres1⟩
      | cons pm rest ihl =>
        intro v1 hstep hok1 hinv1 hnew1 hpres1 hrec1
        have hnext := fun q hq => hstep q (List.mem_cons_of_mem _ hq)
        have hpm0 := hstep pm (List.mem_cons_self _ _)
        rcases hstepfacts v1 pm hpm0 hok1 hinv1 hrec1 with
          ⟨vH, w, hH, hwH, hokH, nw, hnwH, hnwL⟩ |
          ⟨vH, hH, hokH, hinvH, hnewH, hpresH, hrecH, hnwin⟩
        · have hff : (pm :: rest).foldl (dfsStep round mb s j d) (v1, none) =
              (vH, some w) := by
            rw [List.foldl_cons, hH]
            exact dfs_foldl_some round mb s j d w rest vH
          refine ⟨?_, ?_, ?_⟩
          · intro v2 w2 hf
            rw [hff] at hf
            obtain rfl : vH = v2 := congrArg Prod.fst hf
            obtain rfl : w = w2 := Option.some.inj (congrArg Prod.snd hf)
            exact ⟨hwH, hokH, nw, hnwH, hnwL⟩
          · intro _
            exact ⟨vH, w, hff⟩
          · intro v2 hf
            rw [hff] at hf
            exact Option.noConfusion (congrArg Prod.snd hf)
        · have hnewC : NewHigh j v vH := newHigh_trans hnew1 hnewH
          have hpresC : TablePres j v vH := tablePres_trans hpres1 hpresH
          obtain ⟨hsome_r, hwin_r, hnone_r⟩ :=
            ihl vH hnext hokH hinvH hnewC hpresC hrecH
          have hffr : (pm :: rest).foldl (dfsStep round mb s j d) (v1, none) =
              rest.foldl (dfsStep round mb s j d) (vH, none) := by
            rw [List.foldl_cons, hH]
          refine ⟨?_, ?_, ?_⟩
          · intro v2 w2 hf
            rw [hffr] at hf
            exact hsome_r v2 w2 hf
          · rintro ⟨pmx, hpmx, hwx⟩
            rcases List.mem_cons.mp hpmx with rfl | hmem
            · exact absurd hwx hnwin
            · obtain ⟨v2, w2, hf⟩ := hwin_r ⟨pmx, hmem, hwx⟩
              exact ⟨v2, w2, by rw [hffr]; exact hf⟩
          · intro v2 hf
            rw [hffr] at hf
            exact hnone_r v2 hf
    obtain ⟨hsome_f, hwin_f, hnone_f⟩ := hfold (s.reachable_positions round.board)
      v (fun pm hpm => (mem_reachable_iff _ _ _).mp hpm) hok hinv
      (fun x n hx => Or.inl hx) (fun x n hx => Or.inl hx) hrec
    refine ⟨?_, ?_, ?_⟩
    · intro v2 w h
      rw [dfs_succ_eq] at h
      exact hsome_f v2 w h
    · rintro ⟨msw, hmsw, hlw⟩
      cases msw with
      | nil => exact absurd (show (0 : Nat) = d + 1 from hlw) (by omega)
      | cons m ms2 =>
        have hms2 : ms2.length = d := by
          have := hlw
          simp at this
          omega
        by_cases hid : s.move_in_direction round.board m.1 m.2 = s
        · exfalso
          rw [applyMoves_cons, hid] at hmsw
          have hcomp : round.target_reached
              (applyMoves round.board start (ms_s ++ ms2)) = true := by
            rw [applyMoves_append, hms_s]
            exact hmsw
          have := hhopt _ hcomp
          have hlen2 : (ms_s ++ ms2).length = j + d := by
            simp [hlen_s, hms2]
          omega
        · rw [dfs_succ_eq]
          apply hwin_f
          refine ⟨(s.move_in_direction round.board m.1 m.2, m), ?_, ?_⟩
          · exact (mem_reachable_iff _ _ _).mpr ⟨rfl, hid⟩
          · refine ⟨ms2, ?_, hms2⟩
            rw [← applyMoves_cons]
            exact hmsw
    · intro v2 h
      rw [dfs_succ_eq] at h
      exact hnone_f v2 h

/-- The bound loop of `IdaStar::solve`, started at any bound at most the
optimal depth `L` with enough fuel, returns a path that replays to a win in
exactly `L` moves: bounds below `L` fail by soundness, and the bound-`L`
iteration succeeds by the DFS completeness lemma. -/
theorem idaLoop_finds (round : Round) (start : RobotPositions)
    (mb : LeastMovesBoard) (L : Nat) (hL1 : 1 ≤ L)
    (hhopt : ∀ ms : List (Robot × Direction),
      round.target_reached (applyMoves round.board start ms) = true →
      L ≤ ms.length)
    (hadm : ∀ (x : RobotPositions) (ms : List (Robot × Direction)),
      round.target_reached (applyMoves round.board x ms) = true →
      (∃ ms0, applyMoves round.board start ms0 = x) →
      mb.min_moves x round.target ≤ ms.length)
    (hLwin : WinExact round start L) :
    ∀ (fuel i : Nat), i ≤ L → L < i + fuel →
      ∃ p : Path, idaLoop round mb start i fuel = some p ∧
        p.start_pos = start ∧ applyMoves round.board start p.movements = p.end_pos ∧
        round.target_reached p.end_pos = true ∧ p.movements.length = L := by
  intro fuel
  induction fuel with
  | zero =>
    intro i h1 h2
    exact absurd h2 (by omega)
  | succ fuel ihf =>
    intro i hiL hfuel
    rcases hres : depth_limited_dfs round mb i [] start 0 with ⟨v2, o⟩
    cases o with
    | some w =>
      obtain ⟨hwinw, ms, hms, hlen⟩ := dfs_some_sound round mb i [] start 0 v2 w hres
      have hiL2 : i = L := by
        have := hhopt ms (by rw [hms]; exact hwinw)
        omega
      subst hiL2
      obtain ⟨hsome, hwin2, hnone⟩ := ida_dfs_main round start mb i hL1 hhopt hadm
        i 0 (by omega) [] start ⟨[], rfl, rfl⟩ (Or.inl ⟨rfl, rfl⟩)
        (fun x n hx => Option.noConfusion hx)
        (fun x n hx => Option.noConfusion hx)
      obtain ⟨hw2, hok2, nw, hnw, hnwL⟩ := hsome v2 w hres
      obtain ⟨msp, hpath, happ, hp1, hp2⟩ := path_to_len_spec hok2 hnw
      have hLlen : msp.length = i := by
        have := hhopt msp (by rw [happ]; exact hw2)
        omega
      refine ⟨Path.new start w msp, ?_, rfl, happ, hw2, hLlen⟩
      show idaLoop round mb start i (fuel + 1) = some (Path.new start w msp)
      simp only [idaLoop]
      rw [hres]
      exact hpath
    | none =>
      have hilt : i < L := by
        rcases Nat.lt_or_ge i L with h | h
        · exact h
        · exfalso
          have hiL2 : i = L := by omega
          subst hiL2
          obtain ⟨_, hwin2, _⟩ := ida_dfs_main round start mb i hL1 hhopt hadm
            i 0 (by omega) [] start ⟨[], rfl, rfl⟩ (Or.inl ⟨rfl, rfl⟩)
            (fun x n hx => Option.noConfusion hx)
            (fun x n hx => Option.noConfusion hx)
          obtain ⟨v2x, wx, hx⟩ := hwin2 hLwin
          rw [hres] at hx
          exact Option.noConfusion (congrArg Prod.snd hx)
      obtain ⟨p, hp, h1, h2, h3, h4⟩ := ihf (i + 1) (by omega) (by omega)
      refine ⟨p, ?_, h1, h2, h3, h4⟩
      show idaLoop round mb start i (fuel + 1) = some p
      simp only [idaLoop]
      rw [hres]
      exact hp

/-- The IDA* solver, run with fuel one more than the optimal number of
moves, returns a path that replays from the start to a winning state and
has exactly that optimal length. -/
theorem ida_solve_optimal (round : Round) (start : RobotPositions)
    (htp : round.target_position.InBounds round.board.side_length)
    (hin : ∀ rb, (start.get rb).InBounds round.board.side_length)
    (moves : List (Robot × Direction))
    (hwin : round.target_reached (applyMoves round.board start moves) = true)
    (hopt : ∀ ms : List (Robot × Direction),
      round.target_reached (applyMoves round.board start ms) = true →
      moves.length ≤ ms.length) :
    ∃ p : Path, ida_star_solve round start (moves.length + 1) = some p ∧
      p.start_pos = start ∧ applyMoves round.board start p.movements = p.end_pos ∧
      round.target_reached p.end_pos = true ∧
      p.movements.length = moves.length := by
  by_cases hs : round.target_reached start = true
  · have h0 : moves.length = 0 := Nat.le_zero.mp (hopt [] hs)
    refine ⟨Path.new start start [], ?_, rfl, rfl, hs, h0.symm⟩
    show ida_star_solve round start (moves.length + 1) =
      some (Path.new start start [])
    rw [ida_star_solve, if_pos hs]
    rfl
  · have hL1 : 1 ≤ moves.length := by
      by_contra h
      have h0 : moves.length = 0 := by omega
      have hms0 : moves = [] := List.length_eq_zero.mp h0
      subst hms0
      exact hs hwin
    have hadm : ∀ (x : RobotPositions) (ms : List (Robot × Direction)),
        round.target_reached (applyMoves round.board x ms) = true →
        (∃ ms0, applyMoves round.board start ms0 = x) →
        (LeastMovesBoard.new round.board round.target_position).min_moves x
          round.target ≤ ms.length := by
      rintro x ms hw ⟨ms0, hms0⟩
      have hinx : ∀ rb, (x.get rb).InBounds round.board.side_length := by
        intro rb
        rw [← hms0]
        exact applyMoves_preserves_inBounds ms0 start hin rb
      exact (heuristic_le_moves round.board round.target round.target_position
        htp ms x hinx hw).1
    obtain ⟨hmm1, hmm2⟩ := heuristic_le_moves round.board round.target
      round.target_position htp moves start hin hwin
    have hguard : (LeastMovesBoard.new round.board
        round.target_position).is_unsolvable start round.target = false := by
      unfold LeastMovesBoard.is_unsolvable
      rw [decide_eq_false_iff_not]
      show ¬ (round.board.side_length * round.board.side_length ≤
        (LeastMovesBoard.new round.board round.target_position).min_moves start
          round.target)
      omega
    obtain ⟨p, hp, h1, h2, h3, h4⟩ := idaLoop_finds round start
      (LeastMovesBoard.new round.board round.target_position) moves.length hL1
      hopt hadm ⟨moves, hwin, rfl⟩ (moves.length + 1)
      ((LeastMovesBoard.new round.board round.target_position).min_moves start
        round.target) hmm1 (by omega)
    refine ⟨p, ?_, h1, h2, h3, h4⟩
    show ida_star_solve round start (moves.length + 1) = some p
    simp only [ida_star_solve]
    rw [if_neg hs, hguard, if_neg Bool.false_ne_true]
    exact hp

/-- The pass loop never writes the value zero: a zero cell must be the
initial zero, which sits at the target. -/
theorem lmLoop_pos (b : Board) (tp : Position) :
    ∀ (fuel k : Nat) (g : Grid) (current : List Position), 1 ≤ k →
      (∀ p, g p = 0 → p = tp) →
      ∀ p, lmLoop b fuel k g current p = 0 → p = tp := by
  intro fuel
  induction fuel with
  | zero =>
    intro k g current hk h0 p
    exact h0 p
  | succ fuel ih =>
    intro k g current hk h0 p
    obtain ⟨sp, _, _⟩ := lmCells_spec b k current (g, [])
    by_cases hempty : (lmCells b k (g, []) current).2.isEmpty
    · simp only [lmLoop]
      rw [if_pos hempty]
      intro hp
      rcases sp.1 p with e | ⟨e, _⟩
      · exact h0 p (e.symm.trans hp)
      · exact absurd hp (by omega)
    · simp only [lmLoop]
      rw [if_neg hempty]
      refine ih (k + 1) _ _ (by omega) ?_ p
      intro q hq
      rcases sp.1 q with e | ⟨e, _⟩
      · exact h0 q (e.symm.trans hq)
      · exact absurd hq (by omega)

/-- Only the target cell of the heuristic grid holds the value zero. -/
theorem grid_zero_eq_target {b : Board} {tp : Position} (hs : 0 < b.side_length) :
    ∀ p, (LeastMovesBoard.new b tp).board p = 0 → p = tp := by
  have heq : (LeastMovesBoard.new b tp).board =
      lmLoop b (b.side_length * b.side_length + 1) 1
        (Grid.update (fun _ => b.side_length * b.side_length) tp 0) [tp] := rfl
  rw [heq]
  refine lmLoop_pos b tp _ 1 _ _ (Nat.le_refl 1) ?_
  intro p hp
  by_cases h : p = tp
  · exact h
  · exfalso
    simp only [Grid.update, if_neg h] at hp
    have : 0 < b.side_length * b.side_length := Nat.mul_pos hs hs
    omega

/-- A state with heuristic value zero satisfies the win predicate: the robot
the target asks for (some robot, for the spiral) sits on the zero cell,
which is the target cell. -/
theorem min_moves_zero_win {b : Board} {tp : Position} {t : Target}
    (hs : 0 < b.side_length) {x : RobotPositions}
    (h0 : (LeastMovesBoard.new b tp).min_moves x t = 0) :
    (Round.new b t tp).target_reached x = true := by
  rcases ht : t.toRobot? with _ | c
  · obtain ⟨r, hr⟩ := min_moves_none_attained (LeastMovesBoard.new b tp) x ht
    rw [h0] at hr
    exact (target_reached_none ht).mpr ⟨r, grid_zero_eq_target hs (x.get r) hr.symm⟩
  · rw [min_moves_colored _ _ ht] at h0
    exact (target_reached_colored ht).mpr (grid_zero_eq_target hs _ h0)

theorem mem_allPositions {s : Nat} {p : Position} (h : p.InBounds s) :
    p ∈ allPositions s := by
  refine Finset.mem_image.mpr ⟨(p.column, p.row), ?_, rfl⟩
  simp only [Finset.mem_product, Finset.mem_range]
  exact ⟨h.1, h.2⟩

theorem mem_allStates {s : Nat} {x : RobotPositions}
    (h : ∀ r, (x.get r).InBounds s) : x ∈ allStates s := by
  refine Finset.mem_image.mpr ⟨((x.red, x.blue), (x.green, x.yellow)), ?_, rfl⟩
  refine Finset.mem_product.mpr ⟨Finset.mem_product.mpr ⟨?_, ?_⟩,
    Finset.mem_product.mpr ⟨?_, ?_⟩⟩
  · exact mem_allPositions (h Robot.Red)
  · exact mem_allPositions (h Robot.Blue)
  · exact mem_allPositions (h Robot.Green)
  · exact mem_allPositions (h Robot.Yellow)

theorem card_allPositions (s : Nat) : (allPositions s).card ≤ s * s := by
  refine le_trans Finset.card_image_le ?_
  rw [Finset.card_product, Finset.card_range]

theorem card_allStates (s : Nat) : (allStates s).card ≤ stateBound s := by
  refine le_trans Finset.card_image_le ?_
  simp only [Finset.card_product]
  have h := card_allPositions s
  exact Nat.mul_le_mul (Nat.mul_le_mul h h) (Nat.mul_le_mul h h)

/-- A missing lookup means the key is absent. -/
theorem get_none_not_mem_keys {t : VisitedNodes} {x : RobotPositions}
    (h : t.get x = none) : x ∉ t.map Prod.fst := by
  induction t with
  | nil => simp
  | cons kv rest ih =>
    obtain ⟨k, v⟩ := kv
    rw [get_cons] at h
    by_cases hk : k = x
    · rw [if_pos hk] at h
      exact Option.noConfusion h
    · rw [if_neg hk] at h
      simp only [List.map_cons, List.mem_cons]
      rintro (he | he)
      · exact hk he.symm
      · exact ih h he

/-- Overwriting keeps the key list unchanged. -/
theorem overwrite_keys (t : VisitedNodes) (p : RobotPositions)
    (nd : BasicVisitedNode) :
    (t.overwrite p nd).map Prod.fst = t.map Prod.fst := by
  induction t with
  | nil => rfl
  | cons kv rest ih =>
    obtain ⟨k, v⟩ := kv
    simp only [VisitedNodes.overwrite]
    by_cases hk : k = p
    · rw [if_pos hk]
      simp
    · rw [if_neg hk]
      simp only [List.map_cons]
      rw [ih]

/-- With distinct keys, membership determines the lookup. -/
theorem mem_get_of_nodup {t : VisitedNodes} (hnd : (t.map Prod.fst).Nodup)
    {x : RobotPositions} {n : BasicVisitedNode} (h : (x, n) ∈ t) :
    t.get x = some n := by
  induction t with
  | nil => cases h
  | cons kv rest ih =>
    obtain ⟨k, v⟩ := kv
    simp only [List.map_cons, List.nodup_cons] at hnd
    rcases List.mem_cons.mp h with he | hmem
    · obtain rfl : k = x := (congrArg Prod.fst he).symm
      obtain rfl : v = n := (congrArg Prod.snd he).symm
      rw [get_cons, if_pos rfl]
    · have hkx : ¬ k = x := by
        intro he2
        subst he2
        exact hnd.1 (List.mem_map.mpr ⟨(k, n), hmem, rfl⟩)
      rw [get_cons, if_neg hkx]
      exact ih hnd.2 hmem

/-- A table with distinct, in-bounds keys has at most `stateBound` entries. -/
theorem keys_length_le {t : VisitedNodes} {s : Nat}
    (hnd : (t.map Prod.fst).Nodup)
    (hin : ∀ kv ∈ t, ∀ r, ((kv.1 : RobotPositions).get r).InBounds s) :
    t.length ≤ stateBound s := by
  have h1 : t.length = (t.map Prod.fst).length := (List.length_map _ _).symm
  rw [h1, ← List.toFinset_card_of_nodup hnd]
  refine le_trans (Finset.card_le_card ?_) (card_allStates s)
  intro x hx
  rw [List.mem_toFinset] at hx
  obtain ⟨kv, hkv, rfl⟩ := List.mem_map.mp hx
  exact mem_allStates (hin kv hkv)

theorem sumCosts_cons (p : RobotPositions) (nd : BasicVisitedNode)
    (t : VisitedNodes) :
    sumCosts ((p, nd) :: t) = nd.moves_to_reach + sumCosts t := by
  simp [sumCosts]

theorem sumCosts_overwrite {t : VisitedNodes} {p : RobotPositions}
    {occ : BasicVisitedNode} (hget : t.get p = some occ)
    (nd : BasicVisitedNode) :
    sumCosts (t.overwrite p nd) + occ.moves_to_reach =
      sumCosts t + nd.moves_to_reach := by
  induction t with
  | nil => exact Option.noConfusion hget
  | cons kv rest ih =>
    obtain ⟨k, v⟩ := kv
    rw [get_cons] at hget
    simp only [VisitedNodes.overwrite]
    by_cases hk : k = p
    · rw [if_pos hk] at hget
      obtain rfl := Option.some.inj hget
      rw [if_pos hk, sumCosts_cons, sumCosts_cons]
      omega
    · rw [if_neg hk] at hget
      rw [if_neg hk, sumCosts_cons, sumCosts_cons]
      have := ih hget
      omega

/-- The priority order in propositional form. -/
theorem isAbove_true_iff (a b : MoveCounter) :
    a.isAbove b = true ↔
      a.total < b.total ∨ (a.total = b.total ∧ a.from_start < b.from_start) := by
  simp [MoveCounter.isAbove, Bool.or_eq_true, Bool.and_eq_true, decide_eq_true_eq]

/-- The complement of the priority order, as a lexicographic bound. -/
theorem isAbove_false_le {a b : MoveCounter} (h : a.isAbove b = false) :
    b.total < a.total ∨ (b.total = a.total ∧ b.from_start ≤ a.from_start) := by
  have h1 : ¬ (a.total < b.total ∨ (a.total = b.total ∧ a.from_start < b.from_start)) := by
    intro hc
    rw [← isAbove_true_iff] at hc
    rw [h] at hc
    exact Bool.noConfusion hc
  by_cases ht : a.total = b.total
  · refine Or.inr ⟨ht.symm, ?_⟩
    by_cases hf : a.from_start < b.from_start
    · exact absurd (Or.inr ⟨ht, hf⟩) h1
    · omega
  · refine Or.inl ?_
    by_cases hlt : a.total < b.total
    · exact absurd (Or.inl hlt) h1
    · omega

/-- The lexicographic bound implies the order fails. -/
theorem isAbove_false_of_le {a b : MoveCounter}
    (h : b.total < a.total ∨ (b.total = a.total ∧ b.from_start ≤ a.from_start)) :
    a.isAbove b = false := by
  by_cases hab : a.isAbove b = true
  · rw [isAbove_true_iff] at hab
    exfalso
    rcases hab with h1 | ⟨h1, h2⟩ <;> rcases h with h3 | ⟨h3, h4⟩ <;> omega
  · exact Bool.eq_false_iff.mpr hab

/-- Failures of the priority order compose. -/
theorem isAbove_false_trans {a b c : MoveCounter} (h1 : a.isAbove b = false)
    (h2 : b.isAbove c = false) : a.isAbove c = false := by
  have g1 := isAbove_false_le h1
  have g2 := isAbove_false_le h2
  apply isAbove_false_of_le
  rcases g1 with g1 | ⟨g1, g1b⟩ <;> rcases g2 with g2 | ⟨g2, g2b⟩
  · exact Or.inl (by omega)
  · exact Or.inl (by omega)
  · exact Or.inl (by omega)
  · exact Or.inr ⟨by omega, by omega⟩

/-- An empty pop means an empty queue. -/
theorem popMax_none {O : List (RobotPositions × MoveCounter)}
    (h : popMax O = none) : O = [] := by
  cases O with
  | nil => rfl
  | cons kv rest =>
    obtain ⟨k, v⟩ := kv
    rcases hrec : popMax rest with _ | ⟨⟨k2, v2⟩, rest2⟩
    · simp only [popMax, hrec] at h
      exact Option.noConfusion h
    · simp only [popMax, hrec] at h
      by_cases hab : v2.isAbove v = true
      · rw [if_pos hab] at h
        exact Option.noConfusion h
      · rw [if_neg hab] at h
        exact Option.noConfusion h

/-- Popping splits the queue into the popped entry and the rest, up to
permutation. -/
theorem popMax_perm :
    ∀ (O : List (RobotPositions × MoveCounter)) (e : RobotPositions × MoveCounter)
      (rest : List (RobotPositions × MoveCounter)),
      popMax O = some (e, rest) → O.Perm (e :: rest) := by
  intro O
  induction O with
  | nil =>
    intro e rest h
    exact Option.noConfusion h
  | cons kv tail ih =>
    intro e rest h
    obtain ⟨k, v⟩ := kv
    rcases hrec : popMax tail with _ | ⟨⟨k2, v2⟩, rest2⟩
    · simp only [popMax, hrec] at h
      have h2 := Option.some.inj h
      have he : e = (k, v) := (congrArg Prod.fst h2).symm
      have hr : rest = [] := (congrArg Prod.snd h2).symm
      subst he
      subst hr
      have htail : tail = [] := popMax_none hrec
      subst htail
      exact List.Perm.refl _
    · simp only [popMax, hrec] at h
      by_cases hab : v2.isAbove v = true
      · rw [if_pos hab] at h
        have h2 := Option.some.inj h
        have he : e = (k2, v2) := (congrArg Prod.fst h2).symm
        have hr : rest = (k, v) :: rest2 := (congrArg Prod.snd h2).symm
        subst he
        subst hr
        exact List.Perm.trans (List.Perm.cons _ (ih (k2, v2) rest2 hrec))
          (List.Perm.swap _ _ _)
      · rw [if_neg hab] at h
        have h2 := Option.some.inj h
        have he : e = (k, v) := (congrArg Prod.fst h2).symm
        have hr : rest = tail := (congrArg Prod.snd h2).symm
        subst he
        subst hr
        exact List.Perm.refl _

/-- The popped entry has maximal priority: nothing in the queue is above it. -/
theorem popMax_max :
    ∀ (O : List (RobotPositions × MoveCounter)) (y : RobotPositions)
      (cy : MoveCounter) (rest : List (RobotPositions × MoveCounter)),
      popMax O = some ((y, cy), rest) →
      ∀ e ∈ O, (e : RobotPositions × MoveCounter).2.isAbove cy = false := by
  intro O
  induction O with
  | nil =>
    intro y cy rest h
    exact Option.noConfusion h
  | cons kv tail ih =>
    intro y cy rest h e he
    obtain ⟨k, v⟩ := kv
    rcases hrec : popMax tail with _ | ⟨⟨k2, v2⟩, rest2⟩
    · simp only [popMax, hrec] at h
      have h2 := Option.some.inj h
      have hcy : cy = v := (congrArg Prod.snd (congrArg Prod.fst h2)).symm
      subst hcy
      have htail : tail = [] := popMax_none hrec
      subst htail
      rcases List.mem_cons.mp he with rfl | hm
      · exact isAbove_false_of_le (Or.inr ⟨rfl, Nat.le_refl _⟩)
      · cases hm
    · simp only [popMax, hrec] at h
      by_cases hab : v2.isAbove v = true
      · rw [if_pos hab] at h
        have h2 := Option.some.inj h
        have hcy : cy = v2 := (congrArg Prod.snd (congrArg Prod.fst h2)).symm
        subst hcy
        rcases List.mem_cons.mp he with rfl | hm
        · rw [isAbove_true_iff] at hab
          apply isAbove_false_of_le
          rcases hab with h1 | ⟨h1, h2b⟩
          · exact Or.inl h1
          · exact Or.inr ⟨h1, Nat.le_of_lt h2b⟩
        · exact ih k2 cy rest2 hrec e hm
      · rw [if_neg hab] at h
        have h2 := Option.some.inj h
        have hcy : cy = v := (congrArg Prod.snd (congrArg Prod.fst h2)).symm
        subst hcy
        rcases List.mem_cons.mp he with rfl | hm
        · exact isAbove_false_of_le (Or.inr ⟨rfl, Nat.le_refl _⟩)
        · exact isAbove_false_trans (ih k2 v2 rest2 hrec e hm)
            (Bool.eq_false_iff.mpr hab)

/-- Every entry after a priority push was already there or is the pushed
entry. -/
theorem pi_mem {q : List (RobotPositions × MoveCounter)} {x : RobotPositions}
    {c : MoveCounter} :
    ∀ e ∈ push_increase q x c, e ∈ q ∨ e = (x, c) := by
  induction q with
  | nil =>
    intro e he
    exact Or.inr (List.mem_singleton.mp he)
  | cons kv rest ih =>
    intro e he
    obtain ⟨k, v⟩ := kv
    simp only [push_increase] at he
    by_cases hk : k = x
    · rw [if_pos hk] at he
      by_cases hab : c.isAbove v = true
      · rw [if_pos hab] at he
        rcases List.mem_cons.mp he with rfl | hm
        · exact Or.inr (by rw [hk])
        · exact Or.inl (List.mem_cons_of_mem _ hm)
      · rw [if_neg hab] at he
        exact Or.inl he
    · rw [if_neg hk] at he
      rcases List.mem_cons.mp he with rfl | hm
      · exact Or.inl (List.mem_cons_self _ _)
      · rcases ih e hm with h | h
        · exact Or.inl (List.mem_cons_of_mem _ h)
        · exact Or.inr h

/-- Entries with other keys survive a priority push. -/
theorem pi_other {q : List (RobotPositions × MoveCounter)} {x : RobotPositions}
    {c : MoveCounter} :
    ∀ e ∈ q, (e : RobotPositions × MoveCounter).1 ≠ x →
      e ∈ push_increase q x c := by
  induction q with
  | nil =>
    intro e he
    cases he
  | cons kv rest ih =>
    intro e he hne
    obtain ⟨k, v⟩ := kv
    simp only [push_increase]
    by_cases hk : k = x
    · rw [if_pos hk]
      rcases List.mem_cons.mp he with rfl | hm
      · exact absurd hk hne
      · by_cases hab : c.isAbove v = true
        · rw [if_pos hab]
          exact List.mem_cons_of_mem _ hm
        · rw [if_neg hab]
          exact List.mem_cons_of_mem _ hm
    · rw [if_neg hk]
      rcases List.mem_cons.mp he with rfl | hm
      · exact List.mem_cons_self _ _
      · exact List.mem_cons_of_mem _ (ih e hm hne)

/-- A push whose priority beats every resident entry for its key installs
its entry. -/
theorem pi_install {q : List (RobotPositions × MoveCounter)} {x : RobotPositions}
    {c : MoveCounter} (h : ∀ cold, (x, cold) ∈ q → c.isAbove cold = true) :
    (x, c) ∈ push_increase q x c := by
  induction q with
  | nil => exact List.mem_singleton.mpr rfl
  | cons kv rest ih =>
    obtain ⟨k, v⟩ := kv
    simp only [push_increase]
    by_cases hk : k = x
    · rw [if_pos hk]
      have hab : c.isAbove v = true := h v (by rw [hk]; exact List.mem_cons_self _ _)
      rw [if_pos hab]
      rw [hk]
      exact List.mem_cons_self _ _
    · rw [if_neg hk]
      exact List.mem_cons_of_mem _ (ih fun cold hm => h cold (List.mem_cons_of_mem _ hm))

/-- A push that does not beat the resident entry keeps it. -/
theorem pi_keep {q : List (RobotPositions × MoveCounter)} {x : RobotPositions}
    {c cold : MoveCounter} (hnd : (q.map Prod.fst).Nodup) (hm : (x, cold) ∈ q)
    (hab : c.isAbove cold = false) : (x, cold) ∈ push_increase q x c := by
  induction q with
  | nil => cases hm
  | cons kv rest ih =>
    obtain ⟨k, v⟩ := kv
    simp only [List.map_cons, List.nodup_cons] at hnd
    simp only [push_increase]
    by_cases hk : k = x
    · subst hk
      have hv : cold = v := by
        rcases List.mem_cons.mp hm with he | hmem
        · exact congrArg Prod.snd he
        · exact absurd (List.mem_map.mpr ⟨(k, cold), hmem, rfl⟩) hnd.1
      subst hv
      rw [if_pos rfl, if_neg (by rw [hab]; exact Bool.false_ne_true)]
      exact List.mem_cons_self _ _
    · rw [if_neg hk]
      rcases List.mem_cons.mp hm with he | hmem
      · exact absurd (congrArg Prod.fst he).symm hk
      · exact List.mem_cons_of_mem _ (ih hnd.2 hmem)

/-- A priority push grows the queue by at most one entry. -/
theorem pi_length (q : List (RobotPositions × MoveCounter)) (x : RobotPositions)
    (c : MoveCounter) : (push_increase q x c).length ≤ q.length + 1 := by
  induction q with
  | nil => exact Nat.le_refl 1
  | cons kv rest ih =>
    obtain ⟨k, v⟩ := kv
    simp only [push_increase]
    by_cases hk : k = x
    · rw [if_pos hk]
      by_cases hab : c.isAbove v = true
      · rw [if_pos hab]
        simp
      · rw [if_neg hab]
        simp
    · rw [if_neg hk]
      simp only [List.length_cons]
      omega

/-- A priority push keeps the key list or appends the fresh key. -/
theorem pi_keys (q : List (RobotPositions × MoveCounter)) (x : RobotPositions)
    (c : MoveCounter) :
    ((push_increase q x c).map Prod.fst = q.map Prod.fst) ∨
      ((push_increase q x c).map Prod.fst = q.map Prod.fst ++ [x] ∧
        x ∉ q.map Prod.fst) := by
  induction q with
  | nil => exact Or.inr ⟨rfl, by simp⟩
  | cons kv rest ih =>
    obtain ⟨k, v⟩ := kv
    simp only [push_increase]
    by_cases hk : k = x
    · refine Or.inl ?_
      rw [if_pos hk]
      by_cases hab : c.isAbove v = true
      · rw [if_pos hab]
        simp
      · rw [if_neg hab]
    · rw [if_neg hk]
      rcases ih with h | ⟨h, hnot⟩
      · refine Or.inl ?_
        simp only [List.map_cons]
        rw [h]
      · refine Or.inr ⟨?_, ?_⟩
        · simp only [List.map_cons, List.cons_append]
          rw [h]
        · simp only [List.map_cons, List.mem_cons]
          rintro (he | he)
          · exact hk he.symm
          · exact hnot he

/-- The discarded arm of the successor body: the state is untouched. -/
theorem aStar_succ_discard (round : Round) (mb : LeastMovesBoard)
    (st : AStarState) (from_pos : RobotPositions) (prio : MoveCounter)
    (pos : RobotPositions) (m : Robot × Direction) {occ : BasicVisitedNode}
    (hocc : st.visited.get pos = some occ)
    (hle : occ.moves_to_reach ≤ prio.from_start + 1) :
    aStarHandleSuccessor round mb st from_pos prio pos m = st := by
  simp only [aStarHandleSuccessor]
  rw [add_node_better_eq hocc from_pos hle]
  rfl

/-- The goal-update arm of the successor body. -/
theorem aStar_succ_win_update (round : Round) (mb : LeastMovesBoard)
    (st : AStarState) (from_pos : RobotPositions) (prio : MoveCounter)
    (pos : RobotPositions) (m : Robot × Direction) {t : VisitedNodes}
    {o : AddNodeOutcome}
    (hadd : st.visited.add_node pos from_pos (prio.from_start + 1) m = (t, o))
    (ho : o.was_added = true) (hwin : round.target_reached pos = true)
    (hlt : mb.min_moves pos round.target < st.found_minimum) :
    aStarHandleSuccessor round mb st from_pos prio pos m =
      { visited := t, open_list := st.open_list,
        found_minimum := prio.from_start + 1, found_final_position := pos } := by
  have hdisc : o.was_discarded = false := by
    cases o
    · rfl
    · rfl
    · exact absurd ho (by simp [AddNodeOutcome.was_added])
  simp only [aStarHandleSuccessor, hadd]
  rw [if_neg (by rw [hdisc]; exact Bool.false_ne_true), if_pos hwin, if_pos hlt]

/-- The goal arm without an update: only the table changes. -/
theorem aStar_succ_win_keep (round : Round) (mb : LeastMovesBoard)
    (st : AStarState) (from_pos : RobotPositions) (prio : MoveCounter)
    (pos : RobotPositions) (m : Robot × Direction) {t : VisitedNodes}
    {o : AddNodeOutcome}
    (hadd : st.visited.add_node pos from_pos (prio.from_start + 1) m = (t, o))
    (ho : o.was_added = true) (hwin : round.target_reached pos = true)
    (hge : ¬ mb.min_moves pos round.target < st.found_minimum) :
    aStarHandleSuccessor round mb st from_pos prio pos m =
      { st with visited := t } := by
  have hdisc : o.was_discarded = false := by
    cases o
    · rfl
    · rfl
    · exact absurd ho (by simp [AddNodeOutcome.was_added])
  simp only [aStarHandleSuccessor, hadd]
  rw [if_neg (by rw [hdisc]; exact Bool.false_ne_true), if_pos hwin, if_neg hge]

/-- The non-goal arm: the table changes and the successor is pushed. -/
theorem aStar_succ_push (round : Round) (mb : LeastMovesBoard)
    (st : AStarState) (from_pos : RobotPositions) (prio : MoveCounter)
    (pos : RobotPositions) (m : Robot × Direction) {t : VisitedNodes}
    {o : AddNodeOutcome}
    (hadd : st.visited.add_node pos from_pos (prio.from_start + 1) m = (t, o))
    (ho : o.was_added = true) (hwin : round.target_reached pos = false) :
    aStarHandleSuccessor round mb st from_pos prio pos m =
      { st with
        visited := t
        open_list := push_increase st.open_list pos
          (MoveCounter.new (prio.from_start + 1)
            (mb.min_moves pos round.target)) } := by
  have hdisc : o.was_discarded = false := by
    cases o
    · rfl
    · rfl
    · exact absurd ho (by simp [AddNodeOutcome.was_added])
  simp only [aStarHandleSuccessor, hadd]
  rw [if_neg (by rw [hdisc]; exact Bool.false_ne_true),
    if_neg (by rw [hwin]; exact Bool.false_ne_true)]

/-- With distinct keys, an entry of the pushed queue whose key is the pushed
key is the new entry, unless the resident entry kept its place. -/
theorem pi_mem_key {q : List (RobotPositions × MoveCounter)} {x : RobotPositions}
    {c : MoveCounter} (hnd : (q.map Prod.fst).Nodup) :
    ∀ e ∈ push_increase q x c, (e : RobotPositions × MoveCounter).1 = x →
      e = (x, c) ∨ (e ∈ q ∧ c.isAbove e.2 = false) := by
  induction q with
  | nil =>
    intro e he _
    exact Or.inl (List.mem_singleton.mp he)
  | cons kv rest ih =>
    intro e he hkey
    obtain ⟨k, v⟩ := kv
    simp only [List.map_cons, List.nodup_cons] at hnd
    simp only [push_increase] at he
    by_cases hk : k = x
    · subst hk
      have hrest : e ∉ rest := by
        intro hm
        exact hnd.1 (by rw [← hkey]; exact List.mem_map.mpr ⟨e, hm, rfl⟩)
      rw [if_pos rfl] at he
      by_cases hab : c.isAbove v = true
      · rw [if_pos hab] at he
        rcases List.mem_cons.mp he with rfl | hm
        · exact Or.inl rfl
        · exact absurd hm hrest
      · rw [if_neg hab] at he
        rcases List.mem_cons.mp he with rfl | hm
        · exact Or.inr ⟨List.mem_cons_self _ _, Bool.eq_false_iff.mpr hab⟩
        · exact absurd hm hrest
    · rw [if_neg hk] at he
      rcases List.mem_cons.mp he with rfl | hm
      · exact absurd hkey hk
      · rcases ih hnd.2 e hm hkey with h | ⟨h1, h2⟩
        · exact Or.inl h
        · exact Or.inr ⟨List.mem_cons_of_mem _ h1, h2⟩

/-- Appending a fresh element keeps a list duplicate-free. -/
theorem nodup_append_singleton {α : Type} {l : List α} {x : α} (hnd : l.Nodup)
    (hx : x ∉ l) : (l ++ [x]).Nodup := by
  simp [List.nodup_append, hnd, hx]

/-- With distinct keys, an association list is a partial function. -/
theorem mem_unique_of_nodup {α β : Type} {l : List (α × β)}
    (hnd : (l.map Prod.fst).Nodup) {k : α} {a b : β}
    (ha : (k, a) ∈ l) (hb : (k, b) ∈ l) : a = b := by
  induction l with
  | nil => cases ha
  | cons kv rest ih =>
    obtain ⟨k0, v0⟩ := kv
    simp only [List.map_cons, List.nodup_cons] at hnd
    rcases List.mem_cons.mp ha with h1 | h1 <;> rcases List.mem_cons.mp hb with h2 | h2
    · exact (congrArg Prod.snd h1).trans (congrArg Prod.snd h2).symm
    · exfalso
      have hk : k0 = k := (congrArg Prod.fst h1).symm
      subst hk
      exact hnd.1 (List.mem_map.mpr ⟨(k0, b), h2, rfl⟩)
    · exfalso
      have hk : k0 = k := (congrArg Prod.fst h2).symm
      subst hk
      exact hnd.1 (List.mem_map.mpr ⟨(k0, a), h1, rfl⟩)
    · exact ih hnd.2 h1 h2

/-- Admissibility of the heuristic, phrased on the round itself. -/
theorem aStar_adm (round : Round)
    (htp : round.target_position.InBounds round.board.side_length)
    (x : RobotPositions) (hxin : ∀ rb, (x.get rb).InBounds round.board.side_length)
    (ws : List (Robot × Direction))
    (hw : round.target_reached (applyMoves round.board x ws) = true) :
    (LeastMovesBoard.new round.board round.target_position).min_moves x
      round.target ≤ ws.length :=
  (heuristic_le_moves round.board round.target round.target_position htp ws x
    hxin hw).1

/-- The heuristic is positive on non-winning states. -/
theorem aStar_h_pos (round : Round)
    (htp : round.target_position.InBounds round.board.side_length)
    (x : RobotPositions) (hnw : round.target_reached x = false) :
    1 ≤ (LeastMovesBoard.new round.board round.target_position).min_moves x
      round.target := by
  have hs : 0 < round.board.side_length :=
    Nat.lt_of_le_of_lt (Nat.zero_le _) htp.1
  by_contra hc
  have h0 : (LeastMovesBoard.new round.board round.target_position).min_moves x
      round.target = 0 := by omega
  have hw := min_moves_zero_win hs h0
  rw [show Round.new round.board round.target round.target_position = round
    from rfl, hnw] at hw
  exact Bool.noConfusion hw

/-- Properly reachable states are in bounds. -/
theorem reachIn_inBounds (round : Round) (start : RobotPositions)
    (hin : ∀ rb, (start.get rb).InBounds round.board.side_length)
    {j : Nat} {x : RobotPositions} (h : ReachIn round.board start j x) :
    ∀ rb, (x.get rb).InBounds round.board.side_length := by
  obtain ⟨ms, hms, _⟩ := reachIn_exists_moves h
  rw [← hms]
  exact applyMoves_preserves_inBounds ms start hin

/-- A sound A* table cannot outgrow the state space. -/
theorem ARec_len_le (round : Round) (start : RobotPositions)
    (hin : ∀ rb, (start.get rb).InBounds round.board.side_length)
    {V : VisitedNodes} (hrec : ARecOK round start V) :
    V.length ≤ stateBound round.board.side_length := by
  obtain ⟨hok, hbnd, hnd⟩ := hrec
  refine keys_length_le hnd ?_
  intro kv hkv r
  have hget := mem_get_of_nodup hnd hkv
  obtain ⟨j, h1, h2, hr⟩ := table_sound hok kv.2.moves_to_reach kv.1 kv.2 hget
    (Nat.le_refl _)
  exact reachIn_inBounds round start hin hr r

/-- A winning successor of a matched popped node bounds the optimum from
above: the new cost is at least the optimum. -/
theorem aStar_g_ge_L (round : Round) (start : RobotPositions)
    (moves : List (Robot × Direction))
    (hopt : ∀ ms : List (Robot × Direction),
      round.target_reached (applyMoves round.board start ms) = true →
      moves.length ≤ ms.length)
    {V : VisitedNodes} (hok : TableOK round.board start V)
    {from_pos pos : RobotPositions} {prio : MoveCounter} {m : Robot × Direction}
    (hfp : FpMatch start V from_pos prio)
    (hstep : StepTo round.board from_pos m pos)
    (hwinp : round.target_reached pos = true) :
    moves.length ≤ prio.from_start + 1 := by
  have hreach : ∃ j, j ≤ prio.from_start ∧ ReachIn round.board start j from_pos := by
    rcases hfp with ⟨hfs, h0⟩ | ⟨n, hget, hcost⟩
    · exact ⟨0, Nat.zero_le _, by rw [hfs]; exact ReachIn.base⟩
    · obtain ⟨j, _, hj2, hr⟩ := table_sound hok n.moves_to_reach from_pos n hget
        (Nat.le_refl _)
      exact ⟨j, by omega, hr⟩
  obtain ⟨j, hjle, hr⟩ := hreach
  obtain ⟨ms, hms, hlen⟩ := reachIn_exists_moves (ReachIn.step hr hstep)
  have := hopt ms (by rw [hms]; exact hwinp)
  omega

/-- An accepted `add_node` call of the A* successor body keeps the table
invariant, installs the new cost, touches no other key, and pays for itself
in the termination potential. -/
theorem aStar_add_ok (round : Round) (start : RobotPositions)
    {V t : VisitedNodes} {o : AddNodeOutcome}
    (hrec : ARecOK round start V)
    (hlenB : V.length ≤ stateBound round.board.side_length)
    {from_pos pos : RobotPositions} {prio : MoveCounter} {m : Robot × Direction}
    (hfp : FpMatch start V from_pos prio)
    (hstep : StepTo round.board from_pos m pos)
    (hadd : V.add_node pos from_pos (prio.from_start + 1) m = (t, o))
    (ho : o.was_added = true) :
    ARecOK round start t ∧
    (∃ nd, t.get pos = some nd ∧ nd.moves_to_reach = prio.from_start + 1) ∧
    (∀ x, x ≠ pos → t.get x = V.get x) ∧
    RecMono V t ∧
    (stateBound round.board.side_length + 1 - t.length) *
        (stateBound round.board.side_length + 2) + sumCosts t + 1 ≤
      (stateBound round.board.side_length + 1 - V.length) *
        (stateBound round.board.side_length + 2) + sumCosts V := by
  obtain ⟨hok, hbnd, hnd⟩ := hrec
  have hfrom_le : prio.from_start ≤ V.length := by
    rcases hfp with ⟨_, h0⟩ | ⟨n, hget, hcost⟩
    · omega
    · have := hbnd from_pos n hget
      omega
  have hone : prio.from_start + 1 = 1 → from_pos = start := by
    intro h1
    rcases hfp with ⟨hfs, _⟩ | ⟨n, hget, hcost⟩
    · exact hfs
    · have := (hok from_pos n hget).2.1
      omega
  have hchain : 2 ≤ prio.from_start + 1 →
      ∃ ns, V.get from_pos = some ns ∧ ns.moves_to_reach < prio.from_start + 1 := by
    intro h2
    rcases hfp with ⟨_, h0⟩ | ⟨n, hget, hcost⟩
    · omega
    · exact ⟨n, hget, by omega⟩
  rcases hget0 : V.get pos with _ | occ
  · rw [add_node_new_eq hget0 from_pos (prio.from_start + 1) m] at hadd
    have ht : (pos, BasicVisitedNode.new (prio.from_start + 1) from_pos m) :: V =
        t := congrArg Prod.fst hadd
    obtain rfl := ht
    refine ⟨⟨?_, ?_, ?_⟩, ?_, ?_, ?_, ?_⟩
    · exact @tableOK_add_new round.board start V hok pos from_pos m
        (prio.from_start + 1) hget0 hstep (by omega) hone hchain
    · intro x n2 hx
      rw [get_cons] at hx
      by_cases hpx : pos = x
      · rw [if_pos hpx] at hx
        obtain rfl := Option.some.inj hx
        show prio.from_start + 1 ≤ _
        simp only [List.length_cons]
        omega
      · rw [if_neg hpx] at hx
        have := hbnd x n2 hx
        simp only [List.length_cons]
        omega
    · simp only [List.map_cons]
      exact List.nodup_cons.mpr ⟨get_none_not_mem_keys hget0, hnd⟩
    · refine ⟨BasicVisitedNode.new (prio.from_start + 1) from_pos m, ?_, rfl⟩
      rw [get_cons, if_pos rfl]
    · intro x hxp
      rw [get_cons, if_neg fun he => hxp he.symm]
    · intro x n hx
      have hxp : ¬ pos = x := by
        intro he
        rw [← he, hget0] at hx
        exact Option.noConfusion hx
      refine ⟨n, ?_, Nat.le_refl _⟩
      rw [get_cons, if_neg hxp]
      exact hx
    · have hlc : ((pos, BasicVisitedNode.new (prio.from_start + 1) from_pos m) ::
          V).length = V.length + 1 := rfl
      have hsc : sumCosts ((pos, BasicVisitedNode.new (prio.from_start + 1)
          from_pos m) :: V) = (prio.from_start + 1) + sumCosts V := by
        rw [sumCosts_cons]
        rfl
      rw [hlc, hsc]
      have h2 : stateBound round.board.side_length + 1 - (V.length + 1) =
          stateBound round.board.side_length - V.length := by omega
      have h1 : stateBound round.board.side_length + 1 - V.length =
          (stateBound round.board.side_length - V.length) + 1 := by omega
      rw [h2, h1, Nat.succ_mul]
      omega
  · by_cases hcmp : occ.moves_to_reach ≤ prio.from_start + 1
    · rw [add_node_better_eq hget0 from_pos hcmp m] at hadd
      have hoeq : AddNodeOutcome.BetterKnown = o := congrArg Prod.snd hadd
      rw [← hoeq] at ho
      exact absurd ho (by simp [AddNodeOutcome.was_added])
    · have hlt2 : prio.from_start + 1 < occ.moves_to_reach := by omega
      rw [add_node_worse_eq hget0 from_pos hlt2 m] at hadd
      have ht : V.overwrite pos (BasicVisitedNode.new (prio.from_start + 1)
          from_pos m) = t := congrArg Prod.fst hadd
      obtain rfl := ht
      have hlen : (V.overwrite pos (BasicVisitedNode.new (prio.from_start + 1)
          from_pos m)).length = V.length := by
        rw [show (V.overwrite pos (BasicVisitedNode.new (prio.from_start + 1)
            from_pos m)).length = ((V.overwrite pos
            (BasicVisitedNode.new (prio.from_start + 1) from_pos m)).map
            Prod.fst).length from (List.length_map _ _).symm,
          overwrite_keys, List.length_map]
      refine ⟨⟨?_, ?_, ?_⟩, ?_, ?_, ?_, ?_⟩
      · exact @tableOK_overwrite_lower round.board start V hok pos from_pos m
          (prio.from_start + 1) occ hget0 hlt2 hstep (by omega) hone hchain
      · intro x n2 hx
        rw [hlen]
        by_cases hxp : x = pos
        · subst hxp
          rw [overwrite_get hget0 _] at hx
          obtain rfl := Option.some.inj hx
          show prio.from_start + 1 ≤ _
          have := hbnd x occ hget0
          omega
        · rw [overwrite_get_other hxp _] at hx
          exact hbnd x n2 hx
      · rw [overwrite_keys]
        exact hnd
      · exact ⟨BasicVisitedNode.new (prio.from_start + 1) from_pos m,
          overwrite_get hget0 _, rfl⟩
      · intro x hxp
        exact overwrite_get_other hxp _
      · intro x n hx
        by_cases hxp : x = pos
        · subst hxp
          rw [hget0] at hx
          obtain rfl := Option.some.inj hx
          exact ⟨BasicVisitedNode.new (prio.from_start + 1) from_pos m,
            overwrite_get hget0 _, by show prio.from_start + 1 ≤ _; omega⟩
        · exact ⟨n, by rw [overwrite_get_other hxp _]; exact hx, Nat.le_refl _⟩
      · have hsum := sumCosts_overwrite hget0
          (BasicVisitedNode.new (prio.from_start + 1) from_pos m)
        have hnd_cost : (BasicVisitedNode.new (prio.from_start + 1) from_pos
            m).moves_to_reach = prio.from_start + 1 := rfl
        rw [hnd_cost] at hsum
        rw [hlen]
        omega

/-- Coverage survives cost-improving table extensions. -/
theorem covered_mono {round : Round} {V V2 : VisitedNodes} {x : RobotPositions}
    {c : Nat} (h : Covered round V x c) (hm : RecMono V V2) :
    Covered round V2 x c := by
  intro pm hpm
  obtain ⟨h1, n2, hg, hle⟩ := h pm hpm
  obtain ⟨n3, hg3, hle3⟩ := hm pm.1 n2 hg
  exact ⟨h1, n3, hg3, by omega⟩

/-- One successor step of the `AStar::solve` fold preserves the fold
invariant, improves the table monotonically, does not raise the potential,
preserves a settled state, and (while still pending) leaves the successor
refuted at the new cost. -/
theorem aStar_fold_step (round : Round) (start : RobotPositions)
    (moves : List (Robot × Direction))
    (htp : round.target_position.InBounds round.board.side_length)
    (hin : ∀ rb, (start.get rb).InBounds round.board.side_length)
    (hopt : ∀ ms : List (Robot × Direction),
      round.target_reached (applyMoves round.board start ms) = true →
      moves.length ≤ ms.length)
    (hL1 : 1 ≤ moves.length) (hLmax : moves.length < USIZE_MAX)
    (mb : LeastMovesBoard)
    (hmb : mb = LeastMovesBoard.new round.board round.target_position)
    {from_pos pos : RobotPositions} {prio : MoveCounter} {m : Robot × Direction}
    (st st2 : AStarState)
    (hmid : FoldMid round mb start from_pos prio moves.length st)
    (hstep : StepTo round.board from_pos m pos)
    (hprioL : prio.total ≤ moves.length)
    (hst2 : aStarHandleSuccessor round mb st from_pos prio pos m = st2) :
    FoldMid round mb start from_pos prio moves.length st2 ∧
    RecMono st.visited st2.visited ∧
    aPhi round.board.side_length st2 ≤ aPhi round.board.side_length st ∧
    (DoneSt round moves.length st → DoneSt round moves.length st2) ∧
    (PendingMid round start from_pos st2 →
      round.target_reached pos = false ∧
      ∃ n2, st2.visited.get pos = some n2 ∧
        n2.moves_to_reach ≤ prio.from_start + 1) := by
  subst hmb
  obtain ⟨hrec, hopen, hond, hfp, hfpnw, htot, hdp⟩ := hmid
  have hlenB := ARec_len_le round start hin hrec
  have hh1 := aStar_h_pos round htp from_pos hfpnw
  have hg'le : prio.from_start + 1 ≤ moves.length := by omega
  by_cases hdisc : ∃ occ, st.visited.get pos = some occ ∧
      occ.moves_to_reach ≤ prio.from_start + 1
  · obtain ⟨occ, hocc, hle⟩ := hdisc
    have hsteq : st2 = st := by
      rw [← hst2, aStar_succ_discard round
        (LeastMovesBoard.new round.board round.target_position) st from_pos prio
        pos m hocc hle]
    subst hsteq
    exact ⟨⟨hrec, hopen, hond, hfp, hfpnw, htot, hdp⟩,
      fun x n h => ⟨n, h, Nat.le_refl _⟩, Nat.le_refl _, fun hd => hd,
      fun hp => ⟨hp.2.1 pos occ hocc, occ, hocc, hle⟩⟩
  · have hOld : st.visited.get pos = none ∨ ∃ occ, st.visited.get pos = some occ ∧
        prio.from_start + 1 < occ.moves_to_reach := by
      rcases hg : st.visited.get pos with _ | occ
      · exact Or.inl rfl
      · right
        refine ⟨occ, rfl, ?_⟩
        by_contra hc
        exact hdisc ⟨occ, hg, by omega⟩
    rcases hadd : st.visited.add_node pos from_pos (prio.from_start + 1) m
      with ⟨t, o⟩
    have ho : o.was_added = true := by
      rcases hOld with hg | ⟨occ, hg, hlt⟩
      · have hadd2 := hadd
        rw [add_node_new_eq hg from_pos (prio.from_start + 1) m] at hadd2
        have hoe : AddNodeOutcome.New = o := congrArg Prod.snd hadd2
        rw [← hoe]
        rfl
      · have hadd2 := hadd
        rw [add_node_worse_eq hg from_pos hlt m] at hadd2
        have hoe : AddNodeOutcome.WorseKnown = o := congrArg Prod.snd hadd2
        rw [← hoe]
        rfl
    obtain ⟨hrec2, ⟨nd, hndget, hndcost⟩, hother, hmono, hphiV⟩ :=
      aStar_add_ok round start hrec hlenB hfp hstep hadd ho
    have hfpne : from_pos ≠ pos := fun he => hstep.2 he.symm
    have hfp2 : FpMatch start t from_pos prio := by
      rcases hfp with h | ⟨n, hg, hc⟩
      · exact Or.inl h
      · exact Or.inr ⟨n, by rw [hother from_pos hfpne]; exact hg, hc⟩
    cases hwinp : round.target_reached pos with
    | true =>
      have hzero : (LeastMovesBoard.new round.board
          round.target_position).min_moves pos round.target = 0 :=
        min_moves_of_win htp hwinp
      have hUM : 0 < USIZE_MAX := by
        show 0 < 2 ^ 64 - 1
        norm_num
      have hbestpos : 0 < st.found_minimum := by
        rcases hdp with hd | hp
        · have h3 := hd.2.2
          omega
        · rw [hp.1]
          exact hUM
      have hlt : (LeastMovesBoard.new round.board
          round.target_position).min_moves pos round.target <
          st.found_minimum := by
        rw [hzero]
        exact hbestpos
      have hsteq : st2 = AStarState.mk t st.open_list (prio.from_start + 1)
          pos := by
        rw [← hst2, aStar_succ_win_update round
          (LeastMovesBoard.new round.board round.target_position) st from_pos
          prio pos m hadd ho hwinp hlt]
      subst hsteq
      have hgeL := aStar_g_ge_L round start moves hopt hrec.1 hfp hstep hwinp
      have hgL : prio.from_start + 1 = moves.length := le_antisymm hg'le hgeL
      have hdone : DoneSt round moves.length (AStarState.mk t st.open_list
          (prio.from_start + 1) pos) := ⟨hwinp, ⟨nd, hndget, hndcost⟩, hgL⟩
      refine ⟨⟨hrec2, ?_, hond, hfp2, hfpnw, htot, Or.inl hdone⟩, hmono, ?_,
        fun _ => hdone, ?_⟩
      · intro e hmem
        obtain ⟨he1, he2, he3⟩ := hopen e hmem
        have hep : e.1 ≠ pos := by
          intro hk
          rw [hk, hwinp] at he2
          exact Bool.noConfusion he2
        refine ⟨he1, he2, ?_⟩
        rcases he3 with h | ⟨n0, hg, hc⟩
        · exact Or.inl h
        · exact Or.inr ⟨n0, by rw [hother e.1 hep]; exact hg, hc⟩
      · simp only [aPhi]
        omega
      · intro hpend
        exfalso
        have hmax : prio.from_start + 1 = USIZE_MAX := hpend.1
        omega
    | false =>
      have hsteq : st2 = AStarState.mk t
          (push_increase st.open_list pos
            (MoveCounter.new (prio.from_start + 1)
              ((LeastMovesBoard.new round.board
                round.target_position).min_moves pos round.target)))
          st.found_minimum st.found_final_position := by
        rw [← hst2, aStar_succ_push round
          (LeastMovesBoard.new round.board round.target_position) st from_pos
          prio pos m hadd ho hwinp]
      subst hsteq
      set c' : MoveCounter := MoveCounter.new (prio.from_start + 1)
        ((LeastMovesBoard.new round.board round.target_position).min_moves pos
          round.target) with hc'def
      have hc'from : c'.from_start = prio.from_start + 1 := rfl
      have hc'tot : c'.total = (prio.from_start + 1) +
          (LeastMovesBoard.new round.board round.target_position).min_moves pos
            round.target := rfl
      have hcovmono : ∀ x c, Covered round st.visited x c → Covered round t x c :=
        fun x c hc => covered_mono hc hmono
      have habove : ∀ cold : MoveCounter, (pos, cold) ∈ st.open_list →
          c'.isAbove cold = true ∨ (pos = start ∧ cold.from_start = 0) := by
        intro cold hmem
        obtain ⟨h1, h2, h3⟩ := hopen (pos, cold) hmem
        have h1b : cold.total = cold.from_start +
            (LeastMovesBoard.new round.board round.target_position).min_moves
              pos round.target := h1
        rcases h3 with ⟨hps, hz⟩ | ⟨n0, hg0, hc0⟩
        · exact Or.inr ⟨hps, hz⟩
        · left
          have hg0b : st.visited.get pos = some n0 := hg0
          rcases hOld with hg | ⟨occ, hg, hlt⟩
          · rw [hg] at hg0b
            exact Option.noConfusion hg0b
          · rw [hg] at hg0b
            have hoe : occ = n0 := Option.some.inj hg0b
            have hoe2 : occ.moves_to_reach = n0.moves_to_reach := by rw [hoe]
            have hc0b : n0.moves_to_reach = cold.from_start := hc0
            rw [isAbove_true_iff]
            left
            rw [hc'tot, h1b]
            omega
      have hdone_pres : DoneSt round moves.length st →
          DoneSt round moves.length (AStarState.mk t
            (push_increase st.open_list pos c') st.found_minimum
            st.found_final_position) := by
        intro hd
        obtain ⟨hd1, ⟨n1, hg1, hcost1⟩, hd3⟩ := hd
        have hfinp : st.found_final_position ≠ pos := by
          intro he
          rw [he, hwinp] at hd1
          exact Bool.noConfusion hd1
        exact ⟨hd1, ⟨n1, by rw [hother _ hfinp]; exact hg1, hcost1⟩, hd3⟩
      refine ⟨⟨hrec2, ?_, ?_, hfp2, hfpnw, htot, ?_⟩, hmono, ?_, hdone_pres,
        ?_⟩
      · intro e hmem
        by_cases hkey : e.1 = pos
        · rcases pi_mem_key hond e hmem hkey with rfl | ⟨hold, hab⟩
          · refine ⟨rfl, hwinp, Or.inr ⟨nd, hndget, ?_⟩⟩
            rw [hndcost, hc'from]
          · have hold2 : (pos, e.2) ∈ st.open_list := by
              rw [← hkey]
              exact hold
            rcases habove e.2 hold2 with hab2 | ⟨hps, hz⟩
            · rw [hab2] at hab
              exact Bool.noConfusion hab
            · obtain ⟨h1, h2, h3⟩ := hopen e hold
              exact ⟨h1, h2, Or.inl ⟨by rw [hkey, hps], hz⟩⟩
        · have hold : e ∈ st.open_list := by
            rcases pi_mem e hmem with h | h
            · exact h
            · exact absurd (congrArg Prod.fst h) hkey
          obtain ⟨h1, h2, h3⟩ := hopen e hold
          refine ⟨h1, h2, ?_⟩
          rcases h3 with h | ⟨n0, hg, hc⟩
          · exact Or.inl h
          · exact Or.inr ⟨n0, by rw [hother e.1 hkey]; exact hg, hc⟩
      · rcases pi_keys st.open_list pos c' with h | ⟨h, hnotin⟩
        · show (List.map Prod.fst (push_increase st.open_list pos c')).Nodup
          rw [h]
          exact hond
        · show (List.map Prod.fst (push_increase st.open_list pos c')).Nodup
          rw [h]
          exact nodup_append_singleton hond hnotin
      · rcases hdp with hd | hp
        · exact Or.inl (hdone_pres hd)
        · right
          refine ⟨hp.1, ?_, ?_, ?_⟩
          · intro x n hx
            by_cases hxp : x = pos
            · subst hxp
              exact hwinp
            · rw [hother x hxp] at hx
              exact hp.2.1 x n hx
          · rcases hp.2.2.1 with h | ⟨cy0, hm0, hz0⟩ | hcov
            · exact Or.inl h
            · right
              left
              refine ⟨cy0, ?_, hz0⟩
              by_cases hsp : start = pos
              · have h1b : cy0.total = cy0.from_start +
                    (LeastMovesBoard.new round.board
                      round.target_position).min_moves start round.target :=
                  (hopen (start, cy0) hm0).1
                have hab2 : c'.isAbove cy0 = false := by
                  apply isAbove_false_of_le
                  left
                  rw [hc'tot, h1b, ← hsp]
                  omega
                have hm0b : (pos, cy0) ∈ st.open_list := by
                  rw [← hsp]
                  exact hm0
                have hkeep := pi_keep hond hm0b hab2
                rw [hsp]
                exact hkeep
              · exact pi_other (start, cy0) hm0 hsp
            · exact Or.inr (Or.inr (hcovmono _ _ hcov))
          · intro x n hx
            by_cases hxp : x = pos
            · have hx2 : t.get pos = some n := by
                rw [← hxp]
                exact hx
              have hn : nd = n := by
                rw [hndget] at hx2
                exact Option.some.inj hx2
              right
              left
              rw [hxp]
              by_cases hex : ∃ cold, (pos, cold) ∈ st.open_list
              · obtain ⟨cold, hcm⟩ := hex
                rcases habove cold hcm with hab | ⟨hps, hz⟩
                · have hinst : (pos, c') ∈ push_increase st.open_list pos c' := by
                    apply pi_install
                    intro cold2 hm2
                    rw [mem_unique_of_nodup hond hm2 hcm]
                    exact hab
                  refine ⟨c', hinst, ?_⟩
                  rw [hc'from, ← hn, hndcost]
                · have h1b : cold.total = cold.from_start +
                      (LeastMovesBoard.new round.board
                        round.target_position).min_moves pos round.target :=
                    (hopen (pos, cold) hcm).1
                  have hab2 : c'.isAbove cold = false := by
                    apply isAbove_false_of_le
                    left
                    rw [hc'tot, h1b]
                    omega
                  have hkeep := pi_keep hond hcm hab2
                  refine ⟨cold, hkeep, ?_⟩
                  rw [hz, ← hn, hndcost]
                  omega
              · have hinst : (pos, c') ∈ push_increase st.open_list pos c' := by
                  apply pi_install
                  intro cold2 hm2
                  exact absurd ⟨cold2, hm2⟩ hex
                refine ⟨c', hinst, ?_⟩
                rw [hc'from, ← hn, hndcost]
            · rw [hother x hxp] at hx
              rcases hp.2.2.2 x n hx with h | ⟨cy, hm, hle⟩ | ⟨c2, hc2, hcov⟩
              · exact Or.inl h
              · exact Or.inr (Or.inl ⟨cy, pi_other (x, cy) hm hxp, hle⟩)
              · exact Or.inr (Or.inr ⟨c2, hc2, hcovmono _ _ hcov⟩)
      · simp only [aPhi]
        have hpl := pi_length st.open_list pos c'
        omega
      · intro hpend
        refine ⟨rfl, nd, hndget, ?_⟩
        rw [hndcost]

/-- Table improvement composes. -/
theorem recMono_trans {V1 V2 V3 : VisitedNodes} (h1 : RecMono V1 V2)
    (h2 : RecMono V2 V3) : RecMono V1 V3 := by
  intro x n h
  obtain ⟨n2, hg2, hle2⟩ := h1 x n h
  obtain ⟨n3, hg3, hle3⟩ := h2 x n2 hg2
  exact ⟨n3, hg3, by omega⟩

/-- The successor fold of one pop preserves the fold invariant and the
potential, keeps a settled state settled, and — while still pending — leaves
every processed successor as a non-winning record of cost at most the new
cost. -/
theorem aStar_fold (round : Round) (start : RobotPositions)
    (moves : List (Robot × Direction))
    (htp : round.target_position.InBounds round.board.side_length)
    (hin : ∀ rb, (start.get rb).InBounds round.board.side_length)
    (hopt : ∀ ms : List (Robot × Direction),
      round.target_reached (applyMoves round.board start ms) = true →
      moves.length ≤ ms.length)
    (hL1 : 1 ≤ moves.length) (hLmax : moves.length < USIZE_MAX)
    (mb : LeastMovesBoard)
    (hmb : mb = LeastMovesBoard.new round.board round.target_position)
    {from_pos : RobotPositions} {prio : MoveCounter}
    (hprioL : prio.total ≤ moves.length) :
    ∀ (todo : List (RobotPositions × (Robot × Direction))) (st : AStarState),
      FoldMid round mb start from_pos prio moves.length st →
      (∀ pm ∈ todo, StepTo round.board from_pos
        (pm : RobotPositions × (Robot × Direction)).2 pm.1) →
      FoldMid round mb start from_pos prio moves.length
        (todo.foldl (fun acc pm => aStarHandleSuccessor round mb acc from_pos
          prio pm.1 pm.2) st) ∧
      RecMono st.visited
        (todo.foldl (fun acc pm => aStarHandleSuccessor round mb acc from_pos
          prio pm.1 pm.2) st).visited ∧
      aPhi round.board.side_length
        (todo.foldl (fun acc pm => aStarHandleSuccessor round mb acc from_pos
          prio pm.1 pm.2) st) ≤ aPhi round.board.side_length st ∧
      (DoneSt round moves.length st → DoneSt round moves.length
        (todo.foldl (fun acc pm => aStarHandleSuccessor round mb acc from_pos
          prio pm.1 pm.2) st)) ∧
      (PendingMid round start from_pos
        (todo.foldl (fun acc pm => aStarHandleSuccessor round mb acc from_pos
          prio pm.1 pm.2) st) →
        ∀ pm ∈ todo, round.target_reached
            (pm : RobotPositions × (Robot × Direction)).1 = false ∧
          ∃ n2, (todo.foldl (fun acc pm => aStarHandleSuccessor round mb acc
              from_pos prio pm.1 pm.2) st).visited.get pm.1 = some n2 ∧
            n2.moves_to_reach ≤ prio.from_start + 1) := by
  intro todo
  induction todo with
  | nil =>
    intro st hmid htodo
    exact ⟨hmid, fun x n h => ⟨n, h, Nat.le_refl _⟩, Nat.le_refl _,
      fun hd => hd, fun _ pm hpm => absurd hpm (List.not_mem_nil pm)⟩
  | cons pm rest ih =>
    intro st hmid htodo
    have hstep := htodo pm (List.mem_cons_self pm rest)
    obtain ⟨hmid1, hmono1, hphi1, hdone1, hpend1⟩ :=
      aStar_fold_step round start moves htp hin hopt hL1 hLmax mb hmb st
        (aStarHandleSuccessor round mb st from_pos prio pm.1 pm.2) hmid hstep
        hprioL rfl
    obtain ⟨hmid2, hmono2, hphi2, hdone2, hpend2⟩ :=
      ih (aStarHandleSuccessor round mb st from_pos prio pm.1 pm.2) hmid1
        (fun pm2 hpm2 => htodo pm2 (List.mem_cons_of_mem pm hpm2))
    rw [List.foldl_cons]
    refine ⟨hmid2, recMono_trans hmono1 hmono2, by omega, fun hd =>
      hdone2 (hdone1 hd), ?_⟩
    intro hpendf pm2 hpm2
    rcases List.mem_cons.mp hpm2 with rfl | hpm2b
    · have hpend_mid : PendingMid round start from_pos
          (aStarHandleSuccessor round mb st from_pos prio pm2.1 pm2.2) := by
        rcases hmid1.2.2.2.2.2.2 with hd | hp
        · exfalso
          have hdf := hdone2 hd
          have h1 := hpendf.1
          have h2 := hdf.2.2
          subst hmb
          omega
        · exact hp
      obtain ⟨hnw, n2, hg2, hle2⟩ := hpend1 hpend_mid
      obtain ⟨n3, hg3, hle3⟩ := hmono2 pm2.1 n2 hg2
      exact ⟨hnw, n3, hg3, by omega⟩
    · exact hpend2 hpendf pm2 hpm2b

/-- While the search is pending, the open queue holds a node on an optimal
path whose total does not exceed the optimum. -/
theorem aStar_good_open (round : Round) (start : RobotPositions)
    (moves : List (Robot × Direction))
    (htp : round.target_position.InBounds round.board.side_length)
    (hin : ∀ rb, (start.get rb).InBounds round.board.side_length)
    (hwin : round.target_reached (applyMoves round.board start moves) = true)
    (hopt : ∀ ms : List (Robot × Direction),
      round.target_reached (applyMoves round.board start ms) = true →
      moves.length ≤ ms.length)
    (hs0 : round.target_reached start = false)
    (st : AStarState)
    (hrec : ARecOK round start st.visited)
    (hopen : ∀ e ∈ st.open_list, AOpenEntry round
      (LeastMovesBoard.new round.board round.target_position) start
      st.visited e)
    (hpend : PendingInv round start st) :
    ∃ y cy, (y, cy) ∈ st.open_list ∧ cy.total ≤ moves.length := by
  have hmain : ∀ (i : Nat) (xi : RobotPositions),
      ReachIn round.board start i xi → i ≤ moves.length →
      WinExact round xi (moves.length - i) →
      (∃ y cy, (y, cy) ∈ st.open_list ∧ cy.total ≤ moves.length) ∨
      (∃ n, st.visited.get xi = some n ∧ n.moves_to_reach ≤ i ∧
        round.target_reached xi = false) ∨
      (xi = start ∧ Covered round st.visited start 0) := by
    intro i xi hr
    induction hr with
    | base =>
      intro hi hwx
      rcases hpend.2.2.1 with ⟨cy, hm, hz⟩ | hcov
      · left
        refine ⟨start, cy, hm, ?_⟩
        have h1 : cy.total = cy.from_start + (LeastMovesBoard.new round.board
            round.target_position).min_moves start round.target :=
          (hopen (start, cy) hm).1
        obtain ⟨ws, hws, hwl⟩ := hwx
        have hadm := aStar_adm round htp start hin ws hws
        omega
      · exact Or.inr (Or.inr ⟨rfl, hcov⟩)
    | @step n s1 m0 s2 h1 h2 ih =>
      intro hi hwx
      have hwx1 : WinExact round s1 (moves.length - n) := by
        obtain ⟨ms, hm, hl⟩ := hwx
        refine ⟨m0 :: ms, ?_, ?_⟩
        · rw [applyMoves_cons, ← h2.1]
          exact hm
        · simp only [List.length_cons]
          omega
      rcases ih (by omega) hwx1 with hg | ⟨n1, hg1, hle1, hnw1⟩ | ⟨hxs, hcov⟩
      · exact Or.inl hg
      · rcases hpend.2.2.2 s1 n1 hg1 with ⟨cy, hm, hle⟩ | ⟨c2, hc2, hcov⟩
        · left
          refine ⟨s1, cy, hm, ?_⟩
          have he1 : cy.total = cy.from_start + (LeastMovesBoard.new round.board
              round.target_position).min_moves s1 round.target :=
            (hopen (s1, cy) hm).1
          obtain ⟨ws, hws, hwl⟩ := hwx1
          have hadm := aStar_adm round htp s1
            (reachIn_inBounds round start hin h1) ws hws
          omega
        · have hpm : (s2, m0) ∈ s1.reachable_positions round.board :=
            (mem_reachable_iff round.board s1 (s2, m0)).mpr h2
          obtain ⟨hnw2, n2, hg2, hle2⟩ := hcov (s2, m0) hpm
          exact Or.inr (Or.inl ⟨n2, hg2, by omega, hnw2⟩)
      · have hpm : (s2, m0) ∈ start.reachable_positions round.board := by
          rw [← hxs]
          exact (mem_reachable_iff round.board s1 (s2, m0)).mpr h2
        obtain ⟨hnw2, n2, hg2, hle2⟩ := hcov (s2, m0) hpm
        exact Or.inr (Or.inl ⟨n2, hg2, by omega, hnw2⟩)
  obtain ⟨n0, hn0, hr0⟩ := moves_exists_reachIn round.board start moves
  obtain ⟨ms0, hms0, hl0⟩ := reachIn_exists_moves hr0
  have hLn0 : n0 = moves.length := by
    have := hopt ms0 (by rw [hms0]; exact hwin)
    omega
  rw [hLn0] at hr0
  rcases hmain moves.length (applyMoves round.board start moves) hr0
      (Nat.le_refl _) ⟨[], by simpa using hwin, by simp⟩
    with hg | ⟨n1, hg1, hle1, hnw1⟩ | ⟨hxs, hcov⟩
  · exact hg
  · rw [hwin] at hnw1
    exact Bool.noConfusion hnw1
  · rw [hxs] at hwin
    rw [hs0] at hwin
    exact Bool.noConfusion hwin

/-- With enough fuel measured by the potential, the `AStar::solve` loop ends
in a settled state with a sound table. -/
theorem aStarLoop_done (round : Round) (start : RobotPositions)
    (moves : List (Robot × Direction))
    (htp : round.target_position.InBounds round.board.side_length)
    (hin : ∀ rb, (start.get rb).InBounds round.board.side_length)
    (hwin : round.target_reached (applyMoves round.board start moves) = true)
    (hopt : ∀ ms : List (Robot × Direction),
      round.target_reached (applyMoves round.board start ms) = true →
      moves.length ≤ ms.length)
    (hs0 : round.target_reached start = false)
    (hLmax : moves.length < USIZE_MAX)
    (mb : LeastMovesBoard)
    (hmb : mb = LeastMovesBoard.new round.board round.target_position) :
    ∀ (fuel : Nat) (st : AStarState),
      AInv round mb start moves.length st →
      aPhi round.board.side_length st < fuel →
      ARecOK round start (aStarLoop round mb fuel st).visited ∧
      DoneSt round moves.length (aStarLoop round mb fuel st) := by
  subst hmb
  have hL1 : 1 ≤ moves.length := by
    rcases moves with _ | ⟨m0, rest0⟩
    · exfalso
      rw [show applyMoves round.board start [] = start from rfl, hs0] at hwin
      exact Bool.noConfusion hwin
    · simp
  intro fuel
  induction fuel with
  | zero =>
    intro st hA hphi
    omega
  | succ fuel ih =>
    intro st hA hphi
    obtain ⟨hrec, hopen, hond, hdp⟩ := hA
    rcases hpop : popMax st.open_list with _ | ⟨⟨from_pos, prio⟩, rest⟩
    · have hO : st.open_list = [] := popMax_none hpop
      have hres : aStarLoop round
          (LeastMovesBoard.new round.board round.target_position) (fuel + 1)
          st = st := by
        simp only [aStarLoop, hpop]
      rw [hres]
      refine ⟨hrec, ?_⟩
      rcases hdp with hd | hp
      · exact hd
      · exfalso
        obtain ⟨y, cy, hm, _⟩ := aStar_good_open round start moves htp hin hwin
          hopt hs0 st hrec hopen hp
        rw [hO] at hm
        exact absurd hm (List.not_mem_nil _)
    · have hperm := popMax_perm st.open_list (from_pos, prio) rest hpop
      have hmem : (from_pos, prio) ∈ st.open_list :=
        hperm.mem_iff.mpr (List.mem_cons_self _ _)
      obtain ⟨hfpt, hfpnw, hfpmatch⟩ := hopen (from_pos, prio) hmem
      have hfpt2 : prio.total = prio.from_start +
          (LeastMovesBoard.new round.board round.target_position).min_moves
            from_pos round.target := hfpt
      have hfpnw2 : round.target_reached from_pos = false := hfpnw
      have hfpm2 : FpMatch start st.visited from_pos prio := hfpmatch
      have hrestsub : ∀ e ∈ rest, e ∈ st.open_list := fun e he =>
        hperm.mem_iff.mpr (List.mem_cons_of_mem _ he)
      have hcons_nd : (((from_pos, prio) :: rest).map Prod.fst).Nodup :=
        ((hperm.map Prod.fst).nodup_iff).mp hond
      have hrestnd : (rest.map Prod.fst).Nodup := by
        simp only [List.map_cons] at hcons_nd
        exact (List.nodup_cons.mp hcons_nd).2
      by_cases hbreak : st.found_minimum ≤ prio.total
      · have hres : aStarLoop round
            (LeastMovesBoard.new round.board round.target_position) (fuel + 1)
            st = AStarState.mk st.visited rest st.found_minimum
              st.found_final_position := by
          simp only [aStarLoop, hpop]
          rw [if_pos hbreak]
        rw [hres]
        have hdone : DoneSt round moves.length st := by
          rcases hdp with hd | hp
          · exact hd
          · exfalso
            obtain ⟨y, cy, hm, hcyL⟩ := aStar_good_open round start moves htp
              hin hwin hopt hs0 st hrec hopen hp
            have hmax : cy.isAbove prio = false :=
              popMax_max st.open_list from_pos prio rest hpop (y, cy) hm
            have hle := isAbove_false_le hmax
            have hbest := hp.1
            rcases hle with h | ⟨h, _⟩ <;> omega
        exact ⟨hrec, hdone.1, hdone.2.1, hdone.2.2⟩
      · have hprioL : prio.total ≤ moves.length := by
          rcases hdp with hd | hp
          · have h3 := hd.2.2
            omega
          · obtain ⟨y, cy, hm, hcyL⟩ := aStar_good_open round start moves htp
              hin hwin hopt hs0 st hrec hopen hp
            have hmax : cy.isAbove prio = false :=
              popMax_max st.open_list from_pos prio rest hpop (y, cy) hm
            have hle := isAbove_false_le hmax
            rcases hle with h | ⟨h, _⟩ <;> omega
        have hmid1 : FoldMid round
            (LeastMovesBoard.new round.board round.target_position) start
            from_pos prio moves.length
            (AStarState.mk st.visited rest st.found_minimum
              st.found_final_position) := by
          refine ⟨hrec, ?_, hrestnd, hfpm2, hfpnw2, hfpt2, ?_⟩
          · intro e he
            exact hopen e (hrestsub e he)
          · rcases hdp with hd | hp
            · exact Or.inl ⟨hd.1, hd.2.1, hd.2.2⟩
            · right
              refine ⟨hp.1, hp.2.1, ?_, ?_⟩
              · rcases hp.2.2.1 with ⟨cy0, hm0, hz0⟩ | hcov
                · rcases List.mem_cons.mp (hperm.mem_iff.mp hm0) with heq | hm0r
                  · exact Or.inl (congrArg Prod.fst heq)
                  · exact Or.inr (Or.inl ⟨cy0, hm0r, hz0⟩)
                · exact Or.inr (Or.inr hcov)
              · intro x n hx
                rcases hp.2.2.2 x n hx with ⟨cy, hm, hle⟩ | hcv
                · rcases List.mem_cons.mp (hperm.mem_iff.mp hm) with heq | hmr
                  · exact Or.inl (congrArg Prod.fst heq)
                  · exact Or.inr (Or.inl ⟨cy, hmr, hle⟩)
                · exact Or.inr (Or.inr hcv)
        have htodo : ∀ pm ∈ from_pos.reachable_positions round.board,
            StepTo round.board from_pos
              (pm : RobotPositions × (Robot × Direction)).2 pm.1 :=
          fun pm hpm => (mem_reachable_iff round.board from_pos pm).mp hpm
        obtain ⟨hmidf, hmonof, hphif, hdonef, hpendf⟩ :=
          aStar_fold round start moves htp hin hopt hL1 hLmax
            (LeastMovesBoard.new round.board round.target_position) rfl hprioL
            (from_pos.reachable_positions round.board)
            (AStarState.mk st.visited rest st.found_minimum
              st.found_final_position) hmid1 htodo
        obtain ⟨hrecf, hopenf, hondf, hfpmf, hfpnwf, hfptf, hdpf⟩ := hmidf
        have hAf : AInv round
            (LeastMovesBoard.new round.board round.target_position) start
            moves.length
            ((from_pos.reachable_positions round.board).foldl
              (fun acc pm => aStarHandleSuccessor round
                (LeastMovesBoard.new round.board round.target_position) acc
                from_pos prio pm.1 pm.2)
              (AStarState.mk st.visited rest st.found_minimum
                st.found_final_position)) := by
          refine ⟨hrecf, hopenf, hondf, ?_⟩
          rcases hdpf with hd | hpf
          · exact Or.inl hd
          · right
            have hcovall := hpendf hpf
            have hcovfp : Covered round
                ((from_pos.reachable_positions round.board).foldl
                  (fun acc pm => aStarHandleSuccessor round
                    (LeastMovesBoard.new round.board round.target_position) acc
                    from_pos prio pm.1 pm.2)
                  (AStarState.mk st.visited rest st.found_minimum
                    st.found_final_position)).visited from_pos
                prio.from_start := by
              intro pm hpm
              obtain ⟨h1, n2, hg2, hle2⟩ := hcovall pm hpm
              exact ⟨h1, n2, hg2, hle2⟩
            refine ⟨hpf.1, hpf.2.1, ?_, ?_⟩
            · rcases hpf.2.2.1 with hsf | hrest2
              · -- start = from_pos: the popped entry was the start entry
                have hpst : PendingInv round start st := by
                  rcases hdp with hd | hp
                  · exfalso
                    have hdf := hdonef ⟨hd.1, hd.2.1, hd.2.2⟩
                    have h1 := hpf.1
                    have h2 := hdf.2.2
                    omega
                  · exact hp
                rcases hpst.2.2.1 with ⟨cy0, hm0, hz0⟩ | hcov0
                · have hm0b : (from_pos, cy0) ∈ st.open_list := by
                    rw [← hsf]
                    exact hm0
                  have hcy0 : cy0 = prio := mem_unique_of_nodup hond hm0b hmem
                  have hfrom0 : prio.from_start = 0 := by
                    rw [← hcy0]
                    exact hz0
                  right
                  rw [hsf]
                  rw [← hfrom0]
                  exact hcovfp
                · right
                  exact covered_mono hcov0 hmonof
              · exact hrest2
            · intro x n hx
              rcases hpf.2.2.2 x n hx with hxfp | hopen2 | hcov2
              · right
                refine ⟨prio.from_start, ?_, ?_⟩
                · rcases hfpmf with ⟨_, h0⟩ | ⟨nf, hgf, hcf⟩
                  · omega
                  · have hxg : _ = some n := hx
                    rw [hxfp] at hxg
                    rw [hgf] at hxg
                    have hnfn : nf = n := Option.some.inj hxg
                    have h5 : nf.moves_to_reach = n.moves_to_reach := by
                      rw [hnfn]
                    omega
                · rw [hxfp]
                  exact hcovfp
              · exact Or.inl hopen2
              · exact Or.inr hcov2
        have hlenO : st.open_list.length = rest.length + 1 := by
          have hle := hperm.length_eq
          simpa using hle
        have hphi_lt : aPhi round.board.side_length
            ((from_pos.reachable_positions round.board).foldl
              (fun acc pm => aStarHandleSuccessor round
                (LeastMovesBoard.new round.board round.target_position) acc
                from_pos prio pm.1 pm.2)
              (AStarState.mk st.visited rest st.found_minimum
                st.found_final_position)) < fuel := by
          have h1 : aPhi round.board.side_length
              (AStarState.mk st.visited rest st.found_minimum
                st.found_final_position) + 1 =
              aPhi round.board.side_length st := by
            simp only [aPhi]
            omega
          omega
        have hres : aStarLoop round
            (LeastMovesBoard.new round.board round.target_position) (fuel + 1)
            st = aStarLoop round
              (LeastMovesBoard.new round.board round.target_position) fuel
              ((from_pos.reachable_positions round.board).foldl
                (fun acc pm => aStarHandleSuccessor round
                  (LeastMovesBoard.new round.board round.target_position) acc
                  from_pos prio pm.1 pm.2)
                (AStarState.mk st.visited rest st.found_minimum
                  st.found_final_position)) := by
          simp only [aStarLoop, hpop]
          rw [if_neg hbreak]
        rw [hres]
        exact ih _ hAf hphi_lt

/-- `AStar::solve` returns an optimal path on solvable in-bounds instances
(fuel covering the worst-case iteration count of the pop loop). -/
theorem a_star_solve_optimal (round : Round) (start : RobotPositions)
    (htp : round.target_position.InBounds round.board.side_length)
    (hin : ∀ rb, (start.get rb).InBounds round.board.side_length)
    (moves : List (Robot × Direction))
    (hwin : round.target_reached (applyMoves round.board start moves) = true)
    (hopt : ∀ ms : List (Robot × Direction),
      round.target_reached (applyMoves round.board start ms) = true →
      moves.length ≤ ms.length)
    (hLmax : moves.length < USIZE_MAX) :
    ∃ p : Path, a_star_solve round start
        ((stateBound round.board.side_length + 1) *
          (stateBound round.board.side_length + 2) + 2) = some p ∧
      p.start_pos = start ∧ applyMoves round.board start p.movements = p.end_pos ∧
      round.target_reached p.end_pos = true ∧
      p.movements.length = moves.length := by
  by_cases hs : round.target_reached start = true
  · have h0 : moves.length = 0 := Nat.le_zero.mp (hopt [] hs)
    refine ⟨Path.new start start [], ?_, rfl, rfl, hs, h0.symm⟩
    show a_star_solve round start _ = some (Path.new start start [])
    rw [a_star_solve, if_pos hs]
    rfl
  · have hs0 : round.target_reached start = false := Bool.eq_false_iff.mpr hs
    obtain ⟨hmm1, hmm2⟩ := heuristic_le_moves round.board round.target
      round.target_position htp moves start hin hwin
    have hguard : (LeastMovesBoard.new round.board
        round.target_position).is_unsolvable start round.target = false := by
      unfold LeastMovesBoard.is_unsolvable
      rw [decide_eq_false_iff_not]
      show ¬ (round.board.side_length * round.board.side_length ≤
        (LeastMovesBoard.new round.board round.target_position).min_moves start
          round.target)
      omega
    have hA0 : AInv round
        (LeastMovesBoard.new round.board round.target_position) start
        moves.length
        (AStarState.mk []
          [(start, MoveCounter.new 0 ((LeastMovesBoard.new round.board
            round.target_position).min_moves start round.target))]
          USIZE_MAX start) := by
      refine ⟨⟨?_, ?_, ?_⟩, ?_, ?_, ?_⟩
      · intro s n h
        exact Option.noConfusion h
      · intro s n h
        exact Option.noConfusion h
      · simp
      · intro e he
        have he2 := List.mem_singleton.mp he
        subst he2
        exact ⟨rfl, hs0, Or.inl ⟨rfl, rfl⟩⟩
      · simp
      · right
        refine ⟨rfl, ?_, ?_, ?_⟩
        · intro x n h
          exact Option.noConfusion h
        · exact Or.inl ⟨MoveCounter.new 0 ((LeastMovesBoard.new round.board
            round.target_position).min_moves start round.target),
            List.mem_singleton.mpr rfl, rfl⟩
        · intro x n h
          exact Option.noConfusion h
    have hphi0 : aPhi round.board.side_length
        (AStarState.mk []
          [(start, MoveCounter.new 0 ((LeastMovesBoard.new round.board
            round.target_position).min_moves start round.target))]
          USIZE_MAX start) <
        (stateBound round.board.side_length + 1) *
          (stateBound round.board.side_length + 2) + 2 := by
      have h1 : aPhi round.board.side_length
          (AStarState.mk []
            [(start, MoveCounter.new 0 ((LeastMovesBoard.new round.board
              round.target_position).min_moves start round.target))]
            USIZE_MAX start) =
          (stateBound round.board.side_length + 1) *
            (stateBound round.board.side_length + 2) + 1 := rfl
      omega
    obtain ⟨hrecf, hwf, ⟨nf, hgf, hcf⟩, hbf⟩ := aStarLoop_done round start moves
      htp hin hwin hopt hs0 hLmax
      (LeastMovesBoard.new round.board round.target_position) rfl
      ((stateBound round.board.side_length + 1) *
        (stateBound round.board.side_length + 2) + 2)
      (AStarState.mk []
        [(start, MoveCounter.new 0 ((LeastMovesBoard.new round.board
          round.target_position).min_moves start round.target))]
        USIZE_MAX start) hA0 hphi0
    obtain ⟨ms, hpath, happ, h1l, h2l⟩ := path_to_len_spec hrecf.1 hgf
    have hlen : ms.length = moves.length := by
      have hge := hopt ms (by rw [happ]; exact hwf)
      omega
    refine ⟨Path.new start _ ms, ?_, rfl, happ, hwf, hlen⟩
    show a_star_solve round start _ = _
    simp only [a_star_solve]
    rw [if_neg hs, hguard, if_neg Bool.false_ne_true]
    exact hpath

/-- C1: for every solvable instance — witnessed by a winning replay `moves`
of minimal length — and every in-bounds start state, each of the three
solvers (`BreadthFirst`, `AStar`, `IdaStar`, each with fuel covering its
loop) returns a `Path` whose movements, replayed from the start via the move
simulator, end in a state satisfying the round's win predicate, and whose
length equals the minimum number of moves of any winning sequence from the
start. -/
theorem C1_solvers_return_optimal_paths (round : Round) (start : RobotPositions)
    (htp : round.target_position.InBounds round.board.side_length)
    (hin : ∀ rb, (start.get rb).InBounds round.board.side_length)
    (moves : List (Robot × Direction))
    (hwin : round.target_reached (applyMoves round.board start moves) = true)
    (hopt : ∀ ms : List (Robot × Direction),
      round.target_reached (applyMoves round.board start ms) = true →
      moves.length ≤ ms.length)
    (hLmax : moves.length < USIZE_MAX) :
    (∃ p : Path, bfs_solve round start moves.length = some p ∧
      p.start_pos = start ∧
      applyMoves round.board start p.movements = p.end_pos ∧
      round.target_reached p.end_pos = true ∧
      p.movements.length = moves.length) ∧
    (∃ p : Path, a_star_solve round start
        ((stateBound round.board.side_length + 1) *
          (stateBound round.board.side_length + 2) + 2) = some p ∧
      p.start_pos = start ∧
      applyMoves round.board start p.movements = p.end_pos ∧
      round.target_reached p.end_pos = true ∧
      p.movements.length = moves.length) ∧
    (∃ p : Path, ida_star_solve round start (moves.length + 1) = some p ∧
      p.start_pos = start ∧
      applyMoves round.board start p.movements = p.end_pos ∧
      round.target_reached p.end_pos = true ∧
      p.movements.length = moves.length) :=
  ⟨bfs_solve_optimal round start moves hwin hopt,
    a_star_solve_optimal round start htp hin moves hwin hopt hLmax,
    ida_solve_optimal round start htp hin moves hwin hopt⟩

/-- The hypotheses of the optimality theorem hold on the one-move demo
instance, and all three solvers return an optimal (one-move) path there. -/
theorem C1_solvers_return_optimal_paths_witness :
    (demoWonRound.target_position.InBounds demoWonRound.board.side_length ∧
      (∀ rb, (demoStart.get rb).InBounds demoWonRound.board.side_length) ∧
      demoWonRound.target_reached (applyMoves demoWonRound.board demoStart
        [(Robot.Red, Direction.Down)]) = true) ∧
    (∃ p : Path, bfs_solve demoWonRound demoStart 1 = some p ∧
      p.start_pos = demoStart ∧
      applyMoves demoWonRound.board demoStart p.movements = p.end_pos ∧
      demoWonRound.target_reached p.end_pos = true ∧
      p.movements.length = 1) ∧
    (∃ p : Path, a_star_solve demoWonRound demoStart
        ((stateBound demoWonRound.board.side_length + 1) *
          (stateBound demoWonRound.board.side_length + 2) + 2) = some p ∧
      p.start_pos = demoStart ∧
      applyMoves demoWonRound.board demoStart p.movements = p.end_pos ∧
      demoWonRound.target_reached p.end_pos = true ∧
      p.movements.length = 1) ∧
    (∃ p : Path, ida_star_solve demoWonRound demoStart 2 = some p ∧
      p.start_pos = demoStart ∧
      applyMoves demoWonRound.board demoStart p.movements = p.end_pos ∧
      demoWonRound.target_reached p.end_pos = true ∧
      p.movements.length = 1) := by
  have hmain := C1_solvers_return_optimal_paths demoWonRound demoStart
    (by decide) (by intro rb; cases rb <;> decide)
    [(Robot.Red, Direction.Down)] (by decide)
    (fun ms hm => by
      cases ms with
      | nil => exact absurd hm (by decide)
      | cons a l => simp)
    (by show (1:Nat) < 2 ^ 64 - 1; norm_num)
  exact ⟨⟨by decide, by intro rb; cases rb <;> decide, by decide⟩,
    hmain.1, hmain.2.1, hmain.2.2⟩

end Ricochet
